import Mathlib

/-!
# cgroup-util: a shallow embedding of `src/shared/cgroup-util.c`

C strings are lists of characters (the terminating NUL is the end of the list),
`int` results are integers (negative: `-errno`), pointers that may be `NULL`
are options.
-/

namespace CgroupUtil

/-- A C string: the characters before the terminating NUL. -/
abbrev CStr := List Char

deriving instance DecidableEq for Except

/-! ## Constants of the system headers -/

def ENOENT : Int := 2
def ESRCH : Int := 3
def EIO : Int := 5
def ENOMEM : Int := 12
def EBUSY : Int := 16
def EINVAL : Int := 22

def SIGKILL : Int := 9
def SIGTERM : Int := 15
def SIGCONT : Int := 18

def USEC_PER_MSEC : Nat := 1000

/-- The value of `FILENAME_MAX` in `<stdio.h>` (glibc). -/
def FILENAME_MAX : Nat := 4096

/-- Modelled from the spec: `SYSTEMD_CGROUP_CONTROLLER` of `def.h`, the internal
name of the authoritative hierarchy. -/
def SYSTEMD_CGROUP_CONTROLLER : CStr := "name=systemd".toList

/-! ## String helpers of `util.h` -/

/-- `startswith(s, prefix)`: the rest of `s` after `prefix`, `NULL` when `s`
does not start with it. -/
def startswith : CStr → CStr → Option CStr
  | s, [] => some s
  | [], _ :: _ => none
  | c :: s, d :: p => if c = d then startswith s p else none

/-- `strchr(s, c)` for `c ≠ 0`: the offset of the first `c` in `s`. -/
def strchr : CStr → Char → Option Nat
  | [], _ => none
  | d :: s, c => if d = c then some 0 else (strchr s c).map (· + 1)

/-- `strrchr(s, c)` for `c ≠ 0`: the offset of the last `c` in `s`. -/
def strrchr : CStr → Char → Option Nat
  | [], _ => none
  | d :: s, c =>
    match strrchr s c with
    | some i => some (i + 1)
    | none => if d = c then some 0 else none

/-- `path_is_absolute(p)`: `p[0] == '/'`. -/
def path_is_absolute (p : CStr) : Bool :=
  p.head? = some '/'

/-- The path helpers of `path-util.c` and `util.c`, which are outside
`cgroup-util.c`; the functions below take them as a parameter. -/
structure PathUtil where
  /-- `path_is_safe(p)` -/
  path_is_safe : CStr → Bool
  /-- `path_kill_slashes(p)`: the contents of the buffer afterwards -/
  path_kill_slashes : CStr → CStr

/-- Modelled from the spec: `path_kill_slashes`, which "collapses redundant
slashes": inner runs of slashes become one slash, trailing slashes go, and the
root directory keeps its slash. `slash` is the pending-slash flag and `out`
says whether a character has been emitted. -/
def kill_slashes_aux : CStr → Bool → Bool → CStr
  | [], slash, out => if !out && slash then ['/'] else []
  | c :: f, slash, out =>
    if c = '/' then kill_slashes_aux f true out
    else if slash then '/' :: c :: kill_slashes_aux f false true
    else c :: kill_slashes_aux f false true

/-- Modelled from the spec: the path is "free of . and .. segments" and not
empty. -/
def no_dot_segments (p : CStr) : Bool :=
  !p.isEmpty && (p.splitOn '/').all (fun seg => seg ≠ ['.'] ∧ seg ≠ ['.', '.'])

/-- Modelled from the spec: an instance of the path helpers, used to evaluate
the functions on concrete inputs. -/
def stdPathUtil : PathUtil where
  path_is_safe := no_dot_segments
  path_kill_slashes := fun p => kill_slashes_aux p false false

/-! ## Controller names -/

/-- `normalize_controller` (cgroup-util.c:438). -/
def normalize_controller (controller : CStr) : CStr :=
  if controller = SYSTEMD_CGROUP_CONTROLLER then "systemd".toList
  else
    match startswith controller "name=".toList with
    | some rest => rest
    | none => controller

/-- `CONTROLLER_VALID` (cgroup-util.c:1513). -/
def CONTROLLER_VALID : CStr :=
  ("0123456789" ++ "abcdefghijklmnopqrstuvwxyz" ++ "ABCDEFGHIJKLMNOPQRSTUVWXYZ" ++ "_").toList

/-- `cg_controller_is_valid` (cgroup-util.c:1519); `none` is the `NULL` pointer. -/
def cg_controller_is_valid (p : Option CStr) (allow_named : Bool) : Bool :=
  match p with
  | none => false
  | some p =>
    let p :=
      if allow_named then
        match startswith p "name=".toList with
        | some s => s
        | none => p
      else p
    if p.head? = none ∨ p.head? = some '_' then false
    else if p.any (fun t => (strchr CONTROLLER_VALID t).isNone) then false
    else if p.length > FILENAME_MAX then false
    else true

/-! ## Spec strings -/

/-- `cg_split_spec` (cgroup-util.c:895), called with both output pointers set.
The result is the error, or the values stored in `*controller` and `*path`
(`none`: `NULL`). Allocation does not fail. -/
def cg_split_spec (U : PathUtil) (spec : CStr) : Except Int (Option CStr × Option CStr) :=
  if spec.head? = some '/' then
    if !U.path_is_safe spec then .error (-EINVAL)
    else .ok (none, some (U.path_kill_slashes spec))
  else
    match strchr spec ':' with
    | none =>
      if !cg_controller_is_valid (some spec) true then .error (-EINVAL)
      else .ok (some (normalize_controller spec), none)
    | some e =>
      let v := spec.take e
      let t := normalize_controller v
      if !cg_controller_is_valid (some t) true then .error (-EINVAL)
      else
        let u := spec.drop (e + 1)
        if !U.path_is_safe u || !path_is_absolute u then .error (-EINVAL)
        else .ok (some t, some (U.path_kill_slashes u))

/-- `cg_join_spec` (cgroup-util.c:978); `controller = none` is `NULL`.
Allocation does not fail. -/
def cg_join_spec (U : PathUtil) (controller : Option CStr) (path : CStr) : Except Int CStr :=
  match controller with
  | none =>
    if !path_is_absolute path then .error (-EINVAL)
    else .ok ("systemd".toList ++ ':' :: U.path_kill_slashes path)
  | some c =>
    if !cg_controller_is_valid (some c) true then .error (-EINVAL)
    else
      let controller := normalize_controller c
      if !path_is_absolute path then .error (-EINVAL)
      else .ok (controller ++ ':' :: U.path_kill_slashes path)

/-! ## Escaping of names -/

/-- `check_hierarchy` (cgroup-util.c:505). `access p` is the `errno` of
`access(p, F_OK)`, `0` when the call succeeds; it stands for the state of the
file system, that is for the set of mounted controllers. -/
def check_hierarchy (access : CStr → Nat) (p : CStr) : Int :=
  let cc := "/sys/fs/cgroup/".toList ++ p
  if access cc ≠ 0 then -(access cc : Int) else 0

/-- `cg_escape` (cgroup-util.c:1456): the string returned. -/
def cg_escape (access : CStr → Nat) (p : CStr) : CStr :=
  let need_prefix : Bool :=
    if p.head? = none ∨ p.head? = some '_' ∨ p.head? = some '.' ∨
        p = "notify_on_release".toList ∨ p = "release_agent".toList ∨ p = "tasks".toList then
      true
    else
      match strrchr p '.' with
      | some dot =>
        if dot = 6 ∧ p.take 6 = "cgroup".toList then true
        else
          let n := p.take dot
          if check_hierarchy access n ≥ 0 then true else false
      | none => false
  if need_prefix then '_' :: p else p

/-- `cg_unescape` (cgroup-util.c:1501). -/
def cg_unescape (p : CStr) : CStr :=
  match p with
  | '_' :: rest => rest
  | _ => p

/-! ## The world around the module

The functions of the module that only resolve a path and issue one system
call (`cg_enumerate_processes`, `cg_enumerate_subgroups`, `cg_rmdir`,
`cg_attach`, `cg_trim`), `cg_create` of `cgroup-label.c`, `kill`, `usleep` and
`getpid` are the boundary to the world. Every call at the boundary is recorded
in a log, and the answer of the world may depend on the arguments and on the
time of the call, the number of calls made before it. Memory allocation does
not fail. -/

/-- One `fscanf(f, "%lu", &ul)` on a membership file that is not at its end:
a converted value, or no conversion with the value of `errno` afterwards. -/
inductive Scan where
  | num (ul : Nat)
  | fail (errno : Nat)
  deriving DecidableEq, Repr

/-- An open membership file: what the successive `fscanf` calls find before the
end of the file. -/
abbrev FILE := List Scan

/-- One `cg_read_subgroup` on a directory stream that is not at its end: the
name of the next subgroup, or a failure with its `errno`. -/
inductive SubRead where
  | name (fn : CStr)
  | fail (errno : Nat)
  deriving DecidableEq, Repr

/-- An open directory stream: what the successive `cg_read_subgroup` calls
return before the end of the directory. -/
abbrev DIR := List SubRead

/-- A call at the boundary, with its arguments and its result. -/
inductive Event where
  /-- `cg_enumerate_processes(controller, path, &f)` returned `r` -/
  | enumerate_processes (controller : Option CStr) (path : CStr) (r : Int)
  /-- `kill(pid, sig)` of the requested signal; `errno = 0`: delivered -/
  | kill (pid sig : Int) (errno : Nat)
  /-- the `kill(pid, SIGCONT)` that follows a delivered signal -/
  | kill_cont (pid : Int)
  /-- `cg_enumerate_subgroups(controller, path, &d)` returned `r` -/
  | enumerate_subgroups (controller : Option CStr) (path : CStr) (r : Int)
  /-- `cg_rmdir(controller, path)` returned `r` -/
  | rmdir (controller : Option CStr) (path : CStr) (r : Int)
  /-- `cg_attach(controller, path, pid)` returned `r` -/
  | attach (controller : Option CStr) (path : CStr) (pid : Int) (r : Int)
  /-- `cg_create(controller, path)` returned `r` -/
  | create (controller : Option CStr) (path : CStr) (r : Int)
  /-- `cg_trim(controller, path, delete_root)` returned `r` -/
  | trim (controller : Option CStr) (path : CStr) (delete_root : Bool) (r : Int)
  /-- `usleep(usec)` -/
  | usleep (usec : Nat)
  deriving DecidableEq, Repr

/-- The calls made so far, oldest first. -/
abbrev Log := List Event

/-- The answers of the world. The first argument of each answer is the time of
the call. -/
structure World where
  /-- `getpid()` -/
  getpid : Int
  /-- `cg_enumerate_processes`: the result and, when it is not negative, the
  file opened -/
  enumerate_processes : Nat → Option CStr → CStr → Int × FILE
  /-- `kill(pid, sig)`: `errno`, `0` when the call succeeds -/
  kill : Nat → Int → Int → Nat
  /-- `cg_enumerate_subgroups`: the result and, when it is not negative, the
  directory stream opened -/
  enumerate_subgroups : Nat → Option CStr → CStr → Int × DIR
  /-- `cg_rmdir` -/
  rmdir : Nat → Option CStr → CStr → Int
  /-- `cg_attach` -/
  attach : Nat → Option CStr → CStr → Int → Int
  /-- `cg_create` -/
  create : Nat → Option CStr → CStr → Int
  /-- `cg_trim` -/
  trim : Nat → Option CStr → CStr → Bool → Int

/-! ## The set of process ids -/

/-- Modelled from the spec: the `Set` of `set.h` with the trivial hash
functions, holding the pids "already acted upon". -/
abbrev PidSet := List Int

/-- Modelled from the spec: `set_get(s, key)`, the stored key, `NULL` (zero)
when the key is not in the set. -/
def set_get (s : PidSet) (key : Int) : Int :=
  if key ∈ s then key else 0

/-- Modelled from the spec: `set_put(s, key)`, the result (`1` when the key was
added, `0` when it was there already) and the set afterwards. -/
def set_put (s : PidSet) (key : Int) : Int × PidSet :=
  if key ∈ s then (0, s) else (1, key :: s)

/-! ## Reading the membership file -/

/-- The conversion `(pid_t) ul` of an `unsigned long` to the 32-bit signed
`pid_t`. -/
def pid_t_of_ulong (ul : Nat) : Int :=
  let m : Nat := ul % 2 ^ 32
  if m < 2 ^ 31 then (m : Int) else (m : Int) - 2 ^ 32

/-- `cg_read_pid` (cgroup-util.c:62). `scan` is what `fscanf` finds (`none`:
the end of the file) and `_pid` the value of `*_pid` before the call; the
result is the return value and the value of `*_pid` afterwards. -/
def cg_read_pid (scan : Option Scan) (_pid : Int) : Int × Int :=
  match scan with
  | none => (0, _pid)
  | some (.fail errno) => (if errno ≠ 0 then -(errno : Int) else - EIO, _pid)
  | some (.num ul) =>
    if ul ≤ 0 then (- EIO, _pid)
    else (1, pid_t_of_ulong ul)

/-- `cg_read_subgroup` (cgroup-util.c:108) on the next answer of the directory
stream (`none`: its end): the return value and the name stored in `*fn`. -/
def cg_read_subgroup (rd : Option SubRead) : Int × Option CStr :=
  match rd with
  | none => (0, none)
  | some (.fail errno) => (-(errno : Int), none)
  | some (.name fn) => (1, some fn)

/-! ## Killing the processes of a cgroup -/

/-- The local variables of `cg_kill` and `cg_migrate` together with the set and
the log. -/
structure LoopState where
  ret : Int
  done : Bool
  s : PidSet
  log : Log
  deriving DecidableEq, Repr

/-- The body of `while ((r = cg_read_pid(f, &pid)) > 0)` in `cg_kill`
(cgroup-util.c:185-212) for the pid just read. The first component is the value
of a `return` statement executed in the body. -/
def cg_kill_body (W : World) (sig : Int) (sigcont ignore_self : Bool) (pid : Int)
    (st : LoopState) : Option Int × LoopState :=
  if ignore_self ∧ pid = W.getpid then (none, st)
  else if set_get st.s pid = pid then (none, st)
  else
    let errno := W.kill st.log.length pid sig
    let log := st.log ++ [Event.kill pid sig errno]
    let st1 : LoopState :=
      if errno ≠ 0 then
        if st.ret ≥ 0 ∧ (errno : Int) ≠ ESRCH then { st with ret := -(errno : Int), log := log }
        else { st with log := log }
      else if st.ret = 0 then
        if sigcont then { st with ret := 1, log := log ++ [Event.kill_cont pid] }
        else { st with ret := 1, log := log }
      else { st with log := log }
    let st2 : LoopState := { st1 with done := false }
    let put := set_put st2.s pid
    let st3 : LoopState := { st2 with s := put.2 }
    if put.1 < 0 then
      if st3.ret ≥ 0 then (some put.1, st3) else (some st3.ret, st3)
    else (none, st3)

/-- The loop `while ((r = cg_read_pid(f, &pid)) > 0)` of `cg_kill` with the
`if (r < 0)` that follows it (cgroup-util.c:183-220), on the rest `f` of the
file. The first component is the value of a `return` statement executed
there. -/
def cg_kill_while (W : World) (sig : Int) (sigcont ignore_self : Bool) :
    FILE → Int → LoopState → Option Int × LoopState
  | [], pid, st =>
    let r := (cg_read_pid none pid).1
    if r < 0 then
      if st.ret ≥ 0 then (some r, st) else (some st.ret, st)
    else (none, st)
  | x :: f, pid, st =>
    let rd := cg_read_pid (some x) pid
    if rd.1 > 0 then
      match cg_kill_body W sig sigcont ignore_self rd.2 st with
      | (some v, st1) => (some v, st1)
      | (none, st1) => cg_kill_while W sig sigcont ignore_self f rd.2 st1
    else if rd.1 < 0 then
      if st.ret ≥ 0 then (some rd.1, st) else (some st.ret, st)
    else (none, st)

/-- The `do ... while (!done)` loop of `cg_kill` (cgroup-util.c:170-226), at
most `passes` times; the result is `none` when that many passes did not end the
loop. -/
def cg_kill_loop (W : World) (controller : Option CStr) (path : CStr) (sig : Int)
    (sigcont ignore_self : Bool) : Nat → Int → PidSet → Log → Option Int × PidSet × Log
  | 0, _, s, log => (none, s, log)
  | passes + 1, ret, s, log =>
    let op := W.enumerate_processes log.length controller path
    let log1 := log ++ [Event.enumerate_processes controller path op.1]
    if op.1 < 0 then
      if ret ≥ 0 ∧ op.1 ≠ -ENOENT then (some op.1, s, log1)
      else (some ret, s, log1)
    else
      match cg_kill_while W sig sigcont ignore_self op.2 0
          { ret := ret, done := true, s := s, log := log1 } with
      | (some v, st) => (some v, st.s, st.log)
      | (none, st) =>
        if !st.done then cg_kill_loop W controller path sig sigcont ignore_self passes st.ret st.s st.log
        else (some st.ret, st.s, st.log)

/-- The number of values of `pid_t`: a pass of the loops of `cg_kill` and
`cg_migrate` that does not end the loop puts a new value of `pid_t` into the
set, so the loops make at most this many passes. -/
def PID_T_VALUES : Nat := 2 ^ 32

/-- `cg_kill` (cgroup-util.c:150): the return value, the set and the log
afterwards. `s = none` is the `NULL` set, for which a set is allocated. The
loop is given `PID_T_VALUES` passes; they always end it, so the return value is
never `none` (theorem `cg_kill_spec`). The code asserts `sig >= 0`; what it
returns is stated for such signals. -/
def cg_kill (W : World) (controller : Option CStr) (path : CStr) (sig : Int)
    (sigcont ignore_self : Bool) (s : Option PidSet) (log : Log) : Option Int × PidSet × Log :=
  let s := s.getD []
  cg_kill_loop W controller path sig sigcont ignore_self PID_T_VALUES 0 s log

/-- The loop `while ((r = cg_read_subgroup(d, &fn)) > 0)` of
`cg_kill_recursive` (cgroup-util.c:256-267) on the rest of the directory
stream; `recurse p s log` is the recursive call on the subgroup `p`. The result
is `ret` (`none` when a recursive call gave no result), the last value of `r`,
the set and the log. -/
def cg_kill_recursive_while (recurse : CStr → PidSet → Log → Option Int × PidSet × Log)
    (path : CStr) : DIR → Int → PidSet → Log → Option Int × Int × PidSet × Log
  | [], ret, s, log => (some ret, (cg_read_subgroup none).1, s, log)
  | x :: d, ret, s, log =>
    let rd := cg_read_subgroup (some x)
    if rd.1 > 0 then
      let fn := match rd.2 with
        | some fn => fn
        | none => []
      let p := path ++ '/' :: fn
      match recurse p s log with
      | (none, s1, log1) => (none, rd.1, s1, log1)
      | (some r, s1, log1) =>
        let ret1 := if ret ≥ 0 ∧ r ≠ 0 then r else ret
        cg_kill_recursive_while recurse path d ret1 s1 log1
    else (some ret, rd.1, s, log)

/-- `cg_kill_recursive` (cgroup-util.c:231): the return value, the set and the
log afterwards. `depth` bounds the depth of the recursion into subgroups: the
return value is `none` when the tree of cgroups is deeper. -/
def cg_kill_recursive (W : World) : Nat → Option CStr → CStr → Int → Bool → Bool → Bool →
    Option PidSet → Log → Option Int × PidSet × Log
  | 0, _, _, _, _, _, _, s, log => (none, s.getD [], log)
  | depth + 1, controller, path, sig, sigcont, ignore_self, rem, s, log =>
    let s0 := s.getD []
    match cg_kill W controller path sig sigcont ignore_self (some s0) log with
    | (none, s1, log1) => (none, s1, log1)
    | (some ret, s1, log1) =>
      let od := W.enumerate_subgroups log1.length controller path
      let log2 := log1 ++ [Event.enumerate_subgroups controller path od.1]
      if od.1 < 0 then
        if ret ≥ 0 ∧ od.1 ≠ -ENOENT then (some od.1, s1, log2)
        else (some ret, s1, log2)
      else
        match cg_kill_recursive_while
            (fun p s log =>
              cg_kill_recursive W depth controller p sig sigcont ignore_self rem (some s) log)
            path od.2 ret s1 log2 with
        | (none, _, s3, log3) => (none, s3, log3)
        | (some ret3, r, s3, log3) =>
          let ret4 := if ret3 ≥ 0 ∧ r < 0 then r else ret3
          if rem then
            let rr := W.rmdir log3.length controller path
            let log4 := log3 ++ [Event.rmdir controller path rr]
            if rr < 0 ∧ ret4 ≥ 0 ∧ rr ≠ -ENOENT ∧ rr ≠ -EBUSY then (some rr, s3, log4)
            else (some ret4, s3, log4)
          else (some ret4, s3, log3)

/-- The loop `for (i = 0; i < 15; i++)` of `cg_kill_recursive_and_wait`
(cgroup-util.c:292-309) from the value `i` of the counter on, with `n` bounding
the number of iterations left. -/
def cg_kill_recursive_and_wait_for (W : World) (depth : Nat) (controller : Option CStr)
    (path : CStr) (rem : Bool) : Nat → Nat → Log → Option Int × Log
  | 0, _, log => (none, log)
  | n + 1, i, log =>
    if i < 15 then
      let sig : Int :=
        if i ≤ 0 then SIGTERM
        else if i = 9 then SIGKILL
        else 0
      match cg_kill_recursive W depth controller path sig true true rem none log with
      | (none, _, log1) => (none, log1)
      | (some r, _, log1) =>
        if r ≤ 0 then (some r, log1)
        else
          cg_kill_recursive_and_wait_for W depth controller path rem n (i + 1)
            (log1 ++ [Event.usleep (200 * USEC_PER_MSEC)])
    else (some 0, log)

/-- `cg_kill_recursive_and_wait` (cgroup-util.c:281). -/
def cg_kill_recursive_and_wait (W : World) (depth : Nat) (controller : Option CStr)
    (path : CStr) (rem : Bool) (log : Log) : Option Int × Log :=
  cg_kill_recursive_and_wait_for W depth controller path rem 16 0 log

/-! ## Migrating the processes of a cgroup -/

/-- The body of `while ((r = cg_read_pid(f, &pid)) > 0)` in `cg_migrate`
(cgroup-util.c:347-368) for the pid just read. -/
def cg_migrate_body (W : World) (cto : Option CStr) (pto : CStr) (ignore_self : Bool)
    (pid : Int) (st : LoopState) : Option Int × LoopState :=
  if ignore_self ∧ pid = W.getpid then (none, st)
  else if set_get st.s pid = pid then (none, st)
  else
    let r := W.attach st.log.length cto pto pid
    let log := st.log ++ [Event.attach cto pto pid r]
    let st1 : LoopState :=
      if r < 0 then
        if st.ret ≥ 0 ∧ r ≠ -ESRCH then { st with ret := r, log := log }
        else { st with log := log }
      else if st.ret = 0 then { st with ret := 1, log := log }
      else { st with log := log }
    let st2 : LoopState := { st1 with done := false }
    let put := set_put st2.s pid
    let st3 : LoopState := { st2 with s := put.2 }
    if put.1 < 0 then
      if st3.ret ≥ 0 then (some put.1, st3) else (some st3.ret, st3)
    else (none, st3)

/-- The loop `while ((r = cg_read_pid(f, &pid)) > 0)` of `cg_migrate` with the
`if (r < 0)` that follows it (cgroup-util.c:342-376). -/
def cg_migrate_while (W : World) (cto : Option CStr) (pto : CStr) (ignore_self : Bool) :
    FILE → Int → LoopState → Option Int × LoopState
  | [], pid, st =>
    let r := (cg_read_pid none pid).1
    if r < 0 then
      if st.ret ≥ 0 then (some r, st) else (some st.ret, st)
    else (none, st)
  | x :: f, pid, st =>
    let rd := cg_read_pid (some x) pid
    if rd.1 > 0 then
      match cg_migrate_body W cto pto ignore_self rd.2 st with
      | (some v, st1) => (some v, st1)
      | (none, st1) => cg_migrate_while W cto pto ignore_self f rd.2 st1
    else if rd.1 < 0 then
      if st.ret ≥ 0 then (some rd.1, st) else (some st.ret, st)
    else (none, st)

/-- The `do ... while (!done)` loop of `cg_migrate` (cgroup-util.c:329-377), at
most `passes` times. -/
def cg_migrate_loop (W : World) (cfrom : Option CStr) (pfrom : CStr) (cto : Option CStr)
    (pto : CStr) (ignore_self : Bool) : Nat → Int → PidSet → Log → Option Int × PidSet × Log
  | 0, _, s, log => (none, s, log)
  | passes + 1, ret, s, log =>
    let op := W.enumerate_processes log.length cfrom pfrom
    let log1 := log ++ [Event.enumerate_processes cfrom pfrom op.1]
    if op.1 < 0 then
      if ret ≥ 0 ∧ op.1 ≠ -ENOENT then (some op.1, s, log1)
      else (some ret, s, log1)
    else
      match cg_migrate_while W cto pto ignore_self op.2 0
          { ret := ret, done := true, s := s, log := log1 } with
      | (some v, st) => (some v, st.s, st.log)
      | (none, st) =>
        if !st.done then cg_migrate_loop W cfrom pfrom cto pto ignore_self passes st.ret st.s st.log
        else (some st.ret, st.s, st.log)

/-- `cg_migrate` (cgroup-util.c:312): the return value and the log afterwards;
the set is allocated by the call and freed at its end. The loop is given
`PID_T_VALUES` passes; they always end it, so the return value is never `none`
(theorem `cg_migrate_spec`). The code asserts that `cfrom` and `cto` are not
`NULL`, and `cg_attach`, a call at the boundary here, asserts `pid >= 0`; what
the function returns is stated for controllers that are not `NULL` and
membership files that list process ids. -/
def cg_migrate (W : World) (cfrom : Option CStr) (pfrom : CStr) (cto : Option CStr)
    (pto : CStr) (ignore_self : Bool) (log : Log) : Option Int × Log :=
  let out := cg_migrate_loop W cfrom pfrom cto pto ignore_self PID_T_VALUES 0 [] log
  (out.1, out.2.2)

/-- The loop `while ((r = cg_read_subgroup(d, &fn)) > 0)` of
`cg_migrate_recursive` (cgroup-util.c:409-424); `recurse p log` is the
recursive call on the subgroup `p`. -/
def cg_migrate_recursive_while (recurse : CStr → Log → Option Int × Log)
    (pfrom : CStr) : DIR → Int → Log → Option Int × Int × Log
  | [], ret, log => (some ret, (cg_read_subgroup none).1, log)
  | x :: d, ret, log =>
    let rd := cg_read_subgroup (some x)
    if rd.1 > 0 then
      let fn := match rd.2 with
        | some fn => fn
        | none => []
      let p := pfrom ++ '/' :: fn
      match recurse p log with
      | (none, log1) => (none, rd.1, log1)
      | (some r, log1) =>
        let ret1 := if r ≠ 0 ∧ ret ≥ 0 then r else ret
        cg_migrate_recursive_while recurse pfrom d ret1 log1
    else (some ret, rd.1, log)

/-- `cg_migrate_recursive` (cgroup-util.c:382): the return value and the log
afterwards; `depth` bounds the depth of the recursion into subgroups. -/
def cg_migrate_recursive (W : World) : Nat → Option CStr → CStr → Option CStr → CStr →
    Bool → Bool → Log → Option Int × Log
  | 0, _, _, _, _, _, _, log => (none, log)
  | depth + 1, cfrom, pfrom, cto, pto, ignore_self, rem, log =>
    match cg_migrate W cfrom pfrom cto pto ignore_self log with
    | (none, log1) => (none, log1)
    | (some ret, log1) =>
      let od := W.enumerate_subgroups log1.length cfrom pfrom
      let log2 := log1 ++ [Event.enumerate_subgroups cfrom pfrom od.1]
      if od.1 < 0 then
        if ret ≥ 0 ∧ od.1 ≠ -ENOENT then (some od.1, log2)
        else (some ret, log2)
      else
        match cg_migrate_recursive_while
            (fun p log => cg_migrate_recursive W depth cfrom p cto pto ignore_self rem log)
            pfrom od.2 ret log2 with
        | (none, _, log3) => (none, log3)
        | (some ret3, r, log3) =>
          let ret4 := if r < 0 ∧ ret3 ≥ 0 then r else ret3
          if rem then
            let rr := W.rmdir log3.length cfrom pfrom
            let log4 := log3 ++ [Event.rmdir cfrom pfrom rr]
            if rr < 0 ∧ ret4 ≥ 0 ∧ rr ≠ -ENOENT ∧ rr ≠ -EBUSY then (some rr, log4)
            else (some ret4, log4)
          else (some ret4, log3)

/-! ## Operations on all hierarchies -/

/-- `mask_names` (cgroup-util.c:1605), the names that `NULSTR_FOREACH` visits. -/
def mask_names : List CStr :=
  ["cpu".toList, "cpuacct".toList, "blkio".toList, "memory".toList, "devices".toList]

/-- The loop `NULSTR_FOREACH(n, mask_names)` of `cg_create_with_mask`
(cgroup-util.c:1627-1634) on the names left, with the value of `bit`. -/
def cg_create_with_mask_for (W : World) (mask : Nat) (path : CStr) :
    List CStr → Nat → Log → Log
  | [], _, log => log
  | n :: names, bit, log =>
    let log1 :=
      if bit &&& mask ≠ 0 then
        log ++ [Event.create (some n) path (W.create log.length (some n) path)]
      else
        log ++ [Event.trim (some n) path true (W.trim log.length (some n) path true)]
    cg_create_with_mask_for W mask path names (bit <<< 1) log1

/-- `cg_create_with_mask` (cgroup-util.c:1612): the return value and the log
afterwards. -/
def cg_create_with_mask (W : World) (mask : Nat) (path : CStr) (log : Log) : Int × Log :=
  let r := W.create log.length (some SYSTEMD_CGROUP_CONTROLLER) path
  let log1 := log ++ [Event.create (some SYSTEMD_CGROUP_CONTROLLER) path r]
  if r < 0 then (r, log1)
  else (r, cg_create_with_mask_for W mask path mask_names 1 log1)

/-- The loop `while ((slash = strrchr(prefix, '/')))` of `cg_attach_with_mask`
(cgroup-util.c:1656-1663) on the contents `pfx` of the buffer `prefix`, at most
`n` times. -/
def cg_attach_with_mask_while (W : World) (name : CStr) (pid : Int) :
    Nat → CStr → Log → Log
  | 0, _, log => log
  | n + 1, pfx, log =>
    match strrchr pfx '/' with
    | none => log
    | some slash =>
      let pfx1 := pfx.take slash
      let q := W.attach log.length (some name) pfx1 pid
      let log1 := log ++ [Event.attach (some name) pfx1 pid q]
      if q ≥ 0 then log1
      else cg_attach_with_mask_while W name pid n pfx1 log1

/-- The loop `NULSTR_FOREACH(n, mask_names)` of `cg_attach_with_mask`
(cgroup-util.c:1646-1667) on the names left, with the value of `bit`. The inner
loop shortens the buffer in every iteration, so the length of `path` bounds the
number of its iterations. -/
def cg_attach_with_mask_for (W : World) (mask : Nat) (path : CStr) (pid : Int) :
    List CStr → Nat → Log → Log
  | [], _, log => log
  | n :: names, bit, log =>
    let log1 :=
      if bit &&& mask ≠ 0 then
        log ++ [Event.attach (some n) path pid (W.attach log.length (some n) path pid)]
      else
        cg_attach_with_mask_while W n pid path.length path log
    cg_attach_with_mask_for W mask path pid names (bit <<< 1) log1

/-- `cg_attach_with_mask` (cgroup-util.c:1639): the return value and the log
afterwards. -/
def cg_attach_with_mask (W : World) (mask : Nat) (path : CStr) (pid : Int) (log : Log) :
    Int × Log :=
  let r := W.attach log.length (some SYSTEMD_CGROUP_CONTROLLER) path pid
  let log1 := log ++ [Event.attach (some SYSTEMD_CGROUP_CONTROLLER) path pid r]
  (r, cg_attach_with_mask_for W mask path pid mask_names 1 log1)

/-! ## The common shape of the loops of `cg_kill` and `cg_migrate`

Both loops act once on every pid that is new, update `ret` from the result of
the action and put the pid into the set. The definitions below give that shape
with the action as a parameter; they are used to reason about both loops at
once. -/

/-- How `ret` changes with the result `r` of one action (negative: `-errno`):
`if (r < 0) { if (ret >= 0 && r != -ESRCH) ret = r; } else if (ret == 0) ret = 1;` -/
def ret_step (ret r : Int) : Int :=
  if r < 0 then
    if ret ≥ 0 ∧ r ≠ -ESRCH then r else ret
  else if ret = 0 then 1
  else ret

/-- An action on a pid: its result and the calls it makes. -/
abbrev Action := LoopState → Int → Int × List Event

/-- The action of `cg_kill`: `kill(pid, sig)`, followed by `kill(pid, SIGCONT)`
where the code sends it. -/
def kill_act (W : World) (sig : Int) (sigcont : Bool) : Action := fun st pid =>
  let errno := W.kill st.log.length pid sig
  (-(errno : Int),
    Event.kill pid sig errno ::
      (if errno = 0 ∧ st.ret = 0 ∧ sigcont = true then [Event.kill_cont pid] else []))

/-- The action of `cg_migrate`: `cg_attach(cto, pto, pid)`. -/
def attach_act (W : World) (cto : Option CStr) (pto : CStr) : Action := fun st pid =>
  let r := W.attach st.log.length cto pto pid
  (r, [Event.attach cto pto pid r])

/-- The body of the loop over the pids, for an action. -/
def gen_body (W : World) (ignore_self : Bool) (act : Action) (pid : Int) (st : LoopState) :
    Option Int × LoopState :=
  if ignore_self ∧ pid = W.getpid then (none, st)
  else if set_get st.s pid = pid then (none, st)
  else
    let a := act st pid
    (none, { ret := ret_step st.ret a.1, done := false, s := pid :: st.s, log := st.log ++ a.2 })

/-- The loop over the pids of one file, for an action. -/
def gen_while (W : World) (ignore_self : Bool) (act : Action) :
    FILE → Int → LoopState → Option Int × LoopState
  | [], pid, st =>
    let r := (cg_read_pid none pid).1
    if r < 0 then
      if st.ret ≥ 0 then (some r, st) else (some st.ret, st)
    else (none, st)
  | x :: f, pid, st =>
    let rd := cg_read_pid (some x) pid
    if rd.1 > 0 then
      match gen_body W ignore_self act rd.2 st with
      | (some v, st1) => (some v, st1)
      | (none, st1) => gen_while W ignore_self act f rd.2 st1
    else if rd.1 < 0 then
      if st.ret ≥ 0 then (some rd.1, st) else (some st.ret, st)
    else (none, st)

/-- The loop over the passes, for an action. -/
def gen_loop (W : World) (ignore_self : Bool) (act : Action) (controller : Option CStr)
    (path : CStr) : Nat → Int → PidSet → Log → Option Int × PidSet × Log
  | 0, _, s, log => (none, s, log)
  | passes + 1, ret, s, log =>
    let op := W.enumerate_processes log.length controller path
    let log1 := log ++ [Event.enumerate_processes controller path op.1]
    if op.1 < 0 then
      if ret ≥ 0 ∧ op.1 ≠ -ENOENT then (some op.1, s, log1)
      else (some ret, s, log1)
    else
      match gen_while W ignore_self act op.2 0
          { ret := ret, done := true, s := s, log := log1 } with
      | (some v, st) => (some v, st.s, st.log)
      | (none, st) =>
        if !st.done then gen_loop W ignore_self act controller path passes st.ret st.s st.log
        else (some st.ret, st.s, st.log)

/-! ## Predicates used in the statements -/

/-- The characters of a controller name that passed the character loop. -/
def ctl_chars (n : CStr) : Prop :=
  ∀ c ∈ n, (strchr CONTROLLER_VALID c).isSome = true

/-- What `cg_controller_is_valid` establishes about the string it checked
(after the optional `name=` was skipped). -/
structure ctl_ok (q : CStr) : Prop where
  nonempty : q ≠ []
  no_underscore : q.head? ≠ some '_'
  chars : ctl_chars q
  len : q.length ≤ FILENAME_MAX


/-- The pid and the result (negative: `-errno`) of a `kill` of the requested
signal. -/
def kill_proj : Event → Option (Int × Int)
  | .kill pid _ errno => some (pid, -(errno : Int))
  | _ => none

/-- The pid and the result of a `cg_attach`. -/
def attach_proj : Event → Option (Int × Int)
  | .attach _ _ pid r => some (pid, r)
  | _ => none

/-- The pids to which the requested signal was sent, in the order of the
calls. -/
def kill_pids (l : List Event) : List Int :=
  (l.filterMap kill_proj).map Prod.fst

/-- The results of the `kill` calls of the requested signal (`0`, or `-errno`),
in the order of the calls. -/
def kill_results (l : List Event) : List Int :=
  (l.filterMap kill_proj).map Prod.snd

/-- The pids written by `cg_attach`, in the order of the calls. -/
def attach_pids (l : List Event) : List Int :=
  (l.filterMap attach_proj).map Prod.fst

/-- The results of the `cg_attach` calls, in the order of the calls. -/
def attach_results (l : List Event) : List Int :=
  (l.filterMap attach_proj).map Prod.snd

/-- The status that the spec gives for the results of the actions of one call:
the first failure other than `ESRCH` if there is one, otherwise `1` if an
action succeeded, otherwise `0`. -/
def aggregate (rs : List Int) : Int :=
  match rs.find? (fun r => decide (r < 0 ∧ r ≠ -ESRCH)) with
  | some e => e
  | none => if rs.any (fun r => decide (0 ≤ r)) then 1 else 0

/-- The membership file can be opened and read: the open succeeds and every
entry is a positive number. -/
def readable (o : Int × FILE) : Prop :=
  0 ≤ o.1 ∧ ∀ x ∈ o.2, ∃ ul, 0 < ul ∧ x = Scan.num ul

/-- At the time `t` the log records an open of the membership file of the
cgroup, and the file could not be opened or read. -/
def unreadable_at (W : World) (controller : Option CStr) (path : CStr) (l : Log) (t : Nat) :
    Prop :=
  l[t]? = some (Event.enumerate_processes controller path
      (W.enumerate_processes t controller path).1) ∧
    ¬ readable (W.enumerate_processes t controller path)

/-- The membership file of the cgroup could be opened and read on every pass:
at every time from `start` on at which the log `l` records an open of it. -/
def passes_readable (W : World) (controller : Option CStr) (path : CStr) (start : Nat)
    (l : Log) : Prop :=
  ∀ t, start ≤ t →
    l[t]? = some (Event.enumerate_processes controller path
      (W.enumerate_processes t controller path).1) →
    readable (W.enumerate_processes t controller path)

/-- The value is a value of `pid_t`. -/
def in_pid_t (p : Int) : Prop :=
  -2 ^ 31 ≤ p ∧ p < 2 ^ 31

/-- The call opens a membership file. -/
def Event.is_open : Event → Bool
  | .enumerate_processes _ _ _ => true
  | _ => false

/-- What a run does to the set, for the events `new` it adds to the log; `proj`
picks the actions among the events. Every pid acted upon is new, and is in the
set afterwards. -/
structure Sends (W : World) (ignore_self : Bool) (proj : Event → Option (Int × Int))
    (s s1 : PidSet) (new : List Event) : Prop where
  s_eq : s1 = ((new.filterMap proj).map Prod.fst).reverse ++ s
  fresh : ∀ p ∈ (new.filterMap proj).map Prod.fst,
    p ∉ s ∧ p ≠ 0 ∧ in_pid_t p ∧ (ignore_self = true → p ≠ W.getpid)
  nodup : ((new.filterMap proj).map Prod.fst).Nodup

/-- What a run of the loop over the pids does to the state, for the events
`new` it adds to the log. -/
structure Steps (W : World) (ignore_self : Bool) (proj : Event → Option (Int × Int))
    (st st1 : LoopState) (new : List Event) : Prop where
  log_eq : st1.log = st.log ++ new
  ret_eq : st1.ret = ((new.filterMap proj).map Prod.snd).foldl ret_step st.ret
  sends : Sends W ignore_self proj st.s st1.s new

/-- What the loops need from an action: it makes exactly one call that counts
as the action on the pid, with the result it returns, and opens no membership
file. -/
structure ActOk (proj : Event → Option (Int × Int)) (act : Action) : Prop where
  proj_eq : ∀ st pid, (act st pid).2.filterMap proj = [(pid, (act st pid).1)]
  no_open : ∀ st pid, ∀ e ∈ (act st pid).2, e.is_open = false
  proj_open : ∀ e, e.is_open = true → proj e = none

/-- The number of values of `pid_t` other than zero that are not in the set:
the room left in the set. -/
def pid_room (s : PidSet) : Nat :=
  (((Finset.Icc (-(2 : Int) ^ 31) (2 ^ 31 - 1)).erase 0) \ s.toFinset).card

/-! ## The orchestration of the spec -/

/-- The signals of the 15 rounds as the spec lists them: the termination
signal in round 0, the kill signal in round 9, the zero signal in the 8 rounds
between them and in the 5 rounds after. -/
def wait_rounds : List Int :=
  [SIGTERM] ++ List.replicate 8 0 ++ [SIGKILL] ++ List.replicate 5 0

/-- The orchestration as the spec words it, on the rounds left: a round runs
`cg_kill_recursive` with `sigcont` and `ignore_self` on; a result `<= 0` is
returned at once, without sleeping; after any other round it sleeps 200 ms; when
no round is left it returns `0`. -/
def terminate_and_wait (W : World) (depth : Nat) (controller : Option CStr) (path : CStr)
    (rem : Bool) : List Int → Log → Option Int × Log
  | [], log => (some 0, log)
  | sig :: rounds, log =>
    match cg_kill_recursive W depth controller path sig true true rem none log with
    | (none, _, log1) => (none, log1)
    | (some r, _, log1) =>
      if r ≤ 0 then (some r, log1)
      else terminate_and_wait W depth controller path rem rounds (log1 ++ [Event.usleep 200000])

/-! ## Worlds on which the functions are evaluated -/

/-- A world with pid 100 in which every call succeeds and every cgroup is
empty and has no subgroups. -/
def quietWorld : World where
  getpid := 100
  enumerate_processes := fun _ _ _ => (0, [])
  kill := fun _ _ _ => 0
  enumerate_subgroups := fun _ _ _ => (0, [])
  rmdir := fun _ _ _ => 0
  attach := fun _ _ _ _ => 0
  create := fun _ _ _ => 0
  trim := fun _ _ _ _ => 0

/-- A world in which the membership file always lists the pids 7, 8 and 7
again; signalling pid 8 fails with `EPERM`, and attaching pid 7 fails with
`ESRCH`. -/
def busyWorld : World :=
  { quietWorld with
    enumerate_processes := fun _ _ _ => (0, [Scan.num 7, Scan.num 8, Scan.num 7])
    kill := fun _ pid _ => if pid = 8 then 1 else 0
    attach := fun _ _ _ pid => if pid = 7 then -ESRCH else 0 }

/-- A world in which the membership file always lists the pids 1 and 2 and
every signal is delivered. -/
def twoPidWorld : World :=
  { quietWorld with
    enumerate_processes := fun _ _ _ => (0, [Scan.num 1, Scan.num 2]) }

/-- A world in which the cgroup `/a` has the subgroup `b`, and the membership
files of `/a` and of `/a/b` both list pid 5. -/
def sharedPidWorld : World :=
  { quietWorld with
    enumerate_processes := fun _ _ p =>
      if p = "/a".toList ∨ p = "/a/b".toList then (0, [Scan.num 5]) else (0, [])
    enumerate_subgroups := fun _ _ p =>
      if p = "/a".toList then (0, [SubRead.name "b".toList]) else (0, []) }

/-- The cgroups whose subgroups were listed, in the order of the calls: the
cgroups visited by a recursive call. -/
def visited (l : List Event) : List CStr :=
  l.filterMap fun e =>
    match e with
    | .enumerate_subgroups _ path _ => some path
    | _ => none

/-- No pid is written more often than cgroups were visited. -/
def once_per_cgroup (l : List Event) : Prop :=
  ∀ p, (attach_pids l).count p ≤ (visited l).length

/-- A world in which the cgroup lists the pids 1 and 2 when it is opened first
and has disappeared afterwards: later opens of the membership file and the
listing of the subgroups fail with `ENOENT`. Every signal is delivered. -/
def vanishWorld : World :=
  { quietWorld with
    enumerate_processes := fun t _ _ =>
      if t = 0 then (0, [Scan.num 1, Scan.num 2]) else (-ENOENT, [])
    enumerate_subgroups := fun _ _ _ => (-ENOENT, []) }

/-- The world `vanishWorld`, except that signalling pid 2 fails with `EPERM`. -/
def vanishEpermWorld : World :=
  { vanishWorld with
    kill := fun _ pid _ => if pid = 2 then 1 else 0 }

/-- The calls of `cg_kill` in `vanishWorld`. -/
def vanishLog : Log :=
  [Event.enumerate_processes none "/a".toList 0,
    Event.kill 1 SIGTERM 0, Event.kill 2 SIGTERM 0,
    Event.enumerate_processes none "/a".toList (-ENOENT)]

/-! ## The operations on all hierarchies, in the words of the spec -/

/-- A call without its result. -/
inductive Op where
  | create (controller : Option CStr) (path : CStr)
  | trim (controller : Option CStr) (path : CStr) (delete_root : Bool)
  | attach (controller : Option CStr) (path : CStr) (pid : Int)
  | other
  deriving DecidableEq, Repr

/-- The call of an event, without its result. -/
def Event.op : Event → Op
  | .create c p _ => Op.create c p
  | .trim c p d _ => Op.trim c p d
  | .attach c p pid _ => Op.attach c p pid
  | _ => Op.other

/-- The operation of create-with-mask on the `i`-th secondary controller `n`:
create the path if bit `i` of the mask is set, otherwise trim it, removing the
directory itself. -/
def create_or_trim (mask : Nat) (path : CStr) (i : Nat) (n : CStr) : Op :=
  if mask.testBit i then Op.create (some n) path else Op.trim (some n) path true

/-- The proper ancestors of a path, nearest first: the path cut before each of
its slashes, from the last slash to the first ("one trailing segment stripped
each time"). -/
def ancestors : CStr → List CStr
  | [] => []
  | c :: p => (ancestors p).map (c :: ·) ++ (if c = '/' then [[]] else [])

/-- Attach the pid in the hierarchy `name` at the given cgroups in turn, until
an attach succeeds or the cgroups are exhausted. -/
def attach_first (W : World) (name : CStr) (pid : Int) : List CStr → Log → Log
  | [], log => log
  | p :: ps, log =>
    let q := W.attach log.length (some name) p pid
    let log1 := log ++ [Event.attach (some name) p pid q]
    if q ≥ 0 then log1 else attach_first W name pid ps log1

/-- What `cg_attach_with_mask` does on the secondary controllers from the
`i`-th on: where the bit of the controller is set, one attach at the path
itself; where it is clear, attaches at the proper ancestors of the path, nearest
first, until one succeeds or they are exhausted. -/
def attach_secondaries (W : World) (mask : Nat) (path : CStr) (pid : Int) :
    List CStr → Nat → Log → Log
  | [], _, log => log
  | n :: names, i, log =>
    let log1 :=
      if mask.testBit i then
        log ++ [Event.attach (some n) path pid (W.attach log.length (some n) path pid)]
      else attach_first W n pid (ancestors path) log
    attach_secondaries W mask path pid names (i + 1) log1

/-- A world in which the cgroup `/a/b` does not exist in the hierarchy `cpu`:
attaching there fails with `ENOENT`; every other attach succeeds. -/
def lagWorld : World :=
  { quietWorld with
    attach := fun _ c p _ =>
      if c = some "cpu".toList ∧ p = "/a/b".toList then -ENOENT else 0 }

/-! ## Resolving a cgroup to a path of the file system -/

/-- `isempty(s)` of `util.h`: `s` is `NULL` or the empty string. -/
def isempty : Option CStr → Bool
  | none => true
  | some [] => true
  | some (_ :: _) => false

/-- The string a pointer stands for, where the code has checked that it is not
`NULL`. -/
def str_of : Option CStr → CStr
  | none => []
  | some s => s

/-- `join_path` (cgroup-util.c:450): the error, or the string stored in `*fs`.
Allocation does not fail. -/
def join_path (U : PathUtil) (controller path suffix : Option CStr) : Except Int CStr :=
  if !isempty controller then
    if !isempty path && !isempty suffix then
      .ok (U.path_kill_slashes ("/sys/fs/cgroup/".toList ++ str_of controller ++ "/".toList
        ++ str_of path ++ "/".toList ++ str_of suffix))
    else if !isempty path then
      .ok (U.path_kill_slashes ("/sys/fs/cgroup/".toList ++ str_of controller ++ "/".toList
        ++ str_of path))
    else if !isempty suffix then
      .ok (U.path_kill_slashes ("/sys/fs/cgroup/".toList ++ str_of controller ++ "/".toList
        ++ str_of suffix))
    else
      .ok (U.path_kill_slashes ("/sys/fs/cgroup/".toList ++ str_of controller))
  else
    if !isempty path && !isempty suffix then
      .ok (U.path_kill_slashes (str_of path ++ "/".toList ++ str_of suffix))
    else if !isempty path then
      .ok (U.path_kill_slashes (str_of path))
    else
      .error (-EINVAL)

/-- `cg_get_path` (cgroup-util.c:480). `good` is the value of the static flag
before the call and `mount` the result of
`path_is_mount_point("/sys/fs/cgroup", false)`, should the call be made. The
result is the error or the string stored in `*fs`, and the flag afterwards. -/
def cg_get_path (U : PathUtil) (mount : Int) (good : Bool) (controller path suffix : Option CStr) :
    Except Int CStr × Bool :=
  if controller.isSome && !cg_controller_is_valid controller true then (.error (-EINVAL), good)
  else if !good then
    if mount ≤ 0 then (.error (if mount < 0 then mount else -ENOENT), good)
    else
      let p := controller.map normalize_controller
      (join_path U p path suffix, true)
  else
    let p := controller.map normalize_controller
    (join_path U p path suffix, good)

/-- `cg_get_path_and_check` (cgroup-util.c:519); `access` is as for
`check_hierarchy`. -/
def cg_get_path_and_check (U : PathUtil) (access : CStr → Nat)
    (controller path suffix : Option CStr) : Except Int CStr :=
  if !cg_controller_is_valid controller true then .error (-EINVAL)
  else
    let p := normalize_controller (str_of controller)
    let r := check_hierarchy access p
    if r < 0 then .error r
    else join_path U (some p) path suffix

/-- `cg_attach` (cgroup-util.c:590): the return value. `write_string_file fs c`
is the result of writing the line `c` to the file `fs`, and `getpid` the pid of
the caller. -/
def cg_attach (U : PathUtil) (access : CStr → Nat) (write_string_file : CStr → CStr → Int)
    (getpid : Int) (controller : Option CStr) (path : CStr) (pid : Int) : Int :=
  match cg_get_path_and_check U access controller (some path) (some "cgroup.procs".toList) with
  | .error r => r
  | .ok fs =>
    let pid1 := if pid = 0 then getpid else pid
    let c := Nat.toDigits 10 pid1.toNat ++ ['\n']
    write_string_file fs c

/-- The character is an ASCII letter, an ASCII digit or the underscore. -/
def is_ctl_char (c : Char) : Prop :=
  c.isAlphanum = true ∨ c = '_'

/-- The string checked by `cg_controller_is_valid`: the name without one
leading `name=`, which is removed only when `allow_named` is set. -/
def strip_name (s : CStr) (allow_named : Bool) : CStr :=
  if allow_named then
    match startswith s "name=".toList with
    | some q => q
    | none => s
  else s

/-! ## Decoding the segments of a cgroup path -/

/-- `endswith(s, post)` of `util.h`, for a string `post` that is not empty:
the offset at which the ending `post` starts, `NULL` when `s` does not end
with it. -/
def endswith (s post : CStr) : Option Nat :=
  if s.length < post.length then none
  else if s.drop (s.length - post.length) ≠ post then none
  else some (s.length - post.length)

/-- The pointer after `p += strspn(p, "/")`. -/
def skip_slashes (p : CStr) : CStr :=
  p.dropWhile (fun c => c = '/')

/-- The segment at `p`: the characters of `p` before its first slash. -/
def first_segment (p : CStr) : CStr :=
  p.takeWhile (fun c => c ≠ '/')

/-- `strcspn(p, "/")`, the length of the segment at `p`; it is also the offset
of `strchrnul(p, '/')`. -/
def strcspn_slash (p : CStr) : Nat :=
  (first_segment p).length

/-- `memcmp(p + off, s, strlen(s)) == 0`. -/
def memcmp_eq (p : CStr) (off : Nat) (s : CStr) : Bool :=
  (p.drop off).take s.length = s

/-- The loop of `skip_slices` (cgroup-util.c:1152-1162), at most `fuel` times.
An iteration that continues moves `p` forward by more than 6 characters, so
more iterations than `p` has characters always reach the `return`. -/
def skip_slices_loop : Nat → CStr → CStr
  | 0, p => p
  | fuel + 1, p =>
    let p1 := skip_slashes p
    let n := strcspn_slash p1
    if n ≤ 6 ∨ memcmp_eq p1 (n - 6) ".slice".toList = false then p1
    else skip_slices_loop fuel (p1.drop n)

/-- `skip_slices` (cgroup-util.c:1149): the string at the pointer returned. -/
def skip_slices (p : CStr) : CStr :=
  skip_slices_loop (p.length + 1) p

/-- `cg_path_decode_unit` (cgroup-util.c:1128). `unit_name_is_valid` is the
function of `unit-name.c`, a parameter. Allocation does not fail. -/
def cg_path_decode_unit (unit_name_is_valid : CStr → Bool → Bool) (cgroup : CStr) :
    Except Int CStr :=
  let e := strcspn_slash cgroup
  let c := cg_unescape (cgroup.take e)
  if !unit_name_is_valid c false then .error (-EINVAL)
  else .ok c

/-- `cg_path_get_unit` (cgroup-util.c:1165). -/
def cg_path_get_unit (unit_name_is_valid : CStr → Bool → Bool) (path : CStr) :
    Except Int CStr :=
  let e := skip_slices path
  cg_path_decode_unit unit_name_is_valid e

/-- `skip_session` (cgroup-util.c:1189): the string at the pointer returned,
`none` for `NULL`. -/
def skip_session (p : CStr) : Option CStr :=
  let p1 := skip_slashes p
  let n := strcspn_slash p1
  if n ≤ 12 ∨ memcmp_eq p1 0 "session-".toList = false ∨
      memcmp_eq p1 (n - 6) ".scope".toList = false then none
  else some (skip_slashes (p1.drop n))

/-- `cg_path_get_user_unit` (cgroup-util.c:1206). -/
def cg_path_get_user_unit (unit_name_is_valid : CStr → Bool → Bool) (path : CStr) :
    Except Int CStr :=
  let e := skip_slices path
  match skip_session e with
  | none => .error (-ENOENT)
  | some e1 =>
    let e2 := skip_slices e1
    cg_path_decode_unit unit_name_is_valid e2

/-- `cg_path_get_machine_name` (cgroup-util.c:1243). Allocation does not
fail. -/
def cg_path_get_machine_name (path : CStr) : Except Int CStr :=
  let e := skip_slices path
  let n := strcspn_slash e
  if n = 0 then .error (-ENOENT)
  else
    let s := cg_unescape (e.take n)
    match startswith s "machine-".toList with
    | none => .error (-ENOENT)
    | some x =>
      if (endswith x ".scope".toList).isNone then .error (-ENOENT)
      else
        let l := x.length
        if l ≤ 6 then .error (-ENOENT)
        else .ok (x.take (l - 6))

/-- `cg_path_get_session` (cgroup-util.c:1292). Allocation does not fail. -/
def cg_path_get_session (path : CStr) : Except Int CStr :=
  let e := skip_slices path
  let n := strcspn_slash e
  if n = 0 then .error (-ENOENT)
  else
    let s := cg_unescape (e.take n)
    match startswith s "session-".toList with
    | none => .error (-ENOENT)
    | some x =>
      if (endswith x ".scope".toList).isNone then .error (-ENOENT)
      else
        let l := x.length
        if l ≤ 6 then .error (-ENOENT)
        else .ok (x.take (l - 6))

/-- The loop of `cg_path_get_slice` (cgroup-util.c:1387-1411), at most `fuel`
times. `e` is the text `strndup(e, m)` of the last slice segment seen, `none`
while the pointer `e` is `NULL`. An iteration that continues moves `p` forward
by more than 6 characters, so more iterations than `p` has characters always
reach a `return`. -/
def cg_path_get_slice_loop : Nat → CStr → Option CStr → Except Int CStr
  | 0, _, _ => .error (-ENOENT)
  | fuel + 1, p, e =>
    let p1 := skip_slashes p
    let n := strcspn_slash p1
    if n ≤ 6 ∨ memcmp_eq p1 (n - 6) ".slice".toList = false then
      match e with
      | none => .error (-ENOENT)
      | some s => .ok s
    else cg_path_get_slice_loop fuel (p1.drop n) (some (p1.take n))

/-- `cg_path_get_slice` (cgroup-util.c:1380). Allocation does not fail. -/
def cg_path_get_slice (p : CStr) : Except Int CStr :=
  cg_path_get_slice_loop (p.length + 1) p none

/-! ## The segments of a path, in the words of the spec -/

/-- The segments of a path: the pieces between its slashes that are not empty
(redundant slashes are ignored). -/
def segments (p : CStr) : List CStr :=
  (p.splitOn '/').filter (fun s => !s.isEmpty)

/-- A slice segment: it ends in `.slice` and is longer than `.slice` itself. -/
def is_slice (seg : CStr) : Bool :=
  decide (6 < seg.length) && decide (seg.drop (seg.length - 6) = ".slice".toList)

/-- The first segment after the leading slice segments, the empty string when
there is none. -/
def first_after_slices (p : CStr) : CStr :=
  (((segments p).dropWhile is_slice).head?).getD []

/-- Modelled from the spec: a stand-in for `unit_name_is_valid` of
`unit-name.c`, the "predicate: is this string a legal unit name", on which the
functions are evaluated: a name of letters, digits and `:-_.\` that ends in
the suffix of a unit type, with something before the suffix. -/
def unit_name_ok (n : CStr) (_template_ok : Bool) : Bool :=
  n.all (fun c => c.isAlphanum || c = ':' || c = '-' || c = '_' || c = '.' || c = '\\') &&
    [".service", ".socket", ".target", ".mount", ".scope", ".slice"].any
      (fun suffix => decide (suffix.length < n.length) && (endswith n suffix.toList).isSome)

/-- The common body of `cg_path_get_machine_name` and `cg_path_get_session`,
with the text that the segment has to start with as a parameter. -/
def path_get_scope_id (pfx : CStr) (path : CStr) : Except Int CStr :=
  let e := skip_slices path
  let n := strcspn_slash e
  if n = 0 then .error (-ENOENT)
  else
    let s := cg_unescape (e.take n)
    match startswith s pfx with
    | none => .error (-ENOENT)
    | some x =>
      if (endswith x ".scope".toList).isNone then .error (-ENOENT)
      else
        let l := x.length
        if l ≤ 6 then .error (-ENOENT)
        else .ok (x.take (l - 6))

/-! ## The owner of a path -/

def ERANGE : Int := 34

/-- The number of values of `size_t`, taken to be 64 bits wide. -/
def SIZE_T_VALUES : Nat := 2 ^ 64

/-- The difference `a - b` of two `size_t` values: it wraps modulo
`SIZE_T_VALUES` when `b` is larger than `a`. -/
def size_t_sub (a b : Nat) : Nat :=
  (a + SIZE_T_VALUES - b) % SIZE_T_VALUES

/-- `strndupa(s, n)`: the first `n` characters of `s`, all of `s` when it has
fewer. -/
def strndupa (s : CStr) (n : Nat) : CStr :=
  s.take n

/-- `cg_path_get_owner_uid` (cgroup-util.c:1341). `parse_uid` is the function
of `util.c`, a parameter: the error, or the user id it stores. `strndupa`
allocates on the stack and does not return `NULL`. -/
def cg_path_get_owner_uid (parse_uid : CStr → Except Int Nat) (path : CStr) : Except Int Nat :=
  match cg_path_get_slice path with
  | .error r => .error r
  | .ok slice =>
    match startswith slice "user-".toList with
    | none => .error (-ENOENT)
    | some e =>
      if (endswith slice ".slice".toList).isNone then .error (-ENOENT)
      else
        let s := strndupa e (size_t_sub e.length 6)
        parse_uid s

/-- Modelled from the spec: a stand-in for `parse_uid` of `util.c`, which
parses "the middle numeric token as a user identifier", on which the function
is evaluated: the value of a string of decimal digits that is not empty, where
it is below 2^32. -/
def parse_uid_dec (s : CStr) : Except Int Nat :=
  if s = [] ∨ s.all Char.isDigit = false then .error (-EINVAL)
  else
    let v := s.foldl (fun a c => 10 * a + (c.toNat - '0'.toNat)) 0
    if v < 2 ^ 32 then .ok v else .error (-ERANGE)

/-! ## The path of a slice -/

/-- The `while (dash)` loop of `cg_slice_to_path` (cgroup-util.c:1560-1578), at
most `fuel` times. `dash` is the offset in `p` of the pointer `dash` (`none`:
`NULL`), `s` the string built so far, empty while the pointer `s` is `NULL`.
Every iteration moves `dash` forward, so more iterations than `p` has
characters always reach the end of the loop. Allocation does not fail. -/
def cg_slice_to_path_while (unit_name_is_valid : CStr → Bool → Bool) (access : CStr → Nat)
    (p : CStr) : Nat → Option Nat → CStr → Except Int CStr
  | _, none, s => .ok s
  | 0, some _, _ => .error (-ENOMEM)
  | fuel + 1, some dash, s =>
    let n := p.take dash ++ ".slice".toList
    if !unit_name_is_valid n false then .error (-EINVAL)
    else
      let escaped := cg_escape access n
      let s := s ++ escaped ++ "/".toList
      cg_slice_to_path_while unit_name_is_valid access p fuel
        ((strchr (p.drop (dash + 1)) '-').map (· + (dash + 1))) s

/-- `cg_slice_to_path` (cgroup-util.c:1544). `unit_name_is_valid` and
`unit_name_to_prefix` are the functions of `unit-name.c`, parameters; `access`
is the `access()` that `cg_escape` probes the mounted controllers with.
Allocation does not fail. -/
def cg_slice_to_path (unit_name_is_valid : CStr → Bool → Bool)
    ( unit_name_to_prefix : CStr → CStr) (access : CStr → Nat) (unit : CStr) : Except Int CStr :=
  if !unit_name_is_valid unit false then .error (-EINVAL)
  else if (endswith unit ".slice".toList).isNone then .error (-EINVAL)
  else
    let p := unit_name_to_prefix unit
    match cg_slice_to_path_while unit_name_is_valid access p (p.length + 1) (strchr p '-') [] with
    | .error r => .error r
    | .ok s =>
      let e := cg_escape access unit
      .ok (s ++ e)

/-- Modelled from the spec: a stand-in for `unit_name_to_prefix` of
`unit-name.c`, the "prefix" (name before the extension) of a unit name, on
which the function is evaluated. -/
def unit_name_prefix (n : CStr) : CStr :=
  match strrchr n '.' with
  | some d => n.take d
  | none => n

/-- The truncated names of the parts `p1, ..., pk` of a prefix: `p1.slice`,
`p1-p2.slice`, ... up to the name made of the first `k - 1` parts. -/
def truncated_names (ps : List CStr) : List CStr :=
  ((ps.inits.tail).dropLast).map (fun l => List.intercalate "-".toList l ++ ".slice".toList)

/-- The truncated names of the parts `q, todo`, each with `pre` in front:
the recursion the loop of `cg_slice_to_path` follows. -/
def slice_names : CStr → CStr → List CStr → List CStr
  | _, _, [] => []
  | pre, q, q2 :: todo =>
    (pre ++ q ++ ".slice".toList) :: slice_names (pre ++ q ++ "-".toList) q2 todo

/-! ## The `kill` calls of a run, and files of process ids -/

/-- The pid and the signal of a `kill` call, be it the `kill(pid, sig)` of the
requested signal or the `kill(pid, SIGCONT)` that follows a delivered one. -/
def signal_proj : Event → Option (Int × Int)
  | .kill pid sig _ => some (pid, sig)
  | .kill_cont pid => some (pid, SIGCONT)
  | _ => none

/-- The `kill` calls made, each with its pid and its signal, in the order of
the calls. -/
def signals_sent (l : List Event) : List (Int × Int) :=
  l.filterMap signal_proj

/-- The pid of a `kill(pid, SIGCONT)` that follows a delivered signal. -/
def cont_proj : Event → Option Int
  | .kill_cont pid => some pid
  | _ => none

/-- The pids that were sent the `SIGCONT` that follows a delivered signal, in
the order of the calls. -/
def cont_pids (l : List Event) : List Int :=
  l.filterMap cont_proj

/-- What a `kill` call of a run with the signal `sig` looks like: the
requested signal is `sig`, and a `SIGCONT` follows only with `sigcont` set. -/
def kill_event_ok (sig : Int) (sigcont : Bool) : Event → Prop
  | .kill _ sg _ => sg = sig
  | .kill_cont _ => sigcont = true
  | _ => True

/-- The `kill` calls among the events are those of a run with the signal
`sig`, and no pid was sent the following `SIGCONT` more often than the
requested signal. -/
def KillLog (sig : Int) (sigcont : Bool) (l : List Event) : Prop :=
  (∀ e ∈ l, kill_event_ok sig sigcont e) ∧
    ∀ pid, (cont_pids l).count pid ≤ (kill_pids l).count pid

/-- The membership file can be opened and read, and every entry is a process
id: a positive value of `pid_t`. -/
def readable_pids (o : Int × FILE) : Prop :=
  0 ≤ o.1 ∧ ∀ x ∈ o.2, ∃ ul, 0 < ul ∧ ul < 2 ^ 31 ∧ x = Scan.num ul

/-- The membership file of the cgroup could be opened and read on every pass,
and listed process ids only: at every time from `start` on at which the log `l`
records an open of it. -/
def passes_readable_pids (W : World) (controller : Option CStr) (path : CStr) (start : Nat)
    (l : Log) : Prop :=
  ∀ t, start ≤ t →
    l[t]? = some (Event.enumerate_processes controller path
      (W.enumerate_processes t controller path).1) →
    readable_pids (W.enumerate_processes t controller path)
/-! ## Lemmas on strings -/

theorem startswith_none_of_not_mem (n : CStr) (c : Char) (p : CStr) (h : c ∉ n) (hc : c ∈ p) :
    startswith n p = none := by
  induction p generalizing n with
  | nil => simp at hc
  | cons d p ih =>
    cases n with
    | nil => simp [startswith]
    | cons x n =>
      simp only [startswith]
      split
      · rename_i hxd
        have hcd : c ≠ d := by
          rintro rfl
          exact h (by simp [hxd])
        have hcp : c ∈ p := by
          rcases List.mem_cons.1 hc with h1 | h1
          · exact absurd h1 hcd
          · exact h1
        exact ih n (fun hm => h (List.mem_cons_of_mem _ hm)) hcp
      · rfl

theorem strchr_append_of_not_mem (n rest : CStr) (c : Char) (h : c ∉ n) :
    strchr (n ++ c :: rest) c = some n.length := by
  induction n with
  | nil => simp [strchr]
  | cons d n ih =>
    have hd : d ≠ c := fun e => h (by simp [e])
    have hn : c ∉ n := fun hm => h (List.mem_cons_of_mem _ hm)
    simp [strchr, hd, ih hn]

theorem ctl_chars_not_mem (n : CStr) (h : ctl_chars n) (c : Char)
    (hc : (strchr CONTROLLER_VALID c).isSome = false) : c ∉ n := by
  intro hm
  have := h c hm
  rw [hc] at this
  exact Bool.noConfusion this

theorem ctl_ok_iff (q : CStr) :
    (if q.head? = none ∨ q.head? = some '_' then false
      else if q.any (fun t => (strchr CONTROLLER_VALID t).isNone) then false
      else if q.length > FILENAME_MAX then false
      else true) = true ↔ ctl_ok q := by
  constructor
  · intro h
    split at h
    · exact Bool.noConfusion h
    · rename_i h1
      split at h
      · exact Bool.noConfusion h
      · rename_i h2
        split at h
        · exact Bool.noConfusion h
        · rename_i h3
          push_neg at h1
          refine ⟨?_, h1.2, ?_, by omega⟩
          · intro e
            exact h1.1 (by simp [e])
          · intro c hc
            simp only [List.any_eq_true, not_exists, not_and] at h2
            have := h2 c hc
            cases hs : strchr CONTROLLER_VALID c with
            | none => simp [hs] at this
            | some i => rfl
  · intro h
    have h1 : ¬ (q.head? = none ∨ q.head? = some '_') := by
      rintro (e | e)
      · exact h.nonempty (by simpa using e)
      · exact h.no_underscore e
    have h2 : ¬ (q.any (fun t => (strchr CONTROLLER_VALID t).isNone) = true) := by
      simp only [List.any_eq_true, not_exists, not_and]
      intro c hc
      have := h.chars c hc
      cases hs : strchr CONTROLLER_VALID c with
      | none => simp [hs] at this
      | some i => simp
    have h3 : ¬ (q.length > FILENAME_MAX) := by
      have := h.len
      omega
    rw [if_neg h1, if_neg h2, if_neg h3]

/-- A string made of controller characters has no `name=` prefix. -/
theorem startswith_name_of_ctl_chars (q : CStr) (h : ctl_chars q) :
    startswith q "name=".toList = none :=
  startswith_none_of_not_mem q '=' _ (ctl_chars_not_mem q h '=' (by decide)) (by decide)

theorem cg_controller_is_valid_of_ctl_ok (q : CStr) (h : ctl_ok q) (b : Bool) :
    cg_controller_is_valid (some q) b = true := by
  have hs := startswith_name_of_ctl_chars q h.chars
  unfold cg_controller_is_valid
  cases b
  · exact (ctl_ok_iff q).2 h
  · simp only [if_true]
    rw [hs]
    exact (ctl_ok_iff q).2 h

theorem normalize_controller_of_ctl_chars (q : CStr) (h : ctl_chars q) :
    normalize_controller q = q := by
  have hs := startswith_name_of_ctl_chars q h
  have hne : q ≠ SYSTEMD_CGROUP_CONTROLLER := by
    rintro rfl
    exact ctl_chars_not_mem _ h '=' (by decide) (by decide)
  unfold normalize_controller
  rw [if_neg hne, hs]

/-- The normalized form of a controller accepted with `name=` allowed is a
plain controller name. -/
theorem ctl_ok_normalize (C : CStr) (h : cg_controller_is_valid (some C) true = true) :
    ctl_ok (normalize_controller C) := by
  unfold cg_controller_is_valid at h
  simp only [if_true] at h
  unfold normalize_controller
  split
  · exact (ctl_ok_iff _).1 (by decide)
  · cases hs : startswith C "name=".toList with
    | none =>
      rw [hs] at h
      exact (ctl_ok_iff C).1 h
    | some rest =>
      rw [hs] at h
      exact (ctl_ok_iff rest).1 h

/-! ## C1: format then parse -/

/-- What `cg_split_spec` returns on a string `n:P` whose controller part is a
plain controller name and whose path part is absolute, safe and normalized. -/
theorem cg_split_spec_joined (U : PathUtil) (n P : CStr) (hn : ctl_ok n)
    (hAbs : path_is_absolute P = true) (hSafe : U.path_is_safe P = true)
    (hNorm : U.path_kill_slashes P = P) :
    cg_split_spec U (n ++ ':' :: P) = .ok (some n, some P) := by
  have hcolon : ':' ∉ n := ctl_chars_not_mem n hn.chars ':' (by decide)
  have hslash : '/' ∉ n := ctl_chars_not_mem n hn.chars '/' (by decide)
  have hhead : (n ++ ':' :: P).head? ≠ some '/' := by
    cases n with
    | nil => exact absurd rfl hn.nonempty
    | cons c n =>
      intro e
      have hc : c = '/' := by simpa using e
      exact hslash (by simp [hc])
  have hchr := strchr_append_of_not_mem n P ':' hcolon
  have htake : (n ++ ':' :: P).take n.length = n := by simp
  have hdrop : (n ++ ':' :: P).drop (n.length + 1) = P := by
    rw [← List.drop_drop]
    simp
  have hnorm := normalize_controller_of_ctl_chars n hn.chars
  have hvalid := cg_controller_is_valid_of_ctl_ok n hn true
  unfold cg_split_spec
  rw [if_neg hhead, hchr]
  simp only [htake, hdrop, hnorm, hvalid, hSafe, hAbs, hNorm]
  rfl

/-- C1: for a controller `C` that is valid with the `name=` prefix allowed and
an absolute, safe path `P` that `path_kill_slashes` leaves unchanged,
`cg_join_spec` succeeds with a spec `S`, and `cg_split_spec` succeeds on `S`
and returns the normalized controller and `P`. When `C` is already canonical
the pair returned is `(C, P)` itself. -/
theorem cg_join_spec_split_spec (U : PathUtil) (C P : CStr)
    (hC : cg_controller_is_valid (some C) true = true)
    (hAbs : path_is_absolute P = true) (hSafe : U.path_is_safe P = true)
    (hNorm : U.path_kill_slashes P = P) :
    ∃ S, cg_join_spec U (some C) P = .ok S ∧
      cg_split_spec U S = .ok (some (normalize_controller C), some P) ∧
      (normalize_controller C = C → cg_split_spec U S = .ok (some C, some P)) := by
  refine ⟨normalize_controller C ++ ':' :: P, ?_, ?_, ?_⟩
  · unfold cg_join_spec
    simp only [hC, hAbs, hNorm]
    rfl
  · exact cg_split_spec_joined U _ P (ctl_ok_normalize C hC) hAbs hSafe hNorm
  · intro e
    have := cg_split_spec_joined U _ P (ctl_ok_normalize C hC) hAbs hSafe hNorm
    rw [e] at this
    rw [e]
    exact this

/-- C1 at `name=foo` and `/a/b`: the spec is `foo:/a/b`. -/
theorem cg_join_spec_split_spec_witness :
    ∃ S, cg_join_spec stdPathUtil (some "name=foo".toList) "/a/b".toList = .ok S ∧
      cg_split_spec stdPathUtil S
        = .ok (some (normalize_controller "name=foo".toList), some "/a/b".toList) ∧
      (normalize_controller "name=foo".toList = "name=foo".toList →
        cg_split_spec stdPathUtil S = .ok (some "name=foo".toList, some "/a/b".toList)) :=
  cg_join_spec_split_spec stdPathUtil "name=foo".toList "/a/b".toList
    (by decide) (by decide) (by decide) (by decide)

/-! ## C2: escape then unescape -/

/-- The escaped name is the name itself or the name with one underscore in
front. -/
theorem cg_escape_cases (access : CStr → Nat) (p : CStr) :
    cg_escape access p = '_' :: p ∨ cg_escape access p = p := by
  unfold cg_escape
  exact ite_eq_or_eq _ _ _

theorem cg_unescape_of_head (N : CStr) (h : N.head? ≠ some '_') : cg_unescape N = N := by
  unfold cg_unescape
  split
  · exact absurd rfl h
  · rfl

/-- C2: for every name `N` that does not start with an underscore, and whatever
controllers are mounted (whatever `access` answers), unescaping the escaped
name gives `N` back. -/
theorem cg_unescape_cg_escape (access : CStr → Nat) (N : CStr) (h : N.head? ≠ some '_') :
    cg_unescape (cg_escape access N) = N := by
  rcases cg_escape_cases access N with e | e
  · rw [e]
    rfl
  · rw [e]
    exact cg_unescape_of_head N h

/-- C2 at the name `cpu.shares` with the `cpu` controller mounted: the escaped
name is `_cpu.shares`, and unescaping gives the name back. -/
theorem cg_unescape_cg_escape_witness :
    cg_escape (fun p => if p = "/sys/fs/cgroup/cpu".toList then 0 else 2) "cpu.shares".toList
        = "_cpu.shares".toList ∧
      cg_unescape (cg_escape (fun p => if p = "/sys/fs/cgroup/cpu".toList then 0 else 2)
        "cpu.shares".toList) = "cpu.shares".toList :=
  ⟨by decide, cg_unescape_cg_escape _ "cpu.shares".toList (by decide)⟩

/-! ## The loops of `cg_kill` and `cg_migrate` have the common shape -/

theorem set_put_fst_nonneg (s : PidSet) (key : Int) : ¬ (set_put s key).1 < 0 := by
  unfold set_put
  split <;> simp

theorem set_get_ne (s : PidSet) (pid : Int) (h : ¬ set_get s pid = pid) :
    pid ∉ s ∧ pid ≠ 0 := by
  unfold set_get at h
  constructor
  · intro hm
    exact h (by simp [hm])
  · rintro rfl
    apply h
    split <;> rfl

theorem cg_kill_body_eq (W : World) (sig : Int) (sigcont ignore_self : Bool) (pid : Int)
    (st : LoopState) :
    cg_kill_body W sig sigcont ignore_self pid st
      = gen_body W ignore_self (kill_act W sig sigcont) pid st := by
  unfold cg_kill_body gen_body
  by_cases h1 : ignore_self = true ∧ pid = W.getpid
  · rw [if_pos h1, if_pos h1]
  · rw [if_neg h1, if_neg h1]
    by_cases h2 : set_get st.s pid = pid
    · rw [if_pos h2, if_pos h2]
    · rw [if_neg h2, if_neg h2]
      have hmem := (set_get_ne st.s pid h2).1
      simp only [set_put, kill_act, ret_step, ESRCH]
      by_cases he : W.kill st.log.length pid sig = 0
      · by_cases hr : st.ret = 0 <;> cases sigcont <;> simp [he, hr, hmem]
      · have hneg : -(W.kill st.log.length pid sig : Int) < 0 := by omega
        by_cases hr : st.ret ≥ 0 ∧ (W.kill st.log.length pid sig : Int) ≠ 3
        · have hr' : st.ret ≥ 0 ∧ -(W.kill st.log.length pid sig : Int) ≠ -3 := ⟨hr.1, by omega⟩
          simp [he, hr, hr', hneg, hmem]
        · have hr' : ¬ (st.ret ≥ 0 ∧ -(W.kill st.log.length pid sig : Int) ≠ -3) := by
            intro hh
            exact hr ⟨hh.1, by omega⟩
          simp [he, hr, hr', hneg, hmem]

theorem cg_migrate_body_eq (W : World) (cto : Option CStr) (pto : CStr) (ignore_self : Bool)
    (pid : Int) (st : LoopState) :
    cg_migrate_body W cto pto ignore_self pid st
      = gen_body W ignore_self (attach_act W cto pto) pid st := by
  unfold cg_migrate_body gen_body
  by_cases h1 : ignore_self = true ∧ pid = W.getpid
  · rw [if_pos h1, if_pos h1]
  · rw [if_neg h1, if_neg h1]
    by_cases h2 : set_get st.s pid = pid
    · rw [if_pos h2, if_pos h2]
    · rw [if_neg h2, if_neg h2]
      have hmem := (set_get_ne st.s pid h2).1
      simp only [set_put, attach_act, ret_step]
      by_cases hneg : W.attach st.log.length cto pto pid < 0
      · by_cases hr : st.ret ≥ 0 ∧ W.attach st.log.length cto pto pid ≠ -ESRCH
        · simp [hr, hneg, hmem]
        · simp [hr, hneg, hmem]
      · by_cases hr : st.ret = 0 <;> simp [hr, hneg, hmem]

theorem cg_kill_while_eq (W : World) (sig : Int) (sigcont ignore_self : Bool) (f : FILE) :
    ∀ (pid : Int) (st : LoopState),
      cg_kill_while W sig sigcont ignore_self f pid st
        = gen_while W ignore_self (kill_act W sig sigcont) f pid st := by
  induction f with
  | nil => intro pid st; rfl
  | cons x f ih =>
    intro pid st
    simp only [cg_kill_while, gen_while, cg_kill_body_eq, ih]

theorem cg_migrate_while_eq (W : World) (cto : Option CStr) (pto : CStr) (ignore_self : Bool)
    (f : FILE) :
    ∀ (pid : Int) (st : LoopState),
      cg_migrate_while W cto pto ignore_self f pid st
        = gen_while W ignore_self (attach_act W cto pto) f pid st := by
  induction f with
  | nil => intro pid st; rfl
  | cons x f ih =>
    intro pid st
    simp only [cg_migrate_while, gen_while, cg_migrate_body_eq, ih]

theorem cg_kill_loop_eq (W : World) (controller : Option CStr) (path : CStr) (sig : Int)
    (sigcont ignore_self : Bool) (n : Nat) :
    ∀ (ret : Int) (s : PidSet) (log : Log),
      cg_kill_loop W controller path sig sigcont ignore_self n ret s log
        = gen_loop W ignore_self (kill_act W sig sigcont) controller path n ret s log := by
  induction n with
  | zero => intro ret s log; rfl
  | succ n ih =>
    intro ret s log
    simp only [cg_kill_loop, gen_loop, cg_kill_while_eq, ih]

theorem cg_migrate_loop_eq (W : World) (cfrom : Option CStr) (pfrom : CStr) (cto : Option CStr)
    (pto : CStr) (ignore_self : Bool) (n : Nat) :
    ∀ (ret : Int) (s : PidSet) (log : Log),
      cg_migrate_loop W cfrom pfrom cto pto ignore_self n ret s log
        = gen_loop W ignore_self (attach_act W cto pto) cfrom pfrom n ret s log := by
  induction n with
  | zero => intro ret s log; rfl
  | succ n ih =>
    intro ret s log
    simp only [cg_migrate_loop, gen_loop, cg_migrate_while_eq, ih]

/-! ## What one run of the loop over the pids does -/

theorem sends_refl (W : World) (ignore_self : Bool) (proj : Event → Option (Int × Int))
    (s : PidSet) : Sends W ignore_self proj s s [] where
  s_eq := by simp
  fresh := by simp
  nodup := by simp

theorem sends_trans {W : World} {ignore_self : Bool} {proj : Event → Option (Int × Int)}
    {s s1 s2 : PidSet} {new1 new2 : List Event}
    (h1 : Sends W ignore_self proj s s1 new1) (h2 : Sends W ignore_self proj s1 s2 new2) :
    Sends W ignore_self proj s s2 (new1 ++ new2) where
  s_eq := by
    rw [h2.s_eq, h1.s_eq, List.filterMap_append, List.map_append, List.reverse_append,
      List.append_assoc]
  fresh := by
    intro p hp
    rw [List.filterMap_append, List.map_append, List.mem_append] at hp
    rcases hp with hp | hp
    · exact h1.fresh p hp
    · obtain ⟨hs, h0, hr, hself⟩ := h2.fresh p hp
      refine ⟨?_, h0, hr, hself⟩
      intro hm
      apply hs
      rw [h1.s_eq]
      exact List.mem_append_right _ hm
  nodup := by
    rw [List.filterMap_append, List.map_append]
    refine List.Nodup.append h1.nodup h2.nodup ?_
    intro p hp1 hp2
    apply (h2.fresh p hp2).1
    rw [h1.s_eq]
    exact List.mem_append_left _ (List.mem_reverse.2 hp1)

/-- An event that is not an action changes nothing. -/
theorem sends_of_none (W : World) (ignore_self : Bool) (proj : Event → Option (Int × Int))
    (s : PidSet) (e : Event) (he : proj e = none) : Sends W ignore_self proj s s [e] where
  s_eq := by simp [he]
  fresh := by simp [he]
  nodup := by simp [he]

theorem steps_refl (W : World) (ignore_self : Bool) (proj : Event → Option (Int × Int))
    (st : LoopState) : Steps W ignore_self proj st st [] where
  log_eq := by simp
  ret_eq := by simp
  sends := sends_refl W ignore_self proj st.s

theorem steps_trans {W : World} {ignore_self : Bool} {proj : Event → Option (Int × Int)}
    {st st1 st2 : LoopState} {new1 new2 : List Event}
    (h1 : Steps W ignore_self proj st st1 new1) (h2 : Steps W ignore_self proj st1 st2 new2) :
    Steps W ignore_self proj st st2 (new1 ++ new2) where
  log_eq := by rw [h2.log_eq, h1.log_eq, List.append_assoc]
  ret_eq := by
    rw [h2.ret_eq, h1.ret_eq, List.filterMap_append, List.map_append, List.foldl_append]
  sends := sends_trans h1.sends h2.sends

/-- The relation does not look at the flag `done`. -/
theorem steps_congr_left {W : World} {ignore_self : Bool} {proj : Event → Option (Int × Int)}
    {st st0 st1 : LoopState} {new : List Event} (h : Steps W ignore_self proj st st1 new)
    (hret : st0.ret = st.ret) (hs : st0.s = st.s) (hlog : st0.log = st.log) :
    Steps W ignore_self proj st0 st1 new where
  log_eq := by rw [hlog]; exact h.log_eq
  ret_eq := by rw [hret]; exact h.ret_eq
  sends := by rw [hs]; exact h.sends

theorem gen_body_fst (W : World) (ignore_self : Bool) (act : Action) (pid : Int)
    (st : LoopState) : (gen_body W ignore_self act pid st).1 = none := by
  unfold gen_body
  split
  · rfl
  · split <;> rfl

theorem gen_body_steps (W : World) (ignore_self : Bool) (proj : Event → Option (Int × Int))
    (act : Action) (hact : ActOk proj act) (pid : Int) (hpid : in_pid_t pid) (st : LoopState) :
    ∃ new, Steps W ignore_self proj st (gen_body W ignore_self act pid st).2 new ∧
      (∀ e ∈ new, e.is_open = false) ∧
      (gen_body W ignore_self act pid st).2.done = (st.done && (new.filterMap proj).isEmpty) := by
  unfold gen_body
  by_cases h1 : ignore_self = true ∧ pid = W.getpid
  · rw [if_pos h1]
    exact ⟨[], steps_refl W ignore_self proj st, by simp, by simp⟩
  · rw [if_neg h1]
    by_cases h2 : set_get st.s pid = pid
    · rw [if_pos h2]
      exact ⟨[], steps_refl W ignore_self proj st, by simp, by simp⟩
    · rw [if_neg h2]
      obtain ⟨hmem, h0⟩ := set_get_ne st.s pid h2
      have hp := hact.proj_eq st pid
      refine ⟨(act st pid).2, ?_, hact.no_open st pid, by simp [hp]⟩
      refine ⟨rfl, by simp [hp], ?_⟩
      constructor
      · simp [hp]
      · intro p hp'
        rw [hp] at hp'
        have : p = pid := by simpa using hp'
        subst this
        refine ⟨hmem, h0, hpid, ?_⟩
        intro hi hself
        exact h1 ⟨hi, hself⟩
      · simp [hp]

theorem pid_t_of_ulong_in_pid_t (ul : Nat) : in_pid_t (pid_t_of_ulong ul) := by
  unfold in_pid_t pid_t_of_ulong
  have h : ul % 2 ^ 32 < 2 ^ 32 := Nat.mod_lt _ (by norm_num)
  simp only
  split <;> constructor <;> omega

theorem cg_read_pid_pos (x : Scan) (pid : Int) (h : (cg_read_pid (some x) pid).1 > 0) :
    in_pid_t (cg_read_pid (some x) pid).2 := by
  unfold cg_read_pid at h ⊢
  cases x with
  | fail e =>
    exfalso
    simp only [ EIO] at h
    split at h <;> omega
  | num ul =>
    simp only at h ⊢
    split
    · rename_i hle
      rw [if_pos hle] at h
      simp [ EIO] at h
    · exact pid_t_of_ulong_in_pid_t ul

theorem gen_while_steps (W : World) (ignore_self : Bool) (proj : Event → Option (Int × Int))
    (act : Action) (hact : ActOk proj act) (f : FILE) :
    ∀ (pid : Int) (st : LoopState),
      ∃ new, Steps W ignore_self proj st (gen_while W ignore_self act f pid st).2 new ∧
        (∀ e ∈ new, e.is_open = false) ∧
        (gen_while W ignore_self act f pid st).2.done
          = (st.done && (new.filterMap proj).isEmpty) := by
  induction f with
  | nil =>
    intro pid st
    refine ⟨[], ?_, by simp, ?_⟩
    · unfold gen_while
      simp only
      split
      · split <;> exact steps_refl W ignore_self proj st
      · exact steps_refl W ignore_self proj st
    · unfold gen_while
      simp only
      split
      · split <;> simp
      · simp
  | cons x f ih =>
    intro pid st
    unfold gen_while
    simp only
    split
    · rename_i hpos
      obtain ⟨new1, h1, ho1, hd1⟩ := gen_body_steps W ignore_self proj act hact _
        (cg_read_pid_pos x pid hpos) st
      have hfst := gen_body_fst W ignore_self act (cg_read_pid (some x) pid).2 st
      split
      · rename_i v st1 heq
        rw [heq] at hfst
        exact absurd hfst (by simp)
      · rename_i st1 heq
        rw [heq] at h1 hd1
        obtain ⟨new2, h2, ho2, hd2⟩ := ih (cg_read_pid (some x) pid).2 st1
        refine ⟨new1 ++ new2, steps_trans h1 h2, ?_, ?_⟩
        · intro e he
          rcases List.mem_append.1 he with he | he
          · exact ho1 e he
          · exact ho2 e he
        · simp only at hd1
          rw [hd2, hd1, List.filterMap_append, Bool.and_assoc]
          congr 1
          cases List.filterMap proj new1 <;> cases List.filterMap proj new2 <;> rfl
    · refine ⟨[], ?_, by simp, ?_⟩
      · split
        · split <;> exact steps_refl W ignore_self proj st
        · exact steps_refl W ignore_self proj st
      · split
        · split <;> simp
        · simp

/-- A file that can be read does not make the loop over the pids return. -/
theorem gen_while_fst_of_readable (W : World) (ignore_self : Bool) (act : Action) (f : FILE)
    (hf : ∀ x ∈ f, ∃ ul, 0 < ul ∧ x = Scan.num ul) :
    ∀ (pid : Int) (st : LoopState), (gen_while W ignore_self act f pid st).1 = none := by
  induction f with
  | nil =>
    intro pid st
    simp [gen_while, cg_read_pid]
  | cons x f ih =>
    intro pid st
    obtain ⟨ul, hul, rfl⟩ := hf x (List.mem_cons_self _ _)
    have hne : ¬ ul ≤ 0 := by omega
    have hrd : cg_read_pid (some (Scan.num ul)) pid = (1, pid_t_of_ulong ul) := by
      simp [cg_read_pid, hne]
    unfold gen_while
    simp only [hrd]
    have hfst := gen_body_fst W ignore_self act (pid_t_of_ulong ul) st
    rw [if_pos (by decide)]
    split
    · rename_i v st1 heq
      rw [heq] at hfst
      exact absurd hfst (by simp)
    · exact ih (fun y hy => hf y (List.mem_cons_of_mem _ hy)) _ _

/-! ## The room left in the set -/

theorem pid_room_lt_values (s : PidSet) : pid_room s < PID_T_VALUES := by
  unfold pid_room PID_T_VALUES
  have h1 : (((Finset.Icc (-(2 : Int) ^ 31) (2 ^ 31 - 1)).erase 0) \ s.toFinset).card
      ≤ ((Finset.Icc (-(2 : Int) ^ 31) (2 ^ 31 - 1)).erase 0).card :=
    Finset.card_le_card Finset.sdiff_subset
  have h2 : ((Finset.Icc (-(2 : Int) ^ 31) (2 ^ 31 - 1)).erase 0).card = 2 ^ 32 - 1 := by
    rw [Finset.card_erase_of_mem (by simp), Int.card_Icc]
    norm_num
    rfl
  omega

/-- A run that acted on a pid leaves less room in the set. -/
theorem pid_room_lt_of_steps {W : World} {ignore_self : Bool}
    {proj : Event → Option (Int × Int)} {st st1 : LoopState} {new : List Event}
    (h : Steps W ignore_self proj st st1 new) (hne : new.filterMap proj ≠ []) :
    pid_room st1.s < pid_room st.s := by
  unfold pid_room
  apply Finset.card_lt_card
  obtain ⟨x, hx⟩ := List.exists_mem_of_ne_nil _ hne
  have hp : x.1 ∈ (new.filterMap proj).map Prod.fst := List.mem_map_of_mem _ hx
  obtain ⟨hs, h0, hr, _⟩ := h.sends.fresh x.1 hp
  rw [Finset.ssubset_iff_of_subset]
  · refine ⟨x.1, ?_, ?_⟩
    · simp only [Finset.mem_sdiff, Finset.mem_erase, Finset.mem_Icc, List.mem_toFinset]
      unfold in_pid_t at hr
      refine ⟨⟨h0, hr.1, by omega⟩, hs⟩
    · simp only [Finset.mem_sdiff, List.mem_toFinset, not_and, not_not]
      intro _
      rw [h.sends.s_eq]
      exact List.mem_append_left _ (List.mem_reverse.2 hp)
  · intro y hy
    simp only [Finset.mem_sdiff, List.mem_toFinset] at hy ⊢
    refine ⟨hy.1, ?_⟩
    intro hm
    apply hy.2
    rw [h.sends.s_eq]
    exact List.mem_append_right _ hm

/-! ## What the loop over the passes does -/

theorem steps_of_open (W : World) (ignore_self : Bool) (proj : Event → Option (Int × Int))
    (st : LoopState) (e : Event) (he : proj e = none) (b : Bool) :
    Steps W ignore_self proj st { ret := st.ret, done := b, s := st.s, log := st.log ++ [e] }
      [e] where
  log_eq := rfl
  ret_eq := by simp [he]
  sends := sends_of_none W ignore_self proj st.s e he

/-- After a successful open, or after events that open nothing, the last event
is not an open that failed with `ENOENT`. -/
theorem getLast?_open_ne (c : Option CStr) (p : CStr) (r : Int) (hr : 0 ≤ r) (l : List Event)
    (hl : ∀ e ∈ l, e.is_open = false) (c1 : Option CStr) (p1 : CStr) :
    (Event.enumerate_processes c p r :: l).getLast?
      ≠ some (Event.enumerate_processes c1 p1 (-ENOENT)) := by
  intro h
  rcases List.eq_nil_or_concat l with rfl | ⟨l1, e, rfl⟩
  · simp only [List.getLast?_singleton, Option.some.injEq, Event.enumerate_processes.injEq] at h
    have := h.2.2
    simp only [ENOENT] at this
    omega
  · rw [List.concat_eq_append] at h hl
    rw [← List.cons_append, List.getLast?_concat] at h
    have he := hl e (by simp)
    injection h with h
    rw [h] at he
    exact Bool.noConfusion he

theorem getElem?_after (log : Log) (e : Event) (rest : List Event) :
    (log ++ [e] ++ rest)[log.length]? = some e := by
  rw [List.append_assoc, List.getElem?_append_right (le_refl _)]
  simp

/-- The loop over the passes: the events it adds, the state it ends in, and its
result. The result is the value of `ret`, unless the last call was not an open
that failed with `ENOENT` and either some membership file could not be opened
or read, or the passes allowed were used up, which takes more passes than there
is room in the set. -/
theorem gen_loop_spec (W : World) (ignore_self : Bool) (proj : Event → Option (Int × Int))
    (act : Action) (hact : ActOk proj act) (controller : Option CStr) (path : CStr) (n : Nat) :
    ∀ (ret : Int) (s : PidSet) (log : Log) (out : Option Int × PidSet × Log),
      gen_loop W ignore_self act controller path n ret s log = out →
      ∃ new st1,
        Steps W ignore_self proj { ret := ret, done := true, s := s, log := log } st1 new ∧
        out.2 = (st1.s, st1.log) ∧
        (out.1 = some st1.ret ∨
          (new.getLast? ≠ some (Event.enumerate_processes controller path (-ENOENT)) ∧
            ((out.1 ≠ none ∧ ∃ t, log.length ≤ t ∧ unreadable_at W controller path out.2.2 t) ∨
              (out.1 = none ∧ n ≤ pid_room s)))) := by
  induction n with
  | zero =>
    intro ret s log out h
    simp only [gen_loop] at h
    subst h
    exact ⟨[], _, steps_refl W ignore_self proj _, rfl, Or.inr ⟨by simp, Or.inr ⟨rfl, Nat.zero_le _⟩⟩⟩
  | succ n ih =>
    intro ret s log out h
    simp only [gen_loop] at h
    have hopen : proj (Event.enumerate_processes controller path
        (W.enumerate_processes log.length controller path).1) = none :=
      hact.proj_open _ rfl
    have hstep := steps_of_open W ignore_self proj
      { ret := ret, done := true, s := s, log := log } _ hopen true
    split at h
    · rename_i hneg
      refine ⟨_, _, hstep, ?_⟩
      split at h
      · rename_i hc
        subst h
        refine ⟨rfl, Or.inr ⟨?_, Or.inl ⟨by simp, log.length, le_refl _, ?_, ?_⟩⟩⟩
        · simp only [List.getLast?_singleton, ne_eq, Option.some.injEq,
            Event.enumerate_processes.injEq, true_and]
          exact hc.2
        · have := getElem?_after log (Event.enumerate_processes controller path
            (W.enumerate_processes log.length controller path).1) []
          rw [List.append_nil] at this
          exact this
        · intro hread
          have := hread.1
          omega
      · subst h
        exact ⟨rfl, Or.inl rfl⟩
    · rename_i hnn
      obtain ⟨wnew, hw, hno, hdone⟩ := gen_while_steps W ignore_self proj act hact
        (W.enumerate_processes log.length controller path).2 0
        { ret := ret, done := true, s := s, log :=
          log ++ [Event.enumerate_processes controller path
            (W.enumerate_processes log.length controller path).1] }
      have hfst := gen_while_fst_of_readable W ignore_self act
        (W.enumerate_processes log.length controller path).2
      have hlast := getLast?_open_ne controller path
        (W.enumerate_processes log.length controller path).1 (by omega) wnew hno controller path
      split at h
      · rename_i v st heq
        rw [heq] at hw
        subst h
        refine ⟨_, st, steps_trans hstep hw, rfl,
          Or.inr ⟨hlast, Or.inl ⟨by simp, log.length, le_refl _, ?_, ?_⟩⟩⟩
        · show st.log[log.length]? = _
          rw [hw.log_eq]
          exact getElem?_after log _ wnew
        · intro hread
          have := hfst hread.2 0 { ret := ret, done := true, s := s, log :=
            log ++ [Event.enumerate_processes controller path
              (W.enumerate_processes log.length controller path).1] }
          rw [heq] at this
          exact absurd this (by simp)
      · rename_i st heq
        rw [heq] at hw hdone
        split at h
        · rename_i hnd
          obtain ⟨new2, st2, h2, hout, hcls⟩ := ih st.ret st.s st.log out h
          have hne : wnew.filterMap proj ≠ [] := by
            intro hnil
            rw [hnil] at hdone
            simp only at hdone
            rw [hdone] at hnd
            simp at hnd
          have hroom := pid_room_lt_of_steps hw hne
          simp only at hroom
          refine ⟨_, st2, steps_trans (steps_trans hstep hw) (steps_congr_left h2 rfl rfl rfl), hout, ?_⟩
          rcases hcls with hcls | ⟨hl2, hcls⟩
          · exact Or.inl hcls
          · refine Or.inr ⟨?_, ?_⟩
            · rcases List.eq_nil_or_concat new2 with rfl | ⟨l1, e, rfl⟩
              · rw [List.append_nil]
                exact hlast
              · rw [List.getLast?_append_of_ne_nil _ (by simp)]
                exact hl2
            · rcases hcls with ⟨hcls, t, ht, hun⟩ | ⟨hcls, hn⟩
              · refine Or.inl ⟨hcls, t, ?_, hun⟩
                have hlen := congrArg List.length hw.log_eq
                simp only [List.length_append] at hlen
                omega
              · exact Or.inr ⟨hcls, by omega⟩
        · subst h
          exact ⟨_, st, steps_trans hstep hw, rfl, Or.inl rfl⟩

/-! ## The status returned -/

theorem foldl_ret_step_neg (rs : List Int) : ∀ ret : Int, ret < 0 → rs.foldl ret_step ret = ret := by
  induction rs with
  | nil => intro ret _; rfl
  | cons r rs ih =>
    intro ret h
    have hs : ret_step ret r = ret := by
      unfold ret_step
      have h1 : ¬ (ret ≥ 0 ∧ r ≠ -ESRCH) := fun hh => by omega
      have h2 : ¬ ret = 0 := by omega
      simp only [h1, h2, if_false, ite_self]
    rw [List.foldl_cons, hs]
    exact ih ret h

theorem foldl_ret_step_one (rs : List Int) :
    rs.foldl ret_step 1
      = match rs.find? (fun r => decide (r < 0 ∧ r ≠ -ESRCH)) with
        | some e => e
        | none => 1 := by
  induction rs with
  | nil => rfl
  | cons r rs ih =>
    rw [List.foldl_cons]
    by_cases hbad : r < 0 ∧ r ≠ -ESRCH
    · have hs : ret_step 1 r = r := by
        unfold ret_step
        rw [if_pos hbad.1, if_pos ⟨by decide, hbad.2⟩]
      rw [hs, foldl_ret_step_neg rs r hbad.1]
      simp [List.find?, hbad]
    · have hs : ret_step 1 r = 1 := by
        unfold ret_step
        by_cases hneg : r < 0
        · rw [if_pos hneg, if_neg (fun hh => hbad ⟨hneg, hh.2⟩)]
        · rw [if_neg hneg, if_neg (by decide)]
      rw [hs, ih]
      simp [List.find?, hbad]

/-- Folding the update of `ret` over the results of the actions, from `0`,
gives the status of the spec. -/
theorem foldl_ret_step_zero (rs : List Int) : rs.foldl ret_step 0 = aggregate rs := by
  induction rs with
  | nil => rfl
  | cons r rs ih =>
    rw [List.foldl_cons]
    unfold aggregate
    by_cases hbad : r < 0 ∧ r ≠ -ESRCH
    · have hs : ret_step 0 r = r := by
        unfold ret_step
        rw [if_pos hbad.1, if_pos ⟨by decide, hbad.2⟩]
      rw [hs, foldl_ret_step_neg rs r hbad.1]
      simp [List.find?, hbad]
    · by_cases hneg : r < 0
      · have hs : ret_step 0 r = 0 := by
          unfold ret_step
          rw [if_pos hneg, if_neg (fun hh => hbad ⟨hneg, hh.2⟩)]
        have hnn : ¬ 0 ≤ r := by omega
        rw [hs, ih]
        unfold aggregate
        simp [List.find?, hbad, hnn]
      · have hs : ret_step 0 r = 1 := by
          unfold ret_step
          rw [if_neg hneg, if_pos rfl]
        have hnn : 0 ≤ r := by omega
        rw [hs, foldl_ret_step_one]
        simp [List.find?, hbad, hnn]

theorem kill_act_ok (W : World) (sig : Int) (sigcont : Bool) :
    ActOk kill_proj (kill_act W sig sigcont) where
  proj_eq := by
    intro st pid
    simp only [kill_act]
    split <;> simp [kill_proj]
  no_open := by
    intro st pid e he
    simp only [kill_act] at he
    split at he
    · simp only [List.mem_cons, List.mem_singleton, List.not_mem_nil, or_false] at he
      rcases he with rfl | rfl <;> rfl
    · simp only [List.mem_singleton] at he
      subst he
      rfl
  proj_open := by
    intro e he
    cases e <;> first | rfl | exact Bool.noConfusion he

theorem attach_act_ok (W : World) (cto : Option CStr) (pto : CStr) :
    ActOk attach_proj (attach_act W cto pto) where
  proj_eq := by
    intro st pid
    simp [attach_act, attach_proj]
  no_open := by
    intro st pid e he
    simp only [attach_act, List.mem_singleton] at he
    subst he
    rfl
  proj_open := by
    intro e he
    cases e <;> first | rfl | exact Bool.noConfusion he

/-- The loop of `cg_kill` and `cg_migrate` with as many passes as there are
values of `pid_t`: it gives a result. -/
theorem gen_loop_values (W : World) (ignore_self : Bool) (proj : Event → Option (Int × Int))
    (act : Action) (hact : ActOk proj act) (controller : Option CStr) (path : CStr)
    (ret : Int) (s : PidSet) (log : Log) :
    ∃ new st1,
      Steps W ignore_self proj { ret := ret, done := true, s := s, log := log } st1 new ∧
      (gen_loop W ignore_self act controller path PID_T_VALUES ret s log).2
        = (st1.s, st1.log) ∧
      ((gen_loop W ignore_self act controller path PID_T_VALUES ret s log).1 = some st1.ret ∨
        (new.getLast? ≠ some (Event.enumerate_processes controller path (-ENOENT)) ∧
          (gen_loop W ignore_self act controller path PID_T_VALUES ret s log).1 ≠ none ∧
          ∃ t, log.length ≤ t ∧ unreadable_at W controller path
            (gen_loop W ignore_self act controller path PID_T_VALUES ret s log).2.2 t)) := by
  obtain ⟨new, st1, hsteps, hout, hcls⟩ :=
    gen_loop_spec W ignore_self proj act hact controller path PID_T_VALUES ret s log _ rfl
  refine ⟨new, st1, hsteps, hout, ?_⟩
  rcases hcls with h | ⟨hl, h | ⟨_, hn⟩⟩
  · exact Or.inl h
  · exact Or.inr ⟨hl, h⟩
  · have := pid_room_lt_values s
    omega

/-- `cg_kill` gives a result; its events, its set and its result. -/
theorem cg_kill_spec (W : World) (controller : Option CStr) (path : CStr) (sig : Int)
    (sigcont ignore_self : Bool) (s : Option PidSet) (log : Log) :
    ∃ new st1,
      Steps W ignore_self kill_proj
        { ret := 0, done := true, s := s.getD [], log := log } st1 new ∧
      (cg_kill W controller path sig sigcont ignore_self s log).2 = (st1.s, st1.log) ∧
      ((cg_kill W controller path sig sigcont ignore_self s log).1 = some st1.ret ∨
        (new.getLast? ≠ some (Event.enumerate_processes controller path (-ENOENT)) ∧
          (cg_kill W controller path sig sigcont ignore_self s log).1 ≠ none ∧
          ∃ t, log.length ≤ t ∧ unreadable_at W controller path
            (cg_kill W controller path sig sigcont ignore_self s log).2.2 t)) := by
  unfold cg_kill
  simp only [cg_kill_loop_eq]
  exact gen_loop_values W ignore_self kill_proj _ (kill_act_ok W sig sigcont) controller path 0
    (s.getD []) log

/-- `cg_migrate` gives a result; its events and its result. -/
theorem cg_migrate_spec (W : World) (cfrom : Option CStr) (pfrom : CStr) (cto : Option CStr)
    (pto : CStr) (ignore_self : Bool) (log : Log) :
    ∃ new st1,
      Steps W ignore_self attach_proj
        { ret := 0, done := true, s := [], log := log } st1 new ∧
      (cg_migrate W cfrom pfrom cto pto ignore_self log).2 = st1.log ∧
      ((cg_migrate W cfrom pfrom cto pto ignore_self log).1 = some st1.ret ∨
        (new.getLast? ≠ some (Event.enumerate_processes cfrom pfrom (-ENOENT)) ∧
          (cg_migrate W cfrom pfrom cto pto ignore_self log).1 ≠ none ∧
          ∃ t, log.length ≤ t ∧ unreadable_at W cfrom pfrom
            (cg_migrate W cfrom pfrom cto pto ignore_self log).2 t)) := by
  unfold cg_migrate
  simp only [cg_migrate_loop_eq]
  obtain ⟨new, st1, hsteps, hout, hcls⟩ :=
    gen_loop_values W ignore_self attach_proj _ (attach_act_ok W cto pto) cfrom pfrom 0 [] log
  refine ⟨new, st1, hsteps, ?_, hcls⟩
  rw [hout]

/-! ## C4: the rounds of `cg_kill_recursive_and_wait` -/

/-- C4: `cg_kill_recursive_and_wait` is the orchestration of the spec on the 15
rounds `SIGTERM, 0 (8 times), SIGKILL, 0 (5 times)`: every round calls
`cg_kill_recursive` with `sigcont` and `ignore_self` on, the first result
`<= 0` is returned at once without sleeping, every other round is followed by
a sleep of 200 ms, and the result is `0` after 15 rounds with a result `> 0`. -/
theorem cg_kill_recursive_and_wait_rounds (W : World) (depth : Nat) (controller : Option CStr)
    (path : CStr) (rem : Bool) (log : Log) :
    cg_kill_recursive_and_wait W depth controller path rem log
      = terminate_and_wait W depth controller path rem wait_rounds log := by
  simp only [cg_kill_recursive_and_wait, cg_kill_recursive_and_wait_for, wait_rounds,
    terminate_and_wait, List.replicate, List.cons_append, List.nil_append, List.singleton_append,
    USEC_PER_MSEC]
  simp

/-! ## C5: the continue signal -/

/-- C5, the code at a cgroup with the pids 1 and 2, `SIGTERM` and `sigcont` on:
both pids are sent `SIGTERM` and the signal is delivered, but only pid 1, the
first, is sent `SIGCONT`; the call `kill(pid, SIGCONT)` is inside the branch
`else if (ret == 0)`, which is taken once. -/
theorem cg_kill_sigcont_only_first :
    cg_kill twoPidWorld none "/a".toList SIGTERM true false none []
      = (some 1, [2, 1],
          [Event.enumerate_processes none "/a".toList 0,
            Event.kill 1 SIGTERM 0, Event.kill_cont 1,
            Event.kill 2 SIGTERM 0,
            Event.enumerate_processes none "/a".toList 0]) := by
  decide

/-! ## The pids signalled by `cg_kill_recursive` -/

theorem cg_kill_sends (W : World) (controller : Option CStr) (path : CStr) (sig : Int)
    (sigcont ignore_self : Bool) (s : Option PidSet) (log : Log) :
    ∃ new, (cg_kill W controller path sig sigcont ignore_self s log).2.2 = log ++ new ∧
      Sends W ignore_self kill_proj (s.getD [])
        (cg_kill W controller path sig sigcont ignore_self s log).2.1 new := by
  obtain ⟨new, st1, hsteps, hout, _⟩ :=
    cg_kill_spec W controller path sig sigcont ignore_self s log
  refine ⟨new, ?_, ?_⟩
  · rw [hout]
    exact hsteps.log_eq
  · rw [hout]
    exact hsteps.sends

theorem cg_kill_recursive_while_sends (W : World) (ignore_self : Bool)
    (recurse : CStr → PidSet → Log → Option Int × PidSet × Log)
    (hrec : ∀ p s log, ∃ new, (recurse p s log).2.2 = log ++ new ∧
      Sends W ignore_self kill_proj s (recurse p s log).2.1 new)
    (path : CStr) (d : DIR) :
    ∀ (ret : Int) (s : PidSet) (log : Log) (out : Option Int × Int × PidSet × Log),
      cg_kill_recursive_while recurse path d ret s log = out →
      ∃ new, out.2.2.2 = log ++ new ∧ Sends W ignore_self kill_proj s out.2.2.1 new := by
  induction d with
  | nil =>
    intro ret s log out h
    simp only [cg_kill_recursive_while] at h
    subst h
    exact ⟨[], by simp, sends_refl W ignore_self kill_proj s⟩
  | cons x d ih =>
    intro ret s log out h
    simp only [cg_kill_recursive_while] at h
    split at h
    · split at h
      · rename_i s1 log1 heq
        subst h
        obtain ⟨new, hl, hs⟩ := hrec (path ++ '/' :: match (cg_read_subgroup (some x)).2 with
          | some fn => fn
          | none => []) s log
        rw [heq] at hl hs
        exact ⟨new, hl, hs⟩
      · rename_i r s1 log1 heq
        obtain ⟨new1, hl1, hs1⟩ := hrec (path ++ '/' :: match (cg_read_subgroup (some x)).2 with
          | some fn => fn
          | none => []) s log
        rw [heq] at hl1 hs1
        obtain ⟨new2, hl2, hs2⟩ := ih _ s1 log1 out h
        refine ⟨new1 ++ new2, ?_, sends_trans hs1 hs2⟩
        rw [hl2]
        simp only at hl1
        rw [hl1, List.append_assoc]
    · subst h
      exact ⟨[], by simp, sends_refl W ignore_self kill_proj s⟩

theorem cg_kill_recursive_sends (W : World) (depth : Nat) :
    ∀ (controller : Option CStr) (path : CStr) (sig : Int) (sigcont ignore_self rem : Bool)
      (s : Option PidSet) (log : Log) (out : Option Int × PidSet × Log),
      cg_kill_recursive W depth controller path sig sigcont ignore_self rem s log = out →
      ∃ new, out.2.2 = log ++ new ∧ Sends W ignore_self kill_proj (s.getD []) out.2.1 new := by
  induction depth with
  | zero =>
    intro controller path sig sigcont ignore_self rem s log out h
    simp only [cg_kill_recursive] at h
    subst h
    exact ⟨[], by simp, sends_refl W ignore_self kill_proj _⟩
  | succ depth ih =>
    intro controller path sig sigcont ignore_self rem s log out h
    simp only [cg_kill_recursive] at h
    obtain ⟨new1, hl1, hs1⟩ :=
      cg_kill_sends W controller path sig sigcont ignore_self (some (s.getD [])) log
    simp only [Option.getD_some] at hs1
    split at h
    · rename_i s1 log1 heq
      subst h
      rw [heq] at hl1 hs1
      exact ⟨new1, hl1, hs1⟩
    · rename_i ret s1 log1 heq
      rw [heq] at hl1 hs1
      simp only at hl1 hs1
      have hsub := sends_of_none W ignore_self kill_proj s1
        (Event.enumerate_subgroups controller path
          (W.enumerate_subgroups log1.length controller path).1) rfl
      split at h
      · refine ⟨new1 ++ [Event.enumerate_subgroups controller path
          (W.enumerate_subgroups log1.length controller path).1], ?_, ?_⟩
        · split at h <;> subst h <;> simp only [hl1, List.append_assoc]
        · split at h <;> subst h <;> exact sends_trans hs1 hsub
      · obtain ⟨new3, hl3, hs3⟩ := cg_kill_recursive_while_sends W ignore_self
          (fun p s log =>
            cg_kill_recursive W depth controller p sig sigcont ignore_self rem (some s) log)
          (fun p s log => ih controller p sig sigcont ignore_self rem (some s) log _ rfl)
          path (W.enumerate_subgroups log1.length controller path).2 ret s1
          (log1 ++ [Event.enumerate_subgroups controller path
            (W.enumerate_subgroups log1.length controller path).1]) _ rfl
        split at h
        · rename_i r3 s3 log3 heq3
          subst h
          rw [heq3] at hl3 hs3
          simp only at hl3 hs3
          refine ⟨new1 ++ ([Event.enumerate_subgroups controller path
            (W.enumerate_subgroups log1.length controller path).1] ++ new3), ?_,
            sends_trans hs1 (sends_trans hsub hs3)⟩
          simp only [hl3, hl1, List.append_assoc]
        · rename_i ret3 r3 s3 log3 heq3
          rw [heq3] at hl3 hs3
          simp only at hl3 hs3
          split at h
          · have hrm := sends_of_none W ignore_self kill_proj s3
              (Event.rmdir controller path (W.rmdir log3.length controller path)) rfl
            have h2 : out.2 = (s3, log3 ++ [Event.rmdir controller path
                (W.rmdir log3.length controller path)]) := by
              rw [← h]
              repeat' split
              all_goals rfl
            refine ⟨new1 ++ ([Event.enumerate_subgroups controller path
              (W.enumerate_subgroups log1.length controller path).1] ++
              (new3 ++ [Event.rmdir controller path (W.rmdir log3.length controller path)])),
              ?_, ?_⟩
            · rw [h2]
              simp only [hl3, hl1, List.append_assoc]
            · rw [h2]
              exact sends_trans hs1 (sends_trans hsub (sends_trans hs3 hrm))
          · subst h
            refine ⟨new1 ++ ([Event.enumerate_subgroups controller path
              (W.enumerate_subgroups log1.length controller path).1] ++ new3), ?_,
              sends_trans hs1 (sends_trans hsub hs3)⟩
            simp only [hl3, hl1, List.append_assoc]

/-! ## C7: the pids written by `cg_migrate_recursive` -/

/-- C7 as stated fails: with pid 5 listed in `/a` and in its subgroup `/a/b`,
one call of `cg_migrate_recursive` on `/a` writes pid 5 to the target twice. -/
theorem cg_migrate_recursive_writes_twice :
    attach_pids (cg_migrate_recursive sharedPidWorld 2 (some "cpu".toList) "/a".toList
      (some "cpu".toList) "/t".toList false false []).2 = [5, 5] := by
  decide

theorem once_per_cgroup_nil : once_per_cgroup [] := by
  intro p
  simp [attach_pids, visited]

theorem once_per_cgroup_append {a b : List Event} (ha : once_per_cgroup a)
    (hb : once_per_cgroup b) : once_per_cgroup (a ++ b) := by
  intro p
  have h1 := ha p
  have h2 := hb p
  simp only [attach_pids, visited, List.filterMap_append, List.map_append, List.count_append,
    List.length_append] at h1 h2 ⊢
  omega

theorem once_per_cgroup_rmdir (c : Option CStr) (path : CStr) (r : Int) :
    once_per_cgroup [Event.rmdir c path r] := by
  intro p
  simp [attach_pids, visited, attach_proj]

/-- The events of one visit: those of `cg_migrate`, then the listing of the
subgroups. -/
theorem once_per_cgroup_visit {a : List Event} (ha : (attach_pids a).Nodup)
    (c : Option CStr) (path : CStr) (r : Int) :
    once_per_cgroup (a ++ [Event.enumerate_subgroups c path r]) := by
  intro p
  have h1 := List.nodup_iff_count_le_one.1 ha p
  simp only [attach_pids, visited, List.filterMap_append, List.map_append, List.count_append,
    List.length_append] at h1 ⊢
  simp only [List.filterMap_cons, List.filterMap_nil, attach_proj, List.map_nil, List.count_nil,
    List.length_singleton]
  omega

theorem cg_migrate_nodup (W : World) (cfrom : Option CStr) (pfrom : CStr) (cto : Option CStr)
    (pto : CStr) (ignore_self : Bool) (log : Log) :
    ∃ new, (cg_migrate W cfrom pfrom cto pto ignore_self log).2 = log ++ new ∧
      (attach_pids new).Nodup ∧ (cg_migrate W cfrom pfrom cto pto ignore_self log).1 ≠ none := by
  obtain ⟨new, st1, hsteps, hout, hcls⟩ := cg_migrate_spec W cfrom pfrom cto pto ignore_self log
  refine ⟨new, ?_, hsteps.sends.nodup, ?_⟩
  · rw [hout]
    exact hsteps.log_eq
  · rcases hcls with h | ⟨_, h, _⟩
    · rw [h]
      simp
    · exact h

theorem cg_migrate_recursive_while_once (recurse : CStr → Log → Option Int × Log)
    (hrec : ∀ p log, ∃ new, (recurse p log).2 = log ++ new ∧ once_per_cgroup new)
    (pfrom : CStr) (d : DIR) :
    ∀ (ret : Int) (log : Log) (out : Option Int × Int × Log),
      cg_migrate_recursive_while recurse pfrom d ret log = out →
      ∃ new, out.2.2 = log ++ new ∧ once_per_cgroup new := by
  induction d with
  | nil =>
    intro ret log out h
    simp only [cg_migrate_recursive_while] at h
    subst h
    exact ⟨[], by simp, once_per_cgroup_nil⟩
  | cons x d ih =>
    intro ret log out h
    simp only [cg_migrate_recursive_while] at h
    split at h
    · obtain ⟨new1, hl1, hq1⟩ := hrec (pfrom ++ '/' :: match (cg_read_subgroup (some x)).2 with
        | some fn => fn
        | none => []) log
      split at h
      · rename_i log1 heq
        subst h
        rw [heq] at hl1
        exact ⟨new1, hl1, hq1⟩
      · rename_i r log1 heq
        rw [heq] at hl1
        simp only at hl1
        obtain ⟨new2, hl2, hq2⟩ := ih _ log1 out h
        refine ⟨new1 ++ new2, ?_, once_per_cgroup_append hq1 hq2⟩
        rw [hl2, hl1, List.append_assoc]
    · subst h
      exact ⟨[], by simp, once_per_cgroup_nil⟩

theorem cg_migrate_recursive_once (W : World) (depth : Nat) :
    ∀ (cfrom : Option CStr) (pfrom : CStr) (cto : Option CStr) (pto : CStr)
      (ignore_self rem : Bool) (log : Log) (out : Option Int × Log),
      cg_migrate_recursive W depth cfrom pfrom cto pto ignore_self rem log = out →
      ∃ new, out.2 = log ++ new ∧ once_per_cgroup new := by
  induction depth with
  | zero =>
    intro cfrom pfrom cto pto ignore_self rem log out h
    simp only [cg_migrate_recursive] at h
    subst h
    exact ⟨[], by simp, once_per_cgroup_nil⟩
  | succ depth ih =>
    intro cfrom pfrom cto pto ignore_self rem log out h
    simp only [cg_migrate_recursive] at h
    obtain ⟨new1, hl1, hn1, hsome⟩ := cg_migrate_nodup W cfrom pfrom cto pto ignore_self log
    split at h
    · rename_i log1 heq
      rw [heq] at hsome
      exact absurd rfl hsome
    · rename_i ret log1 heq
      rw [heq] at hl1
      simp only at hl1
      have hvisit := once_per_cgroup_visit hn1 cfrom pfrom
        (W.enumerate_subgroups log1.length cfrom pfrom).1
      split at h
      · have h2 : out.2 = log1 ++ [Event.enumerate_subgroups cfrom pfrom
            (W.enumerate_subgroups log1.length cfrom pfrom).1] := by
          rw [← h]
          repeat' split
          all_goals rfl
        refine ⟨_, ?_, hvisit⟩
        rw [h2, hl1, List.append_assoc]
      · obtain ⟨new3, hl3, hq3⟩ := cg_migrate_recursive_while_once
          (fun p log => cg_migrate_recursive W depth cfrom p cto pto ignore_self rem log)
          (fun p log => ih cfrom p cto pto ignore_self rem log _ rfl)
          pfrom (W.enumerate_subgroups log1.length cfrom pfrom).2 ret
          (log1 ++ [Event.enumerate_subgroups cfrom pfrom
            (W.enumerate_subgroups log1.length cfrom pfrom).1]) _ rfl
        split at h
        · rename_i r3 log3 heq3
          subst h
          rw [heq3] at hl3
          simp only at hl3
          refine ⟨_, ?_, once_per_cgroup_append hvisit hq3⟩
          simp only [hl3, hl1, List.append_assoc]
        · rename_i ret3 r3 log3 heq3
          rw [heq3] at hl3
          simp only at hl3
          split at h
          · have h2 : out.2 = log3 ++ [Event.rmdir cfrom pfrom
                (W.rmdir log3.length cfrom pfrom)] := by
              rw [← h]
              repeat' split
              all_goals rfl
            refine ⟨_, ?_, once_per_cgroup_append (once_per_cgroup_append hvisit hq3)
              (once_per_cgroup_rmdir cfrom pfrom (W.rmdir log3.length cfrom pfrom))⟩
            rw [h2]
            simp only [hl3, hl1, List.append_assoc]
          · subst h
            refine ⟨_, ?_, once_per_cgroup_append hvisit hq3⟩
            simp only [hl3, hl1, List.append_assoc]

/-- C7 as amended: one call of `cg_migrate`, which moves the processes of one
source cgroup, writes no pid to the target more than once, however often the
membership file lists it; and one call of `cg_migrate_recursive` writes no pid
more often than it visited cgroups of the source subtree (each visit is one
call of `cg_migrate`, with a set of its own). -/
theorem cg_migrate_writes_once_per_cgroup (W : World) (depth : Nat) (cfrom : Option CStr)
    (pfrom : CStr) (cto : Option CStr) (pto : CStr) (ignore_self rem : Bool) (log : Log) :
    (∃ new, (cg_migrate W cfrom pfrom cto pto ignore_self log).2 = log ++ new ∧
      (attach_pids new).Nodup) ∧
    (∃ new, (cg_migrate_recursive W depth cfrom pfrom cto pto ignore_self rem log).2
        = log ++ new ∧
      ∀ p, (attach_pids new).count p ≤ (visited new).length) := by
  constructor
  · obtain ⟨new, hl, hn, _⟩ := cg_migrate_nodup W cfrom pfrom cto pto ignore_self log
    exact ⟨new, hl, hn⟩
  · exact cg_migrate_recursive_once W depth cfrom pfrom cto pto ignore_self rem log _ rfl

/-! ## C8: a cgroup that disappears -/

/-- C8 as stated fails: pid 1 is signalled successfully in the first pass, the
`kill` of pid 2 fails with `EPERM`, and the open of the second pass fails with
`ENOENT`; `cg_kill` returns `-EPERM`, an error, and not `1`. -/
theorem cg_kill_enoent_after_eperm :
    cg_kill vanishEpermWorld none "/a".toList SIGTERM false false none []
      = (some (-1), [2, 1],
          [Event.enumerate_processes none "/a".toList 0,
            Event.kill 1 SIGTERM 0, Event.kill 2 SIGTERM 1,
            Event.enumerate_processes none "/a".toList (-ENOENT)]) := by
  decide

/-- C8 as amended: when the last call of `cg_kill` is an open of the
membership file that fails with `ENOENT`, `cg_kill` returns the status
accumulated from the `kill` results so far and not that error: the first
failure other than `ESRCH` if one was recorded, otherwise `1` if a signal was
delivered, otherwise `0`. And when listing the subgroups fails with `ENOENT`,
`cg_kill_recursive` returns the result of its `cg_kill`. -/
theorem cg_kill_enoent_status (W : World) (controller : Option CStr) (path : CStr) (sig : Int)
    (sigcont ignore_self : Bool) (s : Option PidSet) (log : Log) :
    (∀ new : Log,
      (cg_kill W controller path sig sigcont ignore_self s log).2.2 = log ++ new →
      new.getLast? = some (Event.enumerate_processes controller path (-ENOENT)) →
      (cg_kill W controller path sig sigcont ignore_self s log).1
        = some (aggregate (kill_results new))) ∧
    ∀ (depth : Nat) (rem : Bool),
      (W.enumerate_subgroups
        (cg_kill W controller path sig sigcont ignore_self (some (s.getD [])) log).2.2.length
        controller path).1 = -ENOENT →
      ∃ ret, (cg_kill W controller path sig sigcont ignore_self (some (s.getD [])) log).1
          = some ret ∧
        cg_kill_recursive W (depth + 1) controller path sig sigcont ignore_self rem s log
          = (some ret,
              (cg_kill W controller path sig sigcont ignore_self (some (s.getD [])) log).2.1,
              (cg_kill W controller path sig sigcont ignore_self (some (s.getD [])) log).2.2
                ++ [Event.enumerate_subgroups controller path (-ENOENT)]) := by
  constructor
  · intro new hlog hlast
    obtain ⟨new1, st1, hsteps, hout, hcls⟩ :=
      cg_kill_spec W controller path sig sigcont ignore_self s log
    have hnew : new1 = new := by
      have h1 : (cg_kill W controller path sig sigcont ignore_self s log).2.2 = log ++ new1 := by
        rw [hout]
        exact hsteps.log_eq
      rw [hlog] at h1
      exact (List.append_cancel_left h1).symm
    subst hnew
    rcases hcls with h | ⟨hne, _⟩
    · rw [h, hsteps.ret_eq]
      exact congrArg some (foldl_ret_step_zero _)
    · exact absurd hlast hne
  · intro depth rem hsub
    obtain ⟨new1, st1, hsteps, hout, hcls⟩ :=
      cg_kill_spec W controller path sig sigcont ignore_self (some (s.getD [])) log
    have hsome : (cg_kill W controller path sig sigcont ignore_self (some (s.getD [])) log).1
        ≠ none := by
      rcases hcls with h | ⟨_, h, _⟩
      · rw [h]
        simp
      · exact h
    cases hk : cg_kill W controller path sig sigcont ignore_self (some (s.getD [])) log with
    | mk v rest =>
      cases rest with
      | mk s1 log1 =>
        rw [hk] at hsome hsub
        cases v with
        | none => exact absurd rfl hsome
        | some ret =>
          refine ⟨ret, rfl, ?_⟩
          simp only at hsub
          have hneg : (W.enumerate_subgroups log1.length controller path).1 < 0 := by
            rw [hsub]
            decide
          have hcond : ¬ (ret ≥ 0 ∧
              (W.enumerate_subgroups log1.length controller path).1 ≠ -ENOENT) :=
            fun hh => hh.2 hsub
          simp only [cg_kill_recursive, hk]
          rw [if_pos hneg, if_neg hcond, hsub]

/-- C8 as amended, in a world where the cgroup lists the pids 1 and 2 at first
and then disappears: both signals are delivered, the open of the second pass
fails with `ENOENT`, and `cg_kill` returns `1`; so does `cg_kill_recursive`,
whose listing of the subgroups fails with `ENOENT`. -/
theorem cg_kill_enoent_status_witness :
    (cg_kill vanishWorld none "/a".toList SIGTERM false false none []).2.2 = [] ++ vanishLog ∧
    vanishLog.getLast? = some (Event.enumerate_processes none "/a".toList (-ENOENT)) ∧
    aggregate (kill_results vanishLog) = 1 ∧
    (vanishWorld.enumerate_subgroups
      (cg_kill vanishWorld none "/a".toList SIGTERM false false (some []) []).2.2.length
      none "/a".toList).1 = -ENOENT ∧
    (cg_kill vanishWorld none "/a".toList SIGTERM false false none []).1
      = some (aggregate (kill_results vanishLog)) ∧
    ∃ ret, (cg_kill vanishWorld none "/a".toList SIGTERM false false (some []) []).1
        = some ret ∧
      cg_kill_recursive vanishWorld (0 + 1) none "/a".toList SIGTERM false false false none []
        = (some ret,
            (cg_kill vanishWorld none "/a".toList SIGTERM false false (some []) []).2.1,
            (cg_kill vanishWorld none "/a".toList SIGTERM false false (some []) []).2.2
              ++ [Event.enumerate_subgroups none "/a".toList (-ENOENT)]) :=
  ⟨by decide, by decide, by decide, by decide,
    (cg_kill_enoent_status vanishWorld none "/a".toList SIGTERM false false none []).1
      vanishLog (by decide) (by decide),
    (cg_kill_enoent_status vanishWorld none "/a".toList SIGTERM false false none []).2
      0 false (by decide)⟩

/-! ## The bits of the mask -/

/-- The test `bit & mask` for `bit = 2 ^ i` is the test of bit `i`. -/
theorem land_two_pow_ne_zero (mask i : Nat) : 2 ^ i &&& mask ≠ 0 ↔ mask.testBit i = true := by
  rw [Nat.land_comm, Nat.and_two_pow]
  have hp : 0 < 2 ^ i := Nat.two_pow_pos i
  cases h : mask.testBit i
  · simp
  · simp only [Bool.toNat_true, one_mul, ne_eq, iff_true]
    omega

theorem two_pow_shiftLeft_one (i : Nat) : 2 ^ i <<< 1 = 2 ^ (i + 1) := by
  rw [Nat.shiftLeft_eq, pow_one, pow_succ]

/-! ## C10: `cg_create_with_mask` -/

theorem cg_create_with_mask_for_ops (W : World) (mask : Nat) (path : CStr) (names : List CStr) :
    ∀ (i : Nat) (log : Log),
      ∃ new, cg_create_with_mask_for W mask path names (2 ^ i) log = log ++ new ∧
        new.map Event.op = (names.enumFrom i).map (fun x => create_or_trim mask path x.1 x.2) := by
  induction names with
  | nil =>
    intro i log
    exact ⟨[], by simp [cg_create_with_mask_for], rfl⟩
  | cons n names ih =>
    intro i log
    simp only [cg_create_with_mask_for, two_pow_shiftLeft_one]
    by_cases hb : mask.testBit i = true
    · rw [if_pos ((land_two_pow_ne_zero mask i).2 hb)]
      obtain ⟨new, hl, hops⟩ := ih (i + 1)
        (log ++ [Event.create (some n) path (W.create log.length (some n) path)])
      refine ⟨Event.create (some n) path (W.create log.length (some n) path) :: new, ?_, ?_⟩
      · rw [hl, List.append_assoc, List.singleton_append]
      · simp only [List.map_cons, List.enumFrom_cons, hops, Event.op, create_or_trim, hb, if_true]
    · rw [if_neg (fun h => hb ((land_two_pow_ne_zero mask i).1 h))]
      obtain ⟨new, hl, hops⟩ := ih (i + 1)
        (log ++ [Event.trim (some n) path true (W.trim log.length (some n) path true)])
      refine ⟨Event.trim (some n) path true (W.trim log.length (some n) path true) :: new, ?_, ?_⟩
      · rw [hl, List.append_assoc, List.singleton_append]
      · simp only [List.map_cons, List.enumFrom_cons, hops, Event.op, create_or_trim, hb]
        rfl

/-- C10: `cg_create_with_mask` first creates the path in the authoritative
hierarchy and returns the result `r` of that call, whatever the later calls
return. When `r` is negative it makes no other call. Otherwise it goes through
the controllers cpu, cpuacct, blkio, memory, devices in that order, and for the
`i`-th of them creates the path when bit `i` of the mask is set and trims it,
removing the directory itself, when the bit is clear. -/
theorem cg_create_with_mask_calls (W : World) (mask : Nat) (path : CStr) (log : Log) :
    (cg_create_with_mask W mask path log).1
        = W.create log.length (some SYSTEMD_CGROUP_CONTROLLER) path ∧
    ∃ new, (cg_create_with_mask W mask path log).2
        = log ++ Event.create (some SYSTEMD_CGROUP_CONTROLLER) path
            (W.create log.length (some SYSTEMD_CGROUP_CONTROLLER) path) :: new ∧
      new.map Event.op
        = if W.create log.length (some SYSTEMD_CGROUP_CONTROLLER) path < 0 then []
          else
            [create_or_trim mask path 0 "cpu".toList, create_or_trim mask path 1 "cpuacct".toList,
              create_or_trim mask path 2 "blkio".toList, create_or_trim mask path 3 "memory".toList,
              create_or_trim mask path 4 "devices".toList] := by
  unfold cg_create_with_mask
  by_cases hr : W.create log.length (some SYSTEMD_CGROUP_CONTROLLER) path < 0
  · simp only [if_pos hr]
    exact ⟨trivial, [], by simp, rfl⟩
  · simp only [if_neg hr]
    refine ⟨trivial, ?_⟩
    obtain ⟨new, hl, hops⟩ := cg_create_with_mask_for_ops W mask path mask_names 0
      (log ++ [Event.create (some SYSTEMD_CGROUP_CONTROLLER) path
        (W.create log.length (some SYSTEMD_CGROUP_CONTROLLER) path)])
    refine ⟨new, ?_, ?_⟩
    · rw [pow_zero] at hl
      rw [hl, List.append_assoc, List.singleton_append]
    · rw [hops]
      rfl

/-! ## C9: `cg_attach_with_mask` -/

/-- C9 as stated fails: with the bit of cpu set (mask 1) and `/a/b` missing in
the cpu hierarchy, the attach at `/a/b` there fails with `ENOENT` and no
ancestor is tried for cpu; the ancestor `/a` is tried for the controllers
whose bit is clear. -/
theorem cg_attach_with_mask_set_bit_no_retry :
    cg_attach_with_mask lagWorld 1 "/a/b".toList 7 []
      = (0,
          [Event.attach (some "name=systemd".toList) "/a/b".toList 7 0,
            Event.attach (some "cpu".toList) "/a/b".toList 7 (-ENOENT),
            Event.attach (some "cpuacct".toList) "/a".toList 7 0,
            Event.attach (some "blkio".toList) "/a".toList 7 0,
            Event.attach (some "memory".toList) "/a".toList 7 0,
            Event.attach (some "devices".toList) "/a".toList 7 0]) := by
  decide

theorem strrchr_lt (p : CStr) (c : Char) : ∀ k, strrchr p c = some k → k < p.length := by
  induction p with
  | nil => intro k h; simp [strrchr] at h
  | cons d p ih =>
    intro k h
    simp only [strrchr] at h
    cases hs : strrchr p c with
    | some i =>
      rw [hs] at h
      simp only [Option.some.injEq] at h
      have := ih i hs
      simp only [List.length_cons]
      omega
    | none =>
      rw [hs] at h
      simp only at h
      split at h
      · simp only [Option.some.injEq] at h
        simp only [List.length_cons]
        omega
      · exact absurd h (by simp)

theorem ancestors_of_strrchr_none (p : CStr) (h : strrchr p '/' = none) : ancestors p = [] := by
  induction p with
  | nil => rfl
  | cons d p ih =>
    simp only [strrchr] at h
    cases hs : strrchr p '/' with
    | some i =>
      rw [hs] at h
      exact absurd h (by simp)
    | none =>
      rw [hs] at h
      simp only at h
      have hd : ¬ d = '/' := by
        intro hd
        rw [if_pos hd] at h
        exact absurd h (by simp)
      simp [ancestors, ih hs, hd]

/-- The nearest ancestor is the path cut at its last slash, and the ancestors
after it are the ancestors of that one. -/
theorem ancestors_of_strrchr_some (p : CStr) :
    ∀ k, strrchr p '/' = some k → ancestors p = p.take k :: ancestors (p.take k) := by
  induction p with
  | nil => intro k h; simp [strrchr] at h
  | cons d p ih =>
    intro k h
    simp only [strrchr] at h
    cases hs : strrchr p '/' with
    | some i =>
      rw [hs] at h
      simp only [Option.some.injEq] at h
      subst h
      simp only [ancestors, ih i hs, List.take_succ_cons, List.map_cons, List.cons_append]
    | none =>
      rw [hs] at h
      simp only at h
      split at h
      · rename_i hd
        simp only [Option.some.injEq] at h
        subst h
        simp [ancestors, ancestors_of_strrchr_none p hs, hd]
      · exact absurd h (by simp)

/-- The loop over the ancestors, given as many iterations as the buffer is
long, attaches at the proper ancestors in turn until an attach succeeds. -/
theorem cg_attach_with_mask_while_eq (W : World) (name : CStr) (pid : Int) (n : Nat) :
    ∀ (pfx : CStr) (log : Log), pfx.length ≤ n →
      cg_attach_with_mask_while W name pid n pfx log
        = attach_first W name pid (ancestors pfx) log := by
  induction n with
  | zero =>
    intro pfx log h
    have : pfx = [] := List.length_eq_zero.1 (by omega)
    subst this
    rfl
  | succ n ih =>
    intro pfx log h
    simp only [cg_attach_with_mask_while]
    cases hs : strrchr pfx '/' with
    | none =>
      rw [ancestors_of_strrchr_none pfx hs]
      rfl
    | some k =>
      have hk := strrchr_lt pfx '/' k hs
      rw [ancestors_of_strrchr_some pfx k hs]
      simp only [attach_first]
      split
      · rfl
      · apply ih
        rw [List.length_take]
        omega

theorem cg_attach_with_mask_for_eq (W : World) (mask : Nat) (path : CStr) (pid : Int)
    (names : List CStr) :
    ∀ (i : Nat) (log : Log),
      cg_attach_with_mask_for W mask path pid names (2 ^ i) log
        = attach_secondaries W mask path pid names i log := by
  induction names with
  | nil => intro i log; rfl
  | cons n names ih =>
    intro i log
    simp only [cg_attach_with_mask_for, attach_secondaries, two_pow_shiftLeft_one, ih,
      cg_attach_with_mask_while_eq W n pid path.length path log (le_refl _)]
    by_cases hb : mask.testBit i = true
    · rw [if_pos ((land_two_pow_ne_zero mask i).2 hb), if_pos hb]
    · rw [if_neg (fun h => hb ((land_two_pow_ne_zero mask i).1 h)), if_neg hb]

/-- C9 as amended: `cg_attach_with_mask` attaches the pid at the path in the
authoritative hierarchy and returns the result of that call; then, for the
controllers cpu, cpuacct, blkio, memory, devices in that order, it makes one
attach at the path itself where the bit of the controller is set (with no
retry), and where the bit is clear it attaches at the proper ancestors of the
path, nearest first (one trailing segment stripped each time), until an attach
succeeds or the path is exhausted. -/
theorem cg_attach_with_mask_calls (W : World) (mask : Nat) (path : CStr) (pid : Int)
    (log : Log) :
    cg_attach_with_mask W mask path pid log
      = (W.attach log.length (some SYSTEMD_CGROUP_CONTROLLER) path pid,
          attach_secondaries W mask path pid
            ["cpu".toList, "cpuacct".toList, "blkio".toList, "memory".toList, "devices".toList] 0
            (log ++ [Event.attach (some SYSTEMD_CGROUP_CONTROLLER) path pid
              (W.attach log.length (some SYSTEMD_CGROUP_CONTROLLER) path pid)])) := by
  unfold cg_attach_with_mask
  have h := cg_attach_with_mask_for_eq W mask path pid mask_names 0
  rw [pow_zero] at h
  simp only [h]
  rfl

/-! ## Collapsing slashes -/

theorem kill_slashes_aux_cons (c : Char) (f : CStr) (slash out : Bool) (hc : ¬ c = '/') :
    kill_slashes_aux (c :: f) slash out
      = if slash then '/' :: c :: kill_slashes_aux f false true
        else c :: kill_slashes_aux f false true := by
  simp only [kill_slashes_aux, hc, if_false]

theorem kill_slashes_aux_run_cons (q n : CStr) :
    ∀ (c : Char) (slash out : Bool), '/' ∉ c :: n →
      kill_slashes_aux (c :: n ++ q) slash out
        = (if slash then '/' :: c :: n else c :: n) ++ kill_slashes_aux q false true := by
  induction n with
  | nil =>
    intro c slash out hn
    have hc : ¬ c = '/' := fun e => hn (by simp [e])
    rw [List.cons_append, List.nil_append, kill_slashes_aux_cons c q slash out hc]
    cases slash <;> rfl
  | cons d n ih =>
    intro c slash out hn
    have hc : ¬ c = '/' := fun e => hn (by simp [e])
    have hn1 : '/' ∉ d :: n := fun hm => hn (List.mem_cons_of_mem _ hm)
    rw [List.cons_append, kill_slashes_aux_cons c _ slash out hc, ih d false true hn1]
    cases slash <;> rfl

/-- A run of characters other than the slash is copied, after the pending
slash. -/
theorem kill_slashes_aux_run (n : CStr) (hn : '/' ∉ n) (hne : n ≠ []) (q : CStr)
    (slash out : Bool) :
    kill_slashes_aux (n ++ q) slash out
      = (if slash then '/' :: n else n) ++ kill_slashes_aux q false true := by
  cases n with
  | nil => exact absurd rfl hne
  | cons c n => exact kill_slashes_aux_run_cons q n c slash out hn

/-- Once a character other than the slash follows, it does not matter whether
something was emitted before. -/
theorem kill_slashes_aux_out (f : CStr) :
    ∀ (slash : Bool), (∃ c ∈ f, c ≠ '/') →
      kill_slashes_aux f slash true = kill_slashes_aux f slash false := by
  induction f with
  | nil => intro slash h; simp at h
  | cons c f ih =>
    intro slash h
    by_cases hc : c = '/'
    · have hf : ∃ d ∈ f, d ≠ '/' := by
        obtain ⟨d, hd, hne⟩ := h
        rcases List.mem_cons.1 hd with e | e
        · exact absurd (e ▸ hc) hne
        · exact ⟨d, e, hne⟩
      simp only [kill_slashes_aux, hc, if_true]
      exact ih true hf
    · simp only [kill_slashes_aux, hc, if_false]

theorem kill_slashes_aux_slashes (f : CStr) (h : ∀ c ∈ f, c = '/') :
    kill_slashes_aux f true false = ['/'] := by
  induction f with
  | nil => rfl
  | cons c f ih =>
    have hc : c = '/' := h c (List.mem_cons_self _ _)
    simp only [kill_slashes_aux, hc, if_true]
    exact ih (fun d hd => h d (List.mem_cons_of_mem _ hd))

/-- For a normalized path `/rest` other than the root, the rest copied after a
pending slash is the path. -/
theorem kill_slashes_aux_normalized (rest : CStr) (hne : rest ≠ [])
    (h : kill_slashes_aux rest true false = '/' :: rest) :
    kill_slashes_aux rest true true = '/' :: rest := by
  by_cases hall : ∀ c ∈ rest, c = '/'
  · rw [kill_slashes_aux_slashes rest hall] at h
    have : rest = [] := by
      injection h with _ h2
      exact h2.symm
    exact absurd this hne
  · push_neg at hall
    rw [kill_slashes_aux_out rest true hall]
    exact h

theorem startswith_append (p x : CStr) : startswith (p ++ x) p = some x := by
  induction p with
  | nil => cases x <;> rfl
  | cons c p ih => simp [startswith, ih]

/-! ## C11: the path of a cgroup in the file system -/

/-- C11 as stated fails at the root cgroup: for the valid controller `cpu` and
the normalized absolute path `/`, `cg_get_path` returns `/sys/fs/cgroup/cpu`,
which is not `/sys/fs/cgroup/` followed by the controller and the path. -/
theorem cg_get_path_root_cgroup :
    cg_controller_is_valid (some "cpu".toList) true = true ∧
    path_is_absolute "/".toList = true ∧
    stdPathUtil.path_kill_slashes "/".toList = "/".toList ∧
    cg_get_path stdPathUtil 1 false (some "cpu".toList) (some "/".toList) none
      = (.ok "/sys/fs/cgroup/cpu".toList, true) ∧
    "/sys/fs/cgroup/cpu".toList
      ≠ "/sys/fs/cgroup/".toList ++ normalize_controller "cpu".toList ++ "/".toList := by
  decide

/-- The string `join_path` builds for a plain controller name and a normalized
absolute path, after the slashes were collapsed. -/
theorem kill_slashes_joined (n P : CStr) (hn : ctl_ok n)
    (hAbs : path_is_absolute P = true) (hNorm : stdPathUtil.path_kill_slashes P = P) :
    stdPathUtil.path_kill_slashes ("/sys/fs/cgroup/".toList ++ n ++ "/".toList ++ P)
      = if P = "/".toList then "/sys/fs/cgroup/".toList ++ n
        else "/sys/fs/cgroup/".toList ++ n ++ P := by
  have hslash : '/' ∉ n := ctl_chars_not_mem n hn.chars '/' (by decide)
  cases P with
  | nil => simp [path_is_absolute] at hAbs
  | cons c rest =>
    have hc : c = '/' := by simpa [path_is_absolute] using hAbs
    subst hc
    have h1 : stdPathUtil.path_kill_slashes ('/' :: rest) = kill_slashes_aux rest true false := rfl
    rw [h1] at hNorm
    have h2 : stdPathUtil.path_kill_slashes
        ("/sys/fs/cgroup/".toList ++ n ++ "/".toList ++ '/' :: rest)
        = "/sys/fs/cgroup".toList ++ kill_slashes_aux (n ++ ('/' :: '/' :: rest)) true true := by
      rw [List.append_assoc, List.append_assoc]
      rfl
    rw [h2, kill_slashes_aux_run n hslash hn.nonempty]
    have h3 : kill_slashes_aux ('/' :: '/' :: rest) false true
        = kill_slashes_aux rest true true := rfl
    rw [h3]
    by_cases hr : rest = []
    · subst hr
      simp
      rfl
    · have hP : ¬ ('/' :: rest = "/".toList) := by
        intro e
        injection e with _ e2
        exact hr e2
      rw [if_neg hP, kill_slashes_aux_normalized rest hr hNorm]
      simp

/-- C11 as amended: for a controller `C` that is valid (with `name=` allowed)
and a normalized absolute path `P`, with the cgroup root a mount point (or
checked before), `cg_get_path(C, P, NULL)` returns `/sys/fs/cgroup/` followed
by the normalized controller and, unless `P` is the root `/`, by `P`; for
`P = /` nothing follows the controller. Unless `P` is the root, stripping
`/sys/fs/cgroup/` and splitting at the next slash gives the normalized
controller and `P` back. -/
theorem cg_get_path_resolves (mount : Int) (good : Bool) (C P : CStr)
    (hC : cg_controller_is_valid (some C) true = true)
    (hAbs : path_is_absolute P = true) (hNorm : stdPathUtil.path_kill_slashes P = P)
    (hmount : good = true ∨ 0 < mount) :
    cg_get_path stdPathUtil mount good (some C) (some P) none
      = (.ok (if P = "/".toList then "/sys/fs/cgroup/".toList ++ normalize_controller C
          else "/sys/fs/cgroup/".toList ++ normalize_controller C ++ P), true) ∧
    (P ≠ "/".toList →
      startswith ("/sys/fs/cgroup/".toList ++ normalize_controller C ++ P)
          "/sys/fs/cgroup/".toList = some (normalize_controller C ++ P) ∧
      strchr (normalize_controller C ++ P) '/' = some (normalize_controller C).length ∧
      (normalize_controller C ++ P).take (normalize_controller C).length
        = normalize_controller C ∧
      (normalize_controller C ++ P).drop (normalize_controller C).length = P) := by
  have hn := ctl_ok_normalize C hC
  have hslash : '/' ∉ normalize_controller C := ctl_chars_not_mem _ hn.chars '/' (by decide)
  have hPne : P ≠ [] := by
    rintro rfl
    simp [path_is_absolute] at hAbs
  have hjoin : join_path stdPathUtil (some (normalize_controller C)) (some P) none
      = .ok (if P = "/".toList then "/sys/fs/cgroup/".toList ++ normalize_controller C
          else "/sys/fs/cgroup/".toList ++ normalize_controller C ++ P) := by
    have h1 : isempty (some (normalize_controller C)) = false := by
      cases hq : normalize_controller C with
      | nil => exact absurd hq hn.nonempty
      | cons a b => rfl
    have h2 : isempty (some P) = false := by
      cases P with
      | nil => exact absurd rfl hPne
      | cons a b => rfl
    have h3 : isempty none = true := rfl
    unfold join_path
    simp only [h1, h2, h3, Bool.not_false, Bool.not_true, Bool.and_false, if_true,
      Bool.false_eq_true, if_false, str_of]
    rw [kill_slashes_joined _ P hn hAbs hNorm]
  constructor
  · unfold cg_get_path
    simp only [hC, Option.isSome_some, Bool.not_true, Bool.and_false, Bool.false_eq_true,
      if_false, Option.map_some']
    rcases hmount with hg | hm
    · subst hg
      simp only [Bool.not_true, Bool.false_eq_true, if_false, hjoin]
    · cases good
      · have hm' : ¬ mount ≤ 0 := by omega
        simp only [Bool.not_false, if_true, hm', if_false, hjoin]
      · simp only [Bool.not_true, Bool.false_eq_true, if_false, hjoin]
  · intro _
    cases P with
    | nil => exact absurd rfl hPne
    | cons c rest =>
      have hc : c = '/' := by simpa [path_is_absolute] using hAbs
      subst hc
      refine ⟨?_, strchr_append_of_not_mem _ rest '/' hslash, by simp, by simp⟩
      rw [List.append_assoc]
      exact startswith_append _ _

/-- C11 as amended at `name=foo` and `/a/b`: the path is
`/sys/fs/cgroup/foo/a/b`. -/
theorem cg_get_path_resolves_witness :
    cg_get_path stdPathUtil 1 false (some "name=foo".toList) (some "/a/b".toList) none
      = (.ok "/sys/fs/cgroup/foo/a/b".toList, true) ∧
    (cg_get_path stdPathUtil 1 false (some "name=foo".toList) (some "/a/b".toList) none
      = (.ok (if "/a/b".toList = "/".toList then
            "/sys/fs/cgroup/".toList ++ normalize_controller "name=foo".toList
          else "/sys/fs/cgroup/".toList ++ normalize_controller "name=foo".toList
            ++ "/a/b".toList), true)) :=
  ⟨by decide,
    (cg_get_path_resolves 1 false "name=foo".toList "/a/b".toList (by decide) (by decide)
      (by decide) (Or.inr (by decide))).1⟩

/-! ## C12: the `NULL` controller -/

/-- C12 as stated fails: with the `NULL` controller `cg_get_path` returns the
path itself, not a path under `/sys/fs/cgroup/systemd` as it does for
`name=systemd`, and `cg_get_path_and_check` and `cg_attach` fail with `EINVAL`
where they succeed for `name=systemd`. -/
theorem cg_get_path_null_controller :
    cg_get_path stdPathUtil 1 false none (some "/a".toList) none = (.ok "/a".toList, true) ∧
    cg_get_path stdPathUtil 1 false (some "name=systemd".toList) (some "/a".toList) none
      = (.ok "/sys/fs/cgroup/systemd/a".toList, true) ∧
    cg_get_path_and_check stdPathUtil (fun _ => 0) none (some "/a".toList) none
      = .error (-EINVAL) ∧
    cg_get_path_and_check stdPathUtil (fun _ => 0) (some "name=systemd".toList)
      (some "/a".toList) none = .ok "/sys/fs/cgroup/systemd/a".toList ∧
    cg_attach stdPathUtil (fun _ => 0) (fun _ _ => 0) 12 none "/a".toList 7 = -EINVAL ∧
    cg_attach stdPathUtil (fun _ => 0) (fun _ _ => 0) 12 (some "name=systemd".toList)
      "/a".toList 7 = 0 := by
  decide

/-- C12 as amended: with the `NULL` controller, `cg_get_path` (once the cgroup
root is known to be a mount point) resolves to the path itself, joined with the
suffix if there is one, with neither the root nor a controller in front, and
fails with `EINVAL` when the path is empty; `cg_get_path_and_check` and
`cg_attach` fail with `EINVAL`. -/
theorem cg_get_path_nil_controller (U : PathUtil) (mount : Int) (good : Bool)
    (path suffix : Option CStr) (access : CStr → Nat) (write_string_file : CStr → CStr → Int)
    (getpid : Int) (P : CStr) (pid : Int) :
    (cg_get_path U mount good none path suffix).1
      = (if good = false ∧ mount ≤ 0 then .error (if mount < 0 then mount else -ENOENT)
        else if isempty path then .error (-EINVAL)
        else if isempty suffix then .ok (U.path_kill_slashes (str_of path))
        else .ok (U.path_kill_slashes (str_of path ++ "/".toList ++ str_of suffix))) ∧
    cg_get_path_and_check U access none path suffix = .error (-EINVAL) ∧
    cg_attach U access write_string_file getpid none P pid = -EINVAL := by
  have hj : join_path U none path suffix
      = (if isempty path then .error (-EINVAL)
        else if isempty suffix then .ok (U.path_kill_slashes (str_of path))
        else .ok (U.path_kill_slashes (str_of path ++ "/".toList ++ str_of suffix))) := by
    have h3 : isempty none = true := rfl
    unfold join_path
    rw [h3]
    cases isempty path <;> cases isempty suffix <;> rfl
  refine ⟨?_, rfl, rfl⟩
  unfold cg_get_path
  simp only [Option.isSome_none, Bool.false_and, Bool.false_eq_true, if_false, Option.map_none',
    hj]
  cases good
  · by_cases hm : mount ≤ 0
    · simp [hm]
    · simp [hm]
  · simp

/-! ## C13: valid controller names -/

theorem mem_of_strchr_isSome (s : CStr) (c : Char) :
    (strchr s c).isSome = true ↔ c ∈ s := by
  induction s with
  | nil => simp [strchr]
  | cons d s ih =>
    simp only [strchr, List.mem_cons]
    by_cases h : d = c
    · simp [h]
    · rw [if_neg h]
      have hcd : ¬ c = d := fun e => h e.symm
      simp only [Option.isSome_map', ih, hcd, false_or]

/-- The characters of `CONTROLLER_VALID` are the ASCII letters, the ASCII
digits and the underscore. -/
theorem mem_CONTROLLER_VALID (c : Char) : c ∈ CONTROLLER_VALID ↔ is_ctl_char c := by
  constructor
  · have h : ∀ c ∈ CONTROLLER_VALID, is_ctl_char c := by
      unfold is_ctl_char
      decide
    exact h c
  · rintro (h | rfl)
    · simp only [Char.isAlphanum, Char.isAlpha, Char.isUpper, Char.isLower, Char.isDigit,
        Bool.or_eq_true, Bool.and_eq_true, decide_eq_true_eq] at h
      have hc : c = Char.ofNat c.toNat := (Char.ofNat_toNat c).symm
      have hk : (65 ≤ c.toNat ∧ c.toNat ≤ 90) ∨ (97 ≤ c.toNat ∧ c.toNat ≤ 122) ∨
          (48 ≤ c.toNat ∧ c.toNat ≤ 57) := by
        rcases h with (h | h) | h
        · exact Or.inl h
        · exact Or.inr (Or.inl h)
        · exact Or.inr (Or.inr h)
      generalize c.toNat = k at hc hk
      subst hc
      rcases hk with ⟨h1, h2⟩ | ⟨h1, h2⟩ | ⟨h1, h2⟩ <;> interval_cases k <;> decide
    · decide

/-- C13: `cg_controller_is_valid(p, allow_named)` is true if and only if `p` is
not `NULL` and the string `q`, which is `p` without one leading `name=` when
`allow_named` is set and `p` itself otherwise, is not empty, does not start
with an underscore, consists of ASCII letters, ASCII digits and underscores
only, and is at most `FILENAME_MAX` characters long. With `allow_named` clear
every string that starts with `name=` is invalid. -/
theorem cg_controller_is_valid_iff (p : Option CStr) (allow_named : Bool) :
    (cg_controller_is_valid p allow_named = true ↔
      ∃ s, p = some s ∧ strip_name s allow_named ≠ [] ∧
        (strip_name s allow_named).head? ≠ some '_' ∧
        (∀ c ∈ strip_name s allow_named, is_ctl_char c) ∧
        (strip_name s allow_named).length ≤ FILENAME_MAX) ∧
    ∀ s rest, startswith s "name=".toList = some rest →
      cg_controller_is_valid (some s) false = false := by
  have key : ∀ s b, cg_controller_is_valid (some s) b = true ↔ ctl_ok (strip_name s b) := by
    intro s b
    unfold cg_controller_is_valid strip_name
    exact ctl_ok_iff _
  have hchars : ∀ q : CStr, ctl_chars q ↔ ∀ c ∈ q, is_ctl_char c := by
    intro q
    unfold ctl_chars
    constructor
    · intro h c hc
      exact (mem_CONTROLLER_VALID c).1 ((mem_of_strchr_isSome _ c).1 (h c hc))
    · intro h c hc
      exact (mem_of_strchr_isSome _ c).2 ((mem_CONTROLLER_VALID c).2 (h c hc))
  constructor
  · cases p with
    | none =>
      constructor
      · intro h
        exact absurd h (by simp [cg_controller_is_valid])
      · rintro ⟨s, hs, _⟩
        exact absurd hs (by simp)
    | some s =>
      rw [key]
      constructor
      · intro h
        exact ⟨s, rfl, h.nonempty, h.no_underscore, (hchars _).1 h.chars, h.len⟩
      · rintro ⟨s1, hs, h1, h2, h3, h4⟩
        injection hs with hs
        subst hs
        exact ⟨h1, h2, (hchars _).2 h3, h4⟩
  · intro s rest hs
    cases hv : cg_controller_is_valid (some s) false with
    | false => rfl
    | true =>
      exfalso
      have h := (key s false).1 hv
      have hnone : startswith s "name=".toList = none :=
        startswith_name_of_ctl_chars s h.chars
      rw [hnone] at hs
      exact absurd hs (by simp)

/-! ## C14: a spec that is a path -/

/-- C14: for a spec that starts with a slash, `cg_split_spec` succeeds when the
spec is a safe path, with no controller and the path with its redundant
slashes collapsed, and fails with `EINVAL`, leaving both outputs unset, when
the spec is not a safe path. -/
theorem cg_split_spec_path (U : PathUtil) (spec : CStr) (h : spec.head? = some '/') :
    (U.path_is_safe spec = true →
      cg_split_spec U spec = .ok (none, some (U.path_kill_slashes spec))) ∧
    (U.path_is_safe spec = false → cg_split_spec U spec = .error (-EINVAL)) := by
  unfold cg_split_spec
  rw [if_pos h]
  constructor
  · intro hs
    simp [hs]
  · intro hs
    simp [hs]

/-- C14 at `//a///b/`, which is safe, and at `/a/../b`, which is not. -/
theorem cg_split_spec_path_witness :
    cg_split_spec stdPathUtil "//a///b/".toList = .ok (none, some "/a/b".toList) ∧
    cg_split_spec stdPathUtil "/a/../b".toList = .error (-EINVAL) ∧
    ((stdPathUtil.path_is_safe "//a///b/".toList = true →
      cg_split_spec stdPathUtil "//a///b/".toList
        = .ok (none, some (stdPathUtil.path_kill_slashes "//a///b/".toList))) ∧
    (stdPathUtil.path_is_safe "//a///b/".toList = false →
      cg_split_spec stdPathUtil "//a///b/".toList = .error (-EINVAL))) :=
  ⟨by decide, by decide, cg_split_spec_path stdPathUtil "//a///b/".toList (by decide)⟩

/-! ## C15: the underscores of an escaped name -/

/-- C15 as stated fails: the name `_x` starts with an underscore, so it is
escaped, and the escaped name `__x` begins with two underscores. -/
theorem cg_escape_two_underscores :
    cg_escape (fun _ => 2) "_x".toList = "__x".toList := by
  decide

/-- C15 as amended: `cg_escape` puts at most one underscore in front of the
name, so stripping a single leading underscore gives the name back, for every
name and whatever controllers are mounted; the escaped name begins with two
underscores exactly when the name itself begins with an underscore. -/
theorem cg_escape_one_underscore (access : CStr → Nat) (N : CStr) :
    (cg_escape access N = '_' :: N ∨ cg_escape access N = N) ∧
    cg_unescape (cg_escape access N) = N ∧
    ((∃ rest, cg_escape access N = '_' :: '_' :: rest) ↔ N.head? = some '_') := by
  have hpre : N.head? = some '_' → cg_escape access N = '_' :: N := by
    intro h
    unfold cg_escape
    simp [h]
  by_cases hN : N.head? = some '_'
  · refine ⟨Or.inl (hpre hN), ?_, ?_⟩
    · rw [hpre hN]
      rfl
    · constructor
      · intro _
        exact hN
      · intro _
        cases N with
        | nil => simp at hN
        | cons c N =>
          have hc : c = '_' := by simpa using hN
          subst hc
          exact ⟨N, hpre hN⟩
  · refine ⟨cg_escape_cases access N, ?_, ?_⟩
    · rcases cg_escape_cases access N with e | e
      · rw [e]
        rfl
      · rw [e]
        exact cg_unescape_of_head N hN
    · constructor
      · rintro ⟨rest, hr⟩
        exfalso
        rcases cg_escape_cases access N with e | e
        · rw [e] at hr
          injection hr with _ hr
          apply hN
          rw [hr]
          rfl
        · rw [e] at hr
          apply hN
          rw [hr]
          rfl
      · intro h
        exact absurd h hN

/-! ## C16: names of attribute files -/

/-- C16, the code with only the `memory` controller mounted, at the name
`memory.memsw.limit_in_bytes` of an attribute file of that controller: the
name is returned unescaped. `cg_escape` looks at the text before the last dot,
`memory.memsw`, which is no mounted controller. A name with one dot,
`memory.limit_in_bytes`, is escaped. -/
theorem cg_escape_attribute_two_dots :
    cg_escape (fun p => if p = "/sys/fs/cgroup/memory".toList then 0 else 2)
        "memory.memsw.limit_in_bytes".toList = "memory.memsw.limit_in_bytes".toList ∧
    cg_escape (fun p => if p = "/sys/fs/cgroup/memory".toList then 0 else 2)
        "memory.limit_in_bytes".toList = "_memory.limit_in_bytes".toList := by
  decide

/-! ## The segments of a path -/

theorem take_strcspn_slash (p : CStr) : p.take (strcspn_slash p) = first_segment p := by
  unfold strcspn_slash first_segment
  have h := List.takeWhile_append_dropWhile (fun c => decide (c ≠ '/')) p
  exact (congrArg (List.take _) h.symm).trans (List.take_left' rfl)

theorem drop_strcspn_slash (p : CStr) :
    p.drop (strcspn_slash p) = p.dropWhile (fun c => decide (c ≠ '/')) := by
  unfold strcspn_slash first_segment
  have h := List.takeWhile_append_dropWhile (fun c => decide (c ≠ '/')) p
  exact (congrArg (List.drop _) h.symm).trans (List.drop_left' rfl)

theorem first_segment_no_slash (p : CStr) : '/' ∉ first_segment p := by
  intro h
  have := List.mem_takeWhile_imp h
  simp at this

theorem drop_strcspn_slash_head (p : CStr) :
    p.drop (strcspn_slash p) = [] ∨ ∃ r, p.drop (strcspn_slash p) = '/' :: r := by
  rw [drop_strcspn_slash]
  have h := List.head?_dropWhile_not (fun c => decide (c ≠ '/')) p
  cases hd : p.dropWhile (fun c => decide (c ≠ '/')) with
  | nil => exact Or.inl rfl
  | cons c r =>
    rw [hd] at h
    simp only [List.head?_cons, ne_eq, decide_not, Bool.not_eq_false', decide_eq_true_eq] at h
    subst h
    exact Or.inr ⟨r, rfl⟩

theorem skip_slashes_head (p : CStr) :
    skip_slashes p = [] ∨ ∃ c r, skip_slashes p = c :: r ∧ c ≠ '/' := by
  unfold skip_slashes
  have h := List.head?_dropWhile_not (fun c => decide (c = '/')) p
  cases hd : p.dropWhile (fun c => decide (c = '/')) with
  | nil => exact Or.inl rfl
  | cons c r =>
    rw [hd] at h
    simp only [List.head?_cons, decide_eq_false_iff_not] at h
    exact Or.inr ⟨c, r, rfl, h⟩

theorem skip_slashes_length_le (p : CStr) : (skip_slashes p).length ≤ p.length :=
  (List.dropWhile_suffix _).length_le

theorem segments_nil : segments [] = [] := by
  decide

theorem segments_slash (p : CStr) : segments ('/' :: p) = segments p := by
  unfold segments List.splitOn
  rw [List.splitOnP_cons]
  simp

theorem segments_skip_slashes (p : CStr) : segments (skip_slashes p) = segments p := by
  induction p with
  | nil => rfl
  | cons c p ih =>
    by_cases hc : c = '/'
    · subst hc
      rw [segments_slash]
      have : skip_slashes ('/' :: p) = skip_slashes p := by
        simp [skip_slashes, List.dropWhile]
      rw [this, ih]
    · have : skip_slashes (c :: p) = c :: p := by
        simp [skip_slashes, List.dropWhile, hc]
      rw [this]

theorem segments_segment (seg rest : CStr) (hne : seg ≠ []) (hs : '/' ∉ seg)
    (hr : rest = [] ∨ ∃ r, rest = '/' :: r) : segments (seg ++ rest) = seg :: segments rest := by
  have hno : ∀ x ∈ seg, ¬ (x == '/') = true := by
    intro x hx hxe
    have : x = '/' := by simpa using hxe
    exact hs (this ▸ hx)
  have hemp : seg.isEmpty = false := by
    cases seg with
    | nil => exact absurd rfl hne
    | cons a b => rfl
  rcases hr with rfl | ⟨r, rfl⟩
  · rw [List.append_nil, segments_nil]
    unfold segments List.splitOn
    rw [List.splitOnP_eq_single _ _ hno]
    simp [hemp]
  · rw [segments_slash]
    unfold segments List.splitOn
    rw [List.splitOnP_first _ _ hno '/' (by simp)]
    simp [hemp]

theorem segment_append (p : CStr) : first_segment p ++ p.drop (strcspn_slash p) = p := by
  rw [drop_strcspn_slash]
  exact List.takeWhile_append_dropWhile _ p

/-- The test of the loops, `n <= 6 || memcmp(p + n - 6, ".slice", 6) != 0`, says
that the segment at `p` is no slice segment. -/
theorem slice_test (p : CStr) :
    (strcspn_slash p ≤ 6 ∨ memcmp_eq p (strcspn_slash p - 6) ".slice".toList = false)
      ↔ is_slice (first_segment p) = false := by
  have happ := segment_append p
  have hlen : strcspn_slash p = (first_segment p).length := rfl
  by_cases hn : strcspn_slash p ≤ 6
  · have : ¬ 6 < (first_segment p).length := by omega
    simp [hn, is_slice, this]
  · have h6 : 6 < (first_segment p).length := by omega
    have key : ∀ seg rest : CStr, 6 < seg.length →
        ((seg ++ rest).drop (seg.length - 6)).take 6 = seg.drop (seg.length - 6) := by
      intro seg rest h
      rw [List.drop_append_of_le_length (by omega)]
      apply List.take_left'
      rw [List.length_drop]
      omega
    have hk := key (first_segment p) (p.drop (strcspn_slash p)) h6
    rw [happ] at hk
    have hmem : memcmp_eq p (strcspn_slash p - 6) ".slice".toList
        = decide ((first_segment p).drop ((first_segment p).length - 6) = ".slice".toList) := by
      unfold memcmp_eq
      rw [hlen]
      have h6' : ".slice".toList.length = 6 := rfl
      rw [h6', hk]
    rw [hmem]
    simp [hn, is_slice, h6]

theorem first_segment_length_le (p : CStr) : (first_segment p).length ≤ p.length :=
  (List.takeWhile_prefix _).length_le

theorem segments_step (p : CStr) :
    (first_segment (skip_slashes p) = [] → segments p = []) ∧
    (first_segment (skip_slashes p) ≠ [] →
      segments p = first_segment (skip_slashes p)
        :: segments ((skip_slashes p).drop (strcspn_slash (skip_slashes p)))) := by
  constructor
  · intro h
    rw [← segments_skip_slashes]
    rcases skip_slashes_head p with e | ⟨c, r, e, hc⟩
    · rw [e]
      exact segments_nil
    · rw [e] at h
      simp [first_segment, List.takeWhile, hc] at h
  · intro h
    rw [← segments_skip_slashes p]
    conv_lhs => rw [← segment_append (skip_slashes p)]
    exact segments_segment _ _ h (first_segment_no_slash _) (drop_strcspn_slash_head _)

theorem is_slice_length (seg : CStr) (h : is_slice seg = true) : 6 < seg.length := by
  unfold is_slice at h
  simp only [Bool.and_eq_true, decide_eq_true_eq] at h
  exact h.1

/-- With more iterations than the path has characters, `skip_slices` stops at
the first segment after the leading slice segments. -/
theorem skip_slices_loop_segment (fuel : Nat) :
    ∀ p : CStr, p.length < fuel →
      first_segment (skip_slices_loop fuel p) = first_after_slices p := by
  induction fuel with
  | zero => intro p h; omega
  | succ fuel ih =>
    intro p hfuel
    simp only [skip_slices_loop]
    have hstep := segments_step p
    by_cases hs : is_slice (first_segment (skip_slashes p)) = true
    · have hcond : ¬ (strcspn_slash (skip_slashes p) ≤ 6 ∨
          memcmp_eq (skip_slashes p) (strcspn_slash (skip_slashes p) - 6) ".slice".toList
            = false) := by
        rw [slice_test, hs]
        simp
      rw [if_neg hcond]
      have hlen := is_slice_length _ hs
      have hne : first_segment (skip_slashes p) ≠ [] := by
        intro e
        rw [e] at hlen
        simp at hlen
      have hdrop : ((skip_slashes p).drop (strcspn_slash (skip_slashes p))).length < fuel := by
        rw [List.length_drop]
        have h1 := skip_slashes_length_le p
        have h2 := first_segment_length_le (skip_slashes p)
        have h3 : strcspn_slash (skip_slashes p) = (first_segment (skip_slashes p)).length := rfl
        omega
      rw [ih _ hdrop]
      unfold first_after_slices
      rw [hstep.2 hne, List.dropWhile_cons_of_pos hs]
    · have hs' : is_slice (first_segment (skip_slashes p)) = false := by
        simpa using hs
      rw [if_pos ((slice_test _).2 hs')]
      unfold first_after_slices
      by_cases hne : first_segment (skip_slashes p) = []
      · rw [hstep.1 hne, hne]
        rfl
      · rw [hstep.2 hne, List.dropWhile_cons_of_neg hs]
        rfl

theorem first_segment_skip_slices (p : CStr) :
    first_segment (skip_slices p) = first_after_slices p :=
  skip_slices_loop_segment _ p (Nat.lt_succ_self _)

theorem cg_path_get_slice_loop_spec (fuel : Nat) :
    ∀ (p : CStr) (e : Option CStr), p.length < fuel →
      cg_path_get_slice_loop fuel p e
        = match ((segments p).takeWhile is_slice).getLast? with
          | some s => .ok s
          | none =>
            match e with
            | none => .error (-ENOENT)
            | some s => .ok s := by
  induction fuel with
  | zero => intro p e h; omega
  | succ fuel ih =>
    intro p e hfuel
    simp only [cg_path_get_slice_loop]
    have hstep := segments_step p
    by_cases hs : is_slice (first_segment (skip_slashes p)) = true
    · have hcond : ¬ (strcspn_slash (skip_slashes p) ≤ 6 ∨
          memcmp_eq (skip_slashes p) (strcspn_slash (skip_slashes p) - 6) ".slice".toList
            = false) := by
        rw [slice_test, hs]
        simp
      rw [if_neg hcond]
      have hlen := is_slice_length _ hs
      have hne : first_segment (skip_slashes p) ≠ [] := by
        intro e
        rw [e] at hlen
        simp at hlen
      have hdrop : ((skip_slashes p).drop (strcspn_slash (skip_slashes p))).length < fuel := by
        rw [List.length_drop]
        have h1 := skip_slashes_length_le p
        have h2 := first_segment_length_le (skip_slashes p)
        have h3 : strcspn_slash (skip_slashes p) = (first_segment (skip_slashes p)).length := rfl
        omega
      rw [ih _ _ hdrop, hstep.2 hne, List.takeWhile_cons_of_pos hs, List.getLast?_cons,
        take_strcspn_slash]
      cases ((segments ((skip_slashes p).drop (strcspn_slash (skip_slashes p)))).takeWhile
        is_slice).getLast? <;> rfl
    · have hs' : is_slice (first_segment (skip_slashes p)) = false := by
        simpa using hs
      rw [if_pos ((slice_test _).2 hs')]
      by_cases hne : first_segment (skip_slashes p) = []
      · rw [hstep.1 hne]
        rfl
      · rw [hstep.2 hne, List.takeWhile_cons_of_neg hs]
        rfl

theorem startswith_eq_some (p : CStr) : ∀ (s x : CStr), startswith s p = some x ↔ s = p ++ x := by
  induction p with
  | nil =>
    intro s x
    cases s <;> simp [startswith, eq_comm]
  | cons d p ih =>
    intro s x
    cases s with
    | nil => simp [startswith]
    | cons c s =>
      simp only [startswith, List.cons_append, List.cons.injEq]
      by_cases h : c = d
      · simp [h, ih]
      · simp [h]

theorem endswith_isSome (x post : CStr) :
    (endswith x post).isNone = false ↔ ∃ a, x = a ++ post := by
  unfold endswith
  constructor
  · intro h
    split at h
    · simp at h
    · split at h
      · simp at h
      · rename_i h1 h2
        push_neg at h2
        refine ⟨x.take (x.length - post.length), ?_⟩
        conv_lhs => rw [← List.take_append_drop (x.length - post.length) x]
        rw [h2]
  · rintro ⟨a, rfl⟩
    have h1 : ¬ (a ++ post).length < post.length := by
      rw [List.length_append]
      omega
    have h2 : ¬ (a ++ post).drop ((a ++ post).length - post.length) ≠ post := by
      rw [List.length_append, Nat.add_sub_cancel, List.drop_left]
      simp
    rw [if_neg h1, if_neg h2]
    rfl

/-- What the common body of `cg_path_get_session` and
`cg_path_get_machine_name` returns, in terms of the unescaped first segment
after the leading slices. -/
theorem path_get_scope_id_spec (pfx path : CStr) :
    (∀ ID, ID ≠ [] →
      cg_unescape (first_after_slices path) = pfx ++ ID ++ ".scope".toList →
      path_get_scope_id pfx path = .ok ID) ∧
    ((¬ ∃ ID, ID ≠ [] ∧ cg_unescape (first_after_slices path) = pfx ++ ID ++ ".scope".toList) →
      path_get_scope_id pfx path = .error (-ENOENT)) := by
  have hseg : (skip_slices path).take (strcspn_slash (skip_slices path))
      = first_after_slices path := by
    rw [take_strcspn_slash, first_segment_skip_slices]
  have hn : strcspn_slash (skip_slices path) = (first_after_slices path).length := by
    unfold strcspn_slash
    rw [first_segment_skip_slices]
  have hseg2 : (skip_slices path).take (first_after_slices path).length
      = first_after_slices path := by
    rw [← hn]
    exact hseg
  have hlen6 : ".scope".toList.length = 6 := rfl
  constructor
  · intro ID hID hU
    unfold path_get_scope_id
    simp only [hn, hseg2]
    have hne : ¬ (first_after_slices path).length = 0 := by
      intro h0
      have : first_after_slices path = [] := List.length_eq_zero.1 h0
      rw [this] at hU
      have hl := congrArg List.length hU
      simp [cg_unescape] at hl
      omega
    rw [if_neg hne, hU, List.append_assoc, (startswith_eq_some pfx _ _).2 rfl]
    have h1 : (endswith (ID ++ ".scope".toList) ".scope".toList).isNone = false :=
      (endswith_isSome _ _).2 ⟨ID, rfl⟩
    have h2 : ¬ (ID ++ ".scope".toList).length ≤ 6 := by
      rw [List.length_append, hlen6]
      have : 0 < ID.length := List.length_pos.2 hID
      omega
    simp only [h1, Bool.false_eq_true, if_false, h2]
    rw [List.length_append, hlen6, Nat.add_sub_cancel, List.take_left]
  · intro hno
    unfold path_get_scope_id
    simp only [hn, hseg2]
    split
    · rfl
    · split
      · rfl
      · rename_i x hx
        split
        · rfl
        · rename_i hend
          split
          · rfl
          · rename_i hl
            exfalso
            have hend' : (endswith x ".scope".toList).isNone = false := by
              cases hq : (endswith x ".scope".toList).isNone
              · rfl
              · exact absurd hq hend
            obtain ⟨a, ha⟩ := (endswith_isSome _ _).1 hend'
            apply hno
            refine ⟨a, ?_, ?_⟩
            · rintro rfl
              rw [ha] at hl
              simp at hl
            · rw [(startswith_eq_some pfx _ _).1 hx, ha, List.append_assoc]

theorem first_after_slices_eq (path : CStr) (slices : List CStr) (U : CStr) (rest : List CStr)
    (hseg : segments path = slices ++ U :: rest)
    (hsl : ∀ s ∈ slices, is_slice s = true) (hU : is_slice U = false) :
    first_after_slices path = U := by
  unfold first_after_slices
  rw [hseg, List.dropWhile_append_of_pos hsl, List.dropWhile_cons_of_neg (by simp [hU])]
  rfl

theorem first_after_slices_all (path : CStr) (hsl : ∀ s ∈ segments path, is_slice s = true) :
    first_after_slices path = [] := by
  unfold first_after_slices
  have : (segments path).dropWhile is_slice = [] := by
    rw [List.dropWhile_eq_nil_iff]
    exact hsl
  rw [this]
  rfl

/-- C17: `cg_path_get_unit` decodes the first segment after the leading slice
segments: it returns that segment unescaped where the unit name predicate
accepts it, and fails with EINVAL where not. Where the segments of the path are
slice segments followed by a segment `U` that is no slice segment, the segment
decoded is `U`; where all segments are slice segments the name decoded is
empty, so that the call fails with EINVAL as soon as the predicate rejects the
empty name. `"/a.slice/b.slice/myservice.service"` gives
`"myservice.service"`. -/
theorem cg_path_get_unit_first_after_slices (valid : CStr → Bool → Bool) (path : CStr) :
    cg_path_get_unit valid path
      = (if valid (cg_unescape (first_after_slices path)) false
          then .ok (cg_unescape (first_after_slices path)) else .error (-EINVAL)) ∧
    (∀ (slices : List CStr) (U : CStr) (rest : List CStr),
      segments path = slices ++ U :: rest → (∀ s ∈ slices, is_slice s = true) →
      is_slice U = false →
      cg_path_get_unit valid path
        = (if valid (cg_unescape U) false then .ok (cg_unescape U) else .error (-EINVAL))) ∧
    ((∀ s ∈ segments path, is_slice s = true) → valid [] false = false →
      cg_path_get_unit valid path = .error (-EINVAL)) ∧
    cg_path_get_unit unit_name_ok "/a.slice/b.slice/myservice.service".toList
      = .ok "myservice.service".toList := by
  have main : cg_path_get_unit valid path
      = (if valid (cg_unescape (first_after_slices path)) false
          then .ok (cg_unescape (first_after_slices path)) else .error (-EINVAL)) := by
    unfold cg_path_get_unit cg_path_decode_unit
    simp only [take_strcspn_slash, first_segment_skip_slices]
    cases valid (cg_unescape (first_after_slices path)) false <;> rfl
  refine ⟨main, ?_, ?_, by decide⟩
  · intro slices U rest hseg hsl hU
    rw [main, first_after_slices_eq path slices U rest hseg hsl hU]
  · intro hsl hv
    rw [main, first_after_slices_all path hsl]
    have : cg_unescape [] = [] := rfl
    rw [this, hv]
    rfl

/-- C19: `cg_path_get_session` (prefix `"session-"`) and
`cg_path_get_machine_name` (prefix `"machine-"`) look at the first segment
after the leading slice segments, with one leading underscore stripped. Where
it is the prefix, a non-empty `ID` and `".scope"`, they return `ID`; in every
other case they fail with ENOENT. -/
theorem cg_path_get_session_machine_name_id (path : CStr) :
    (∀ ID, ID ≠ [] →
      cg_unescape (first_after_slices path) = "session-".toList ++ ID ++ ".scope".toList →
      cg_path_get_session path = .ok ID) ∧
    ((¬ ∃ ID, ID ≠ [] ∧
        cg_unescape (first_after_slices path) = "session-".toList ++ ID ++ ".scope".toList) →
      cg_path_get_session path = .error (-ENOENT)) ∧
    (∀ ID, ID ≠ [] →
      cg_unescape (first_after_slices path) = "machine-".toList ++ ID ++ ".scope".toList →
      cg_path_get_machine_name path = .ok ID) ∧
    ((¬ ∃ ID, ID ≠ [] ∧
        cg_unescape (first_after_slices path) = "machine-".toList ++ ID ++ ".scope".toList) →
      cg_path_get_machine_name path = .error (-ENOENT)) ∧
    cg_path_get_session "/user.slice/user-1000.slice/session-7.scope".toList = .ok "7".toList ∧
    cg_path_get_machine_name "/machine.slice/machine-foo.scope".toList = .ok "foo".toList := by
  have hs : cg_path_get_session path = path_get_scope_id "session-".toList path := rfl
  have hm : cg_path_get_machine_name path = path_get_scope_id "machine-".toList path := rfl
  rw [hs, hm]
  exact ⟨(path_get_scope_id_spec _ path).1, (path_get_scope_id_spec _ path).2,
    (path_get_scope_id_spec _ path).1, (path_get_scope_id_spec _ path).2,
    by decide, by decide⟩

/-- C20: `cg_path_get_slice` returns the last segment of the longest leading
run of slice segments (segments longer than 6 characters that end in
`".slice"`), where the segments of a path are what stands between its slashes,
empty pieces left out; it fails with ENOENT if and only if the path has no
first segment or its first segment is no slice segment. -/
theorem cg_path_get_slice_last_leading_slice (p : CStr) :
    cg_path_get_slice p
      = (match ((segments p).takeWhile is_slice).getLast? with
          | some s => .ok s
          | none => .error (-ENOENT)) ∧
    (cg_path_get_slice p = .error (-ENOENT)
      ↔ ∀ s, (segments p).head? = some s → is_slice s = false) := by
  have main : cg_path_get_slice p
      = (match ((segments p).takeWhile is_slice).getLast? with
          | some s => .ok s
          | none => .error (-ENOENT)) :=
    cg_path_get_slice_loop_spec (p.length + 1) p none (Nat.lt_succ_self _)
  refine ⟨main, ?_⟩
  rw [main]
  cases hseg : segments p with
  | nil => simp
  | cons a l =>
    cases ha : is_slice a with
    | false => simp [List.takeWhile, ha]
    | true =>
      have hne : (a :: l).takeWhile is_slice ≠ [] := by
        simp [List.takeWhile, ha]
      obtain ⟨x, hx⟩ := Option.isSome_iff_exists.1
        (by rw [List.getLast?_isSome]; exact hne :
          (((a :: l).takeWhile is_slice).getLast?).isSome = true)
      rw [hx]
      simp [ha]

theorem skip_slashes_idem (p : CStr) : skip_slashes (skip_slashes p) = skip_slashes p := by
  rcases skip_slashes_head p with h | ⟨c, r, h, hc⟩
  · rw [h]; rfl
  · rw [h]
    unfold skip_slashes
    rw [List.dropWhile_cons_of_neg (by simpa using hc)]

theorem skip_slashes_skip_slices_loop (fuel : Nat) :
    ∀ p : CStr, p.length < fuel →
      skip_slashes (skip_slices_loop fuel p) = skip_slices_loop fuel p := by
  induction fuel with
  | zero => intro p h; omega
  | succ fuel ih =>
    intro p hfuel
    rw [skip_slices_loop]
    split
    · exact skip_slashes_idem p
    · rename_i hcont
      have h6 : 6 < strcspn_slash (skip_slashes p) := by
        by_contra hle
        exact hcont (Or.inl (by omega))
      apply ih
      have h1 := skip_slashes_length_le p
      have h2 : strcspn_slash (skip_slashes p) ≤ (skip_slashes p).length :=
        first_segment_length_le _
      rw [List.length_drop]
      omega

theorem skip_slashes_skip_slices (p : CStr) :
    skip_slashes (skip_slices p) = skip_slices p :=
  skip_slashes_skip_slices_loop _ p (Nat.lt_succ_self _)

theorem session_form (seg : CStr) :
    (12 < seg.length ∧ seg.take 8 = "session-".toList ∧
        seg.drop (seg.length - 6) = ".scope".toList)
      ↔ ∃ id, seg = "session-".toList ++ id ++ ".scope".toList := by
  have hA : "session-".toList.length = 8 := rfl
  have hB : ".scope".toList.length = 6 := rfl
  constructor
  · rintro ⟨h12, h8, h6⟩
    have hseg : seg = "session-".toList ++ seg.drop 8 := by
      conv_lhs => rw [← List.take_append_drop 8 seg, h8]
    by_cases h14 : 14 ≤ seg.length
    · refine ⟨(seg.drop 8).take (seg.length - 14), ?_⟩
      have hd : (seg.drop 8).drop (seg.length - 14) = ".scope".toList := by
        rw [List.drop_drop, show 8 + (seg.length - 14) = seg.length - 6 by omega]
        exact h6
      rw [List.append_assoc, ← hd, List.take_append_drop]
      exact hseg
    · exfalso
      have h13 : seg.length = 13 := by omega
      rw [h13, hseg] at h6
      have h7 : ("session-".toList ++ seg.drop 8).drop (13 - 6) = '-' :: seg.drop 8 := rfl
      rw [h7] at h6
      have := congrArg List.head? h6
      simp at this
  · rintro ⟨id, hid⟩
    have hl : seg.length = 14 + id.length := by
      rw [hid, List.length_append, List.length_append, hA, hB]
      omega
    refine ⟨by omega, ?_, ?_⟩
    · rw [hid, List.append_assoc]
      exact List.take_left' hA
    · rw [hl, hid]
      exact List.drop_left' (by rw [List.length_append, hA]; omega)

/-- The test of `skip_session` accepts the segment at `p` if and only if it is
`"session-"`, some text, which may be empty, and `".scope"`. -/
theorem skip_session_isSome_iff (p : CStr) :
    (∃ e, skip_session p = some e)
      ↔ ∃ id, first_segment (skip_slashes p) = "session-".toList ++ id ++ ".scope".toList := by
  have happ := segment_append (skip_slashes p)
  have hn : strcspn_slash (skip_slashes p) = (first_segment (skip_slashes p)).length := rfl
  have key8 : ∀ seg rest : CStr, 8 ≤ seg.length → (seg ++ rest).take 8 = seg.take 8 := by
    intro seg rest h
    exact List.take_append_of_le_length h
  have key6 : ∀ seg rest : CStr, 6 ≤ seg.length →
      ((seg ++ rest).drop (seg.length - 6)).take 6 = seg.drop (seg.length - 6) := by
    intro seg rest h
    rw [List.drop_append_of_le_length (by omega),
      List.take_append_of_le_length (by rw [List.length_drop]; omega),
      List.take_of_length_le (by rw [List.length_drop]; omega)]
  have cond : (strcspn_slash (skip_slashes p) ≤ 12 ∨
        memcmp_eq (skip_slashes p) 0 "session-".toList = false ∨
        memcmp_eq (skip_slashes p) (strcspn_slash (skip_slashes p) - 6) ".scope".toList = false)
      ↔ ¬ ∃ id, first_segment (skip_slashes p)
          = "session-".toList ++ id ++ ".scope".toList := by
    rw [← session_form, hn]
    by_cases h12 : (first_segment (skip_slashes p)).length ≤ 12
    · constructor
      · intro _ h
        omega
      · intro _
        exact Or.inl h12
    · have k8 := key8 _ ((skip_slashes p).drop (strcspn_slash (skip_slashes p))) (by omega :
        8 ≤ (first_segment (skip_slashes p)).length)
      have k6 := key6 _ ((skip_slashes p).drop (strcspn_slash (skip_slashes p))) (by omega :
        6 ≤ (first_segment (skip_slashes p)).length)
      rw [happ] at k8 k6
      have hA : "session-".toList.length = 8 := rfl
      have hB : ".scope".toList.length = 6 := rfl
      unfold memcmp_eq
      rw [hA, hB, List.drop_zero, k8, k6]
      simp only [decide_eq_false_iff_not]
      constructor
      · rintro (h | h | h) ⟨_, h8, h6⟩
        · exact h12 h
        · exact h h8
        · exact h h6
      · intro h
        by_contra hno
        push_neg at hno
        exact h ⟨by omega, hno.2.1, hno.2.2⟩
  unfold skip_session
  simp only
  by_cases hc : (strcspn_slash (skip_slashes p) ≤ 12 ∨
        memcmp_eq (skip_slashes p) 0 "session-".toList = false ∨
        memcmp_eq (skip_slashes p) (strcspn_slash (skip_slashes p) - 6) ".scope".toList = false)
  · rw [if_pos hc]
    constructor
    · rintro ⟨e, he⟩
      exact absurd he (by simp)
    · intro h
      exact absurd h (cond.1 hc)
  · rw [if_neg hc]
    constructor
    · intro _
      by_contra hno
      exact hc (cond.2 hno)
    · intro _
      exact ⟨_, rfl⟩

/-- C18: on `"/user.slice/session-.scope/foo.service"`, whose session id is
empty, `cg_path_get_user_unit` does not fail with ENOENT: it goes on to decode
`"foo.service"` as the unit name. In general it fails with ENOENT if and only
if the first segment after the leading slice segments is not `"session-"`, some
text that may be empty, and `".scope"`; past such a segment it decodes the first
segment after a further run of slice segments. -/
theorem cg_path_get_user_unit_empty_session_id :
    (∀ valid : CStr → Bool → Bool,
      cg_path_get_user_unit valid "/user.slice/session-.scope/foo.service".toList
        = (if valid "foo.service".toList false then .ok "foo.service".toList
            else .error (-EINVAL))) ∧
    (∀ (valid : CStr → Bool → Bool) (path : CStr),
      (cg_path_get_user_unit valid path = .error (-ENOENT)
        ↔ ¬ ∃ id, first_after_slices path = "session-".toList ++ id ++ ".scope".toList) ∧
      (∀ e, skip_session (skip_slices path) = some e →
        cg_path_get_user_unit valid path
          = (if valid (cg_unescape (first_after_slices e)) false
              then .ok (cg_unescape (first_after_slices e)) else .error (-EINVAL)))) := by
  have decode : ∀ (valid : CStr → Bool → Bool) (e : CStr),
      cg_path_decode_unit valid (skip_slices e)
        = (if valid (cg_unescape (first_after_slices e)) false
            then .ok (cg_unescape (first_after_slices e)) else .error (-EINVAL)) := by
    intro valid e
    unfold cg_path_decode_unit
    simp only [take_strcspn_slash, first_segment_skip_slices]
    cases valid (cg_unescape (first_after_slices e)) false <;> rfl
  constructor
  · intro valid
    have h1 : skip_session (skip_slices "/user.slice/session-.scope/foo.service".toList)
        = some "foo.service".toList := by decide
    have h2 : cg_unescape (first_after_slices "foo.service".toList) = "foo.service".toList := by
      decide
    unfold cg_path_get_user_unit
    simp only [h1]
    rw [decode, h2]
  · intro valid path
    have hiff := skip_session_isSome_iff (skip_slices path)
    rw [skip_slashes_skip_slices, first_segment_skip_slices] at hiff
    constructor
    · unfold cg_path_get_user_unit
      simp only
      cases hs : skip_session (skip_slices path) with
      | none =>
        simp only [true_iff]
        rw [← hiff, hs]
        simp
      | some e =>
        simp only
        rw [decode]
        have hex : ∃ id, first_after_slices path
            = "session-".toList ++ id ++ ".scope".toList := hiff.1 ⟨e, hs⟩
        constructor
        · intro h
          exfalso
          split at h
          · exact absurd h (by simp)
          · have : (-EINVAL : Int) = -ENOENT := by
              injection h
            revert this
            decide
        · intro h
          exact absurd hex h
    · intro e hs
      unfold cg_path_get_user_unit
      simp only [hs]
      exact decode valid e

/-! ## C23: the pid that `cg_read_pid` stores -/

/-- C23, the code at entries outside the range of `pid_t`: `cg_read_pid` tests
the `unsigned long` before the conversion to `pid_t`, so for the entries 2^31,
2^32 and 2^64 - 5 (what `%lu` makes of `-5`) it returns 1 and stores
-2^31, 0 and -5, none of them positive, where the claim has `EIO`. Only the
entry 0 gives `EIO`, with nothing stored; an entry from 1 to 2^31 - 1 is
stored as it is. -/
theorem cg_read_pid_wraps :
    cg_read_pid (some (.num (2 ^ 31))) 7 = (1, -2 ^ 31) ∧
    cg_read_pid (some (.num (2 ^ 32))) 7 = (1, 0) ∧
    cg_read_pid (some (.num (2 ^ 64 - 5))) 7 = (1, -5) ∧
    (∀ pid : Int, cg_read_pid (some (.num 0)) pid = (- EIO, pid)) ∧
    (∀ (ul : Nat) (pid : Int), 0 < ul → ul < 2 ^ 31 →
      cg_read_pid (some (.num ul)) pid = (1, (ul : Int))) := by
  refine ⟨by decide, by decide, by decide, fun pid => rfl, ?_⟩
  intro ul pid h0 h31
  have hmod : ul % 2 ^ 32 = ul := Nat.mod_eq_of_lt (by omega)
  unfold cg_read_pid pid_t_of_ulong
  simp only [hmod]
  rw [if_neg (by omega), if_pos h31]

/-! ## C24: the controller that `cg_split_spec` returns -/

/-- C24, the code at the spec `name=name=foo:/a`: in the `controller:path` form
`cg_split_spec` checks the controller after `normalize_controller` took one
`name=` off, with `name=` still allowed, so it succeeds and returns the
controller `name=foo`, which is not valid without the `name=` allowance and
which `normalize_controller` changes to `foo`; the bare form rejects the same
controller string `name=name=foo`. The bare form always returns a controller
in canonical form, and so does the `controller:path` form whenever the text
before the colon is itself a valid controller. -/
theorem cg_split_spec_name_twice :
    (∀ U : PathUtil, U.path_is_safe "/a".toList = true →
      cg_split_spec U "name=name=foo:/a".toList
        = .ok (some "name=foo".toList, some (U.path_kill_slashes "/a".toList))) ∧
    cg_controller_is_valid (some "name=foo".toList) false = false ∧
    normalize_controller "name=foo".toList = "foo".toList ∧
    (∀ U : PathUtil, cg_split_spec U "name=name=foo".toList = .error (-EINVAL)) ∧
    (∀ (U : PathUtil) (spec c : CStr) (p : Option CStr), strchr spec ':' = none →
      cg_split_spec U spec = .ok (some c, p) →
      cg_controller_is_valid (some c) false = true ∧ normalize_controller c = c) ∧
    (∀ (U : PathUtil) (spec c : CStr) (p : Option CStr) (e : Nat), strchr spec ':' = some e →
      cg_split_spec U spec = .ok (some c, p) →
      c = normalize_controller (spec.take e) ∧
      cg_controller_is_valid (some c) true = true ∧
      (cg_controller_is_valid (some (spec.take e)) true = true →
        cg_controller_is_valid (some c) false = true ∧ normalize_controller c = c)) := by
  refine ⟨?_, by decide, by decide, ?_, ?_, ?_⟩
  · intro U hU
    have h1 : cg_split_spec U "name=name=foo:/a".toList
        = (if !U.path_is_safe "/a".toList || !path_is_absolute "/a".toList then .error (-EINVAL)
            else .ok (some "name=foo".toList, some (U.path_kill_slashes "/a".toList))) := rfl
    rw [h1, hU]
    rfl
  · intro U
    rfl
  · intro U spec c p hcolon h
    unfold cg_split_spec at h
    rw [hcolon] at h
    split at h
    · split at h
      · exact absurd h (by simp)
      · injection h with h
        injection h with h _
        exact absurd h (by simp)
    · simp only at h
      split at h
      · exact absurd h (by simp)
      · rename_i hv
        have hv2 : cg_controller_is_valid (some spec) true = true := by simpa using hv
        injection h with h
        injection h with h _
        injection h with h
        subst h
        have hok := ctl_ok_normalize spec hv2
        exact ⟨cg_controller_is_valid_of_ctl_ok _ hok false,
          normalize_controller_of_ctl_chars _ hok.chars⟩
  · intro U spec c p e hcolon h
    unfold cg_split_spec at h
    rw [hcolon] at h
    split at h
    · split at h
      · exact absurd h (by simp)
      · injection h with h
        injection h with h _
        exact absurd h (by simp)
    · simp only at h
      split at h
      · exact absurd h (by simp)
      · rename_i hv
        have hv2 : cg_controller_is_valid (some (normalize_controller (spec.take e))) true
            = true := by simpa using hv
        split at h
        · exact absurd h (by simp)
        · injection h with h
          injection h with h _
          injection h with h
          subst h
          refine ⟨rfl, hv2, ?_⟩
          intro hvalid
          have hok := ctl_ok_normalize _ hvalid
          exact ⟨cg_controller_is_valid_of_ctl_ok _ hok false,
            normalize_controller_of_ctl_chars _ hok.chars⟩

/-! ## The owner of a path -/

theorem segments_length_le (n : Nat) :
    ∀ p : CStr, p.length ≤ n → ∀ s ∈ segments p, s.length ≤ p.length := by
  induction n with
  | zero =>
    intro p hp s hs
    have : p = [] := List.length_eq_zero.1 (by omega)
    subst this
    rw [segments_nil] at hs
    simp at hs
  | succ n ih =>
    intro p hp s hs
    have h1 := skip_slashes_length_le p
    have h2 := first_segment_length_le (skip_slashes p)
    by_cases hf : first_segment (skip_slashes p) = []
    · rw [(segments_step p).1 hf] at hs
      simp at hs
    · rw [(segments_step p).2 hf] at hs
      rcases List.mem_cons.1 hs with h | h
      · rw [h]
        omega
      · have hpos : 0 < strcspn_slash (skip_slashes p) := List.length_pos.2 hf
        have hle : strcspn_slash (skip_slashes p) ≤ (skip_slashes p).length := h2
        have hd : ((skip_slashes p).drop (strcspn_slash (skip_slashes p))).length ≤ n := by
          rw [List.length_drop]
          omega
        have := ih _ hd s h
        rw [List.length_drop] at this
        omega

theorem cg_path_get_slice_spec (p : CStr) :
    cg_path_get_slice p
      = (match ((segments p).takeWhile is_slice).getLast? with
          | some s => .ok s
          | none => .error (-ENOENT)) :=
  cg_path_get_slice_loop_spec (p.length + 1) p none (Nat.lt_succ_self _)

/-- What `cg_path_get_slice` returns is a slice segment of the path. -/
theorem cg_path_get_slice_ok (p slice : CStr) (h : cg_path_get_slice p = .ok slice) :
    ((segments p).takeWhile is_slice).getLast? = some slice ∧ is_slice slice = true ∧
      slice.length ≤ p.length := by
  rw [cg_path_get_slice_spec] at h
  cases hl : ((segments p).takeWhile is_slice).getLast? with
  | none =>
    rw [hl] at h
    exact absurd h (by simp)
  | some s =>
    rw [hl] at h
    injection h with h
    subst h
    have hmem : s ∈ (segments p).takeWhile is_slice := List.mem_of_getLast?_eq_some hl
    refine ⟨rfl, ?_, ?_⟩
    · exact List.mem_takeWhile_imp hmem
    · exact segments_length_le _ p (Nat.le_refl _) s ((List.takeWhile_sublist _).subset hmem)

theorem size_t_sub_of_le (a b : Nat) (hb : b ≤ a) (ha : a < SIZE_T_VALUES) :
    size_t_sub a b = a - b := by
  unfold size_t_sub
  have : a + SIZE_T_VALUES - b = (a - b) + SIZE_T_VALUES := by omega
  rw [this, Nat.add_mod_right, Nat.mod_eq_of_lt (by omega)]

/-- A slice segment that starts with `user-` has its `.slice` after the
`user-`. -/
theorem user_slice_rest (e : CStr) (h : is_slice ("user-".toList ++ e) = true) :
    6 ≤ e.length ∧ e.drop (e.length - 6) = ".slice".toList := by
  unfold is_slice at h
  simp only [Bool.and_eq_true, decide_eq_true_eq] at h
  obtain ⟨hlen, hdrop⟩ := h
  have h5 : "user-".toList.length = 5 := rfl
  rw [List.length_append, h5] at hlen hdrop
  by_cases h6 : 6 ≤ e.length
  · refine ⟨h6, ?_⟩
    rw [show 5 + e.length - 6 = 5 + (e.length - 6) by omega] at hdrop
    rw [← hdrop, ← h5, List.drop_append]
  · exfalso
    have hh := congrArg List.head? hdrop
    have hcases : e.length = 2 ∨ e.length = 3 ∨ e.length = 4 ∨ e.length = 5 := by omega
    rcases hcases with hc | hc | hc | hc <;> rw [hc] at hh <;> simp at hh

/-- What `cg_path_get_owner_uid` does once `cg_path_get_slice` has returned a
slice that starts with `user-`. -/
theorem cg_path_get_owner_uid_of_slice (parse_uid : CStr → Except Int Nat) (path slice e : CStr)
    (hlen : path.length < SIZE_T_VALUES)
    (hs : cg_path_get_slice path = .ok slice)
    (he : startswith slice "user-".toList = some e) :
    6 ≤ e.length ∧ (endswith e ".slice".toList).isNone = false ∧
    size_t_sub e.length 6 = e.length - 6 ∧
    slice = "user-".toList ++ strndupa e (size_t_sub e.length 6) ++ ".slice".toList ∧
    cg_path_get_owner_uid parse_uid path = parse_uid (strndupa e (size_t_sub e.length 6)) := by
  obtain ⟨_, hsl, hle⟩ := cg_path_get_slice_ok path slice hs
  have hslice : slice = "user-".toList ++ e := (startswith_eq_some _ _ _).1 he
  rw [hslice] at hsl
  obtain ⟨h6, hdrop⟩ := user_slice_rest e hsl
  have hel : e.length < SIZE_T_VALUES := by
    have : slice.length = 5 + e.length := by
      rw [hslice, List.length_append]
      rfl
    omega
  have hsub := size_t_sub_of_le e.length 6 h6 hel
  have he2 : e = e.take (e.length - 6) ++ ".slice".toList := by
    conv_lhs => rw [← List.take_append_drop (e.length - 6) e, hdrop]
  have hend : (endswith slice ".slice".toList).isNone = false :=
    (endswith_isSome _ _).2 ⟨"user-".toList ++ e.take (e.length - 6), by
      rw [hslice, List.append_assoc, ← he2]⟩
  refine ⟨h6, (endswith_isSome _ _).2 ⟨_, he2⟩, hsub, ?_, ?_⟩
  · unfold strndupa
    rw [hsub, List.append_assoc, ← he2]
    exact hslice
  · unfold cg_path_get_owner_uid
    simp only [hs, he, hend, Bool.false_eq_true, if_false]

/-! ## C21: the owner of a path -/

/-- C21: for a path shorter than the range of `size_t`, whose longest leading
run of slice segments ends with `user-N.slice`, `cg_path_get_owner_uid` hands
`N` to `parse_uid` and returns what `parse_uid` returns, so the user id that
`N` stands for; where the path has no leading slice segment, or the last one
does not start with `user-`, it fails with ENOENT, and nothing is stored. -/
theorem cg_path_get_owner_uid_user_slice (parse_uid : CStr → Except Int Nat) (path : CStr)
    (hlen : path.length < SIZE_T_VALUES) :
    (∀ N : CStr, ((segments path).takeWhile is_slice).getLast?
        = some ("user-".toList ++ N ++ ".slice".toList) →
      cg_path_get_owner_uid parse_uid path = parse_uid N) ∧
    (∀ (N : CStr) (uid : Nat), ((segments path).takeWhile is_slice).getLast?
        = some ("user-".toList ++ N ++ ".slice".toList) →
      parse_uid N = .ok uid → cg_path_get_owner_uid parse_uid path = .ok uid) ∧
    ((segments path).takeWhile is_slice = [] →
      cg_path_get_owner_uid parse_uid path = .error (-ENOENT)) ∧
    (∀ s : CStr, ((segments path).takeWhile is_slice).getLast? = some s →
      startswith s "user-".toList = none →
      cg_path_get_owner_uid parse_uid path = .error (-ENOENT)) := by
  have main : ∀ N : CStr, ((segments path).takeWhile is_slice).getLast?
        = some ("user-".toList ++ N ++ ".slice".toList) →
      cg_path_get_owner_uid parse_uid path = parse_uid N := by
    intro N hN
    have hs : cg_path_get_slice path = .ok ("user-".toList ++ N ++ ".slice".toList) := by
      rw [cg_path_get_slice_spec, hN]
    have he : startswith ("user-".toList ++ N ++ ".slice".toList) "user-".toList
        = some (N ++ ".slice".toList) :=
      (startswith_eq_some _ _ _).2 (List.append_assoc _ _ _)
    obtain ⟨_, _, _, h4, h5⟩ :=
      cg_path_get_owner_uid_of_slice parse_uid path _ _ hlen hs he
    have htok : strndupa (N ++ ".slice".toList) (size_t_sub (N ++ ".slice".toList).length 6)
        = N :=
      (List.append_cancel_left (List.append_cancel_right h4)).symm
    rw [h5, htok]
  refine ⟨main, ?_, ?_, ?_⟩
  · intro N uid hN hp
    rw [main N hN, hp]
  · intro hnil
    unfold cg_path_get_owner_uid
    rw [cg_path_get_slice_spec, hnil]
    rfl
  · intro s hs hnone
    unfold cg_path_get_owner_uid
    rw [cg_path_get_slice_spec, hs]
    simp only [hnone]

/-- C21 at `/user.slice/user-1000.slice/session-7.scope`, with the decimal
`parse_uid`: the owner is 1000. -/
theorem cg_path_get_owner_uid_user_slice_witness :
    cg_path_get_owner_uid parse_uid_dec "/user.slice/user-1000.slice/session-7.scope".toList
      = .ok 1000 ∧
    cg_path_get_owner_uid parse_uid_dec "/system.slice/foo.service".toList
      = .error (-ENOENT) :=
  ⟨(cg_path_get_owner_uid_user_slice parse_uid_dec
      "/user.slice/user-1000.slice/session-7.scope".toList (by decide)).2.1
      "1000".toList 1000 (by decide) (by decide),
    (cg_path_get_owner_uid_user_slice parse_uid_dec
      "/system.slice/foo.service".toList (by decide)).2.2.2
      "system.slice".toList (by decide) (by decide)⟩

/-! ## C25: the length handed to `strndupa` -/

/-- C25: in `cg_path_get_owner_uid`, for a path shorter than the range of
`size_t` for which `cg_path_get_slice` succeeds with a slice that starts with
`user-`, the text `e` after `user-` has at least 6 characters and ends in
`.slice`, so `strlen(e) - 6` does not wrap, and the token handed to `parse_uid`
is the text between `user-` and the final `.slice`. -/
theorem cg_path_get_owner_uid_no_underflow (parse_uid : CStr → Except Int Nat)
    (path slice e : CStr) (hlen : path.length < SIZE_T_VALUES)
    (hs : cg_path_get_slice path = .ok slice)
    (he : startswith slice "user-".toList = some e) :
    6 ≤ e.length ∧ (endswith e ".slice".toList).isNone = false ∧
    size_t_sub e.length 6 = e.length - 6 ∧
    slice = "user-".toList ++ strndupa e (size_t_sub e.length 6) ++ ".slice".toList ∧
    cg_path_get_owner_uid parse_uid path = parse_uid (strndupa e (size_t_sub e.length 6)) :=
  cg_path_get_owner_uid_of_slice parse_uid path slice e hlen hs he

/-- C25 at `/user.slice/user-1000.slice/session-7.scope`: the slice is
`user-1000.slice`, the text after `user-` is `1000.slice`, and the token is
`1000`. -/
theorem cg_path_get_owner_uid_no_underflow_witness :
    strndupa "1000.slice".toList (size_t_sub "1000.slice".toList.length 6) = "1000".toList ∧
    (6 ≤ "1000.slice".toList.length ∧ (endswith "1000.slice".toList ".slice".toList).isNone = false ∧
      size_t_sub "1000.slice".toList.length 6 = "1000.slice".toList.length - 6 ∧
      "user-1000.slice".toList = "user-".toList
        ++ strndupa "1000.slice".toList (size_t_sub "1000.slice".toList.length 6)
        ++ ".slice".toList ∧
      cg_path_get_owner_uid parse_uid_dec "/user.slice/user-1000.slice/session-7.scope".toList
        = parse_uid_dec (strndupa "1000.slice".toList (size_t_sub "1000.slice".toList.length 6))) :=
  ⟨by decide,
    cg_path_get_owner_uid_no_underflow parse_uid_dec
      "/user.slice/user-1000.slice/session-7.scope".toList "user-1000.slice".toList
      "1000.slice".toList (by decide) (by decide) (by decide)⟩

/-! ## The path of a slice -/

theorem strchr_none_of_not_mem (s : CStr) (c : Char) (h : c ∉ s) : strchr s c = none := by
  induction s with
  | nil => rfl
  | cons d s ih =>
    have hd : d ≠ c := fun e => h (by simp [e])
    have hs : c ∉ s := fun hm => h (List.mem_cons_of_mem _ hm)
    simp [strchr, hd, ih hs]

theorem intercalate_single (sep q : CStr) : List.intercalate sep [q] = q := by
  simp [List.intercalate]

theorem intercalate_cons_cons (sep q q2 : CStr) (l : List CStr) :
    List.intercalate sep (q :: q2 :: l) = q ++ sep ++ List.intercalate sep (q2 :: l) := by
  simp [List.intercalate]

/-- The truncated names by recursion on the parts. -/
theorem slice_names_eq (todo : List CStr) :
    ∀ pre q : CStr, slice_names pre q todo
      = ((todo.inits).dropLast).map
          (fun l => pre ++ List.intercalate "-".toList (q :: l) ++ ".slice".toList) := by
  induction todo with
  | nil =>
    intro pre q
    rfl
  | cons q2 t ih =>
    intro pre q
    have hne : (t.inits).map (fun l => q2 :: l) ≠ [] := by
      cases t <;> simp
    rw [slice_names, ih, List.inits_cons, List.dropLast_cons_of_ne_nil hne, List.map_cons,
      intercalate_single, ← List.map_dropLast, List.map_map]
    congr 1
    apply List.map_congr_left
    intro l _
    simp only [Function.comp]
    rw [intercalate_cons_cons]
    simp only [List.append_assoc]

theorem truncated_names_cons (q : CStr) (todo : List CStr) :
    truncated_names (q :: todo) = slice_names [] q todo := by
  rw [slice_names_eq]
  unfold truncated_names
  rw [List.inits_cons, List.tail_cons, ← List.map_dropLast, List.map_map]
  rfl

theorem intercalate_concat (sep : CStr) (ns : List CStr) (x : CStr) :
    List.intercalate sep (ns ++ [x]) = (ns.map (fun n => n ++ sep)).flatten ++ x := by
  induction ns with
  | nil => simp [List.intercalate]
  | cons a ns ih =>
    cases ns with
    | nil => simp [List.intercalate]
    | cons b ns =>
      rw [List.cons_append, List.cons_append, intercalate_cons_cons, ← List.cons_append, ih]
      simp only [List.map_cons, List.flatten_cons, List.append_assoc]

theorem cg_slice_to_path_while_none (valid : CStr → Bool → Bool) (access : CStr → Nat)
    (p : CStr) (fuel : Nat) (s : CStr) :
    cg_slice_to_path_while valid access p fuel none s = .ok s := by
  cases fuel <;> rfl

/-- The loop of `cg_slice_to_path` at the dash after the part `q`, with `pre`
before it: with more iterations than characters are left it checks and
appends the truncated names in order. -/
theorem cg_slice_to_path_while_spec (valid : CStr → Bool → Bool) (access : CStr → Nat)
    (p : CStr) (todo : List CStr) :
    ∀ (fuel : Nat) (pre q s : CStr),
      (List.intercalate "-".toList (q :: todo)).length < fuel →
      (∀ x ∈ q :: todo, '-' ∉ x) →
      p = pre ++ List.intercalate "-".toList (q :: todo) →
      cg_slice_to_path_while valid access p fuel
          ((strchr (List.intercalate "-".toList (q :: todo)) '-').map (· + pre.length)) s
        = if (slice_names pre q todo).all (fun n => valid n false) = true
          then .ok (s ++ ((slice_names pre q todo).map
                (fun n => cg_escape access n ++ "/".toList)).flatten)
          else .error (-EINVAL) := by
  induction todo with
  | nil =>
    intro fuel pre q s _ hdash _
    have hq : '-' ∉ q := hdash q (List.mem_cons_self _ _)
    rw [intercalate_single, strchr_none_of_not_mem q '-' hq, Option.map_none',
      cg_slice_to_path_while_none]
    simp [slice_names]
  | cons q2 t ih =>
    intro fuel pre q s hfuel hdash hp
    have hq : '-' ∉ q := hdash q (List.mem_cons_self _ _)
    have hdash2 : ∀ x ∈ q2 :: t, '-' ∉ x := fun x hx => hdash x (List.mem_cons_of_mem _ hx)
    have hint : List.intercalate "-".toList (q :: q2 :: t)
        = q ++ '-' :: List.intercalate "-".toList (q2 :: t) := by
      rw [intercalate_cons_cons, List.append_assoc]
      rfl
    rw [hint] at hfuel hp ⊢
    rw [strchr_append_of_not_mem q _ '-' hq, Option.map_some']
    cases fuel with
    | zero => exact absurd hfuel (Nat.not_lt_zero _)
    | succ f =>
      have htake : p.take (q.length + pre.length) = pre ++ q := by
        rw [hp, ← List.append_assoc]
        exact List.take_left' (by rw [List.length_append, Nat.add_comm])
      have hdrop : p.drop (q.length + pre.length + 1)
          = List.intercalate "-".toList (q2 :: t) := by
        have : p = (pre ++ q ++ "-".toList) ++ List.intercalate "-".toList (q2 :: t) := by
          rw [hp]
          simp only [List.append_assoc]
          rfl
        rw [this]
        exact List.drop_left' (by
          rw [List.length_append, List.length_append]
          have : "-".toList.length = 1 := rfl
          omega)
      have hlen2 : (pre ++ q ++ "-".toList).length = q.length + pre.length + 1 := by
        rw [List.length_append, List.length_append]
        have : "-".toList.length = 1 := rfl
        omega
      have hp2 : p = (pre ++ q ++ "-".toList) ++ List.intercalate "-".toList (q2 :: t) := by
        rw [hp]
        simp only [List.append_assoc]
        rfl
      have hf2 : (List.intercalate "-".toList (q2 :: t)).length < f := by
        rw [List.length_append, List.length_cons] at hfuel
        omega
      rw [cg_slice_to_path_while]
      simp only [htake, hdrop]
      have hih := ih f (pre ++ q ++ "-".toList) q2
        (s ++ cg_escape access (pre ++ q ++ ".slice".toList) ++ "/".toList) hf2 hdash2 hp2
      rw [hlen2] at hih
      rw [slice_names, List.all_cons, List.map_cons, List.flatten_cons]
      cases hv : valid (pre ++ q ++ ".slice".toList) false with
      | false => simp
      | true =>
        simp only [Bool.not_true, Bool.false_eq_true, if_false, Bool.true_and]
        rw [hih]
        simp only [List.append_assoc]

/-- What `cg_slice_to_path` returns for a unit whose prefix is the parts
`q, todo` joined with dashes. -/
theorem cg_slice_to_path_eq (valid : CStr → Bool → Bool) ( unit_name_to_prefix : CStr → CStr)
    (access : CStr → Nat) (U q : CStr) (todo : List CStr)
    (hdash : ∀ x ∈ q :: todo, '-' ∉ x)
    (hp : unit_name_to_prefix U = List.intercalate "-".toList (q :: todo)) :
    cg_slice_to_path valid unit_name_to_prefix access U
      = if valid U false = true ∧ (endswith U ".slice".toList).isNone = false ∧
            (truncated_names (q :: todo)).all (fun n => valid n false) = true
        then .ok (List.intercalate "/".toList
          ((truncated_names (q :: todo)).map (cg_escape access) ++ [cg_escape access U]))
        else .error (-EINVAL) := by
  have hloop := cg_slice_to_path_while_spec valid access ( unit_name_to_prefix U) todo
    (( unit_name_to_prefix U).length + 1) [] q [] (by rw [hp]; exact Nat.lt_succ_self _) hdash
    (by rw [hp]; rfl)
  have hmap : ∀ o : Option Nat, o.map (· + ([] : CStr).length) = o := by
    intro o
    cases o <;> rfl
  rw [hmap, ← hp] at hloop
  unfold cg_slice_to_path
  simp only [hloop]
  rw [truncated_names_cons, intercalate_concat, List.map_map]
  cases hv : valid U false with
  | false => simp
  | true =>
    cases he : (endswith U ".slice".toList).isNone with
    | true => simp
    | false =>
      cases ha : (slice_names [] q todo).all (fun n => valid n false) with
      | false => simp
      | true =>
        simp only [Bool.not_true, Bool.false_eq_true, if_false, if_true, and_self, List.nil_append]
        rfl

/-! ## C22: the path of a slice -/

/-- C22: for a unit `U` whose prefix is the parts `p1, ..., pk` (none of them
with a dash in it) joined with dashes, `cg_slice_to_path` returns the escaped
truncated names `p1.slice`, `p1-p2.slice`, ... and then the escaped `U`, each
escaped on its own, joined with slashes, when `U` is a valid unit name that
ends in `.slice` and all the truncated names are valid unit names; it fails
with EINVAL when `U` is not a valid unit name, does not end in `.slice`, or one
of the truncated names is not valid. -/
theorem cg_slice_to_path_chain (valid : CStr → Bool → Bool)
    ( unit_name_to_prefix : CStr → CStr) (access : CStr → Nat) (U : CStr) (ps : List CStr)
    (hps : ps ≠ []) (hdash : ∀ q ∈ ps, '-' ∉ q)
    (hp : unit_name_to_prefix U = List.intercalate "-".toList ps) :
    (valid U false = true → (endswith U ".slice".toList).isNone = false →
      (∀ n ∈ truncated_names ps, valid n false = true) →
      cg_slice_to_path valid unit_name_to_prefix access U
        = .ok (List.intercalate "/".toList
            ((truncated_names ps).map (cg_escape access) ++ [cg_escape access U]))) ∧
    ((valid U false = false ∨ (endswith U ".slice".toList).isNone = true ∨
        ∃ n ∈ truncated_names ps, valid n false = false) →
      cg_slice_to_path valid unit_name_to_prefix access U = .error (-EINVAL)) := by
  cases ps with
  | nil => exact absurd rfl hps
  | cons q todo =>
    have heq := cg_slice_to_path_eq valid unit_name_to_prefix access U q todo hdash hp
    constructor
    · intro hv he hall
      rw [heq, if_pos ⟨hv, he, List.all_eq_true.2 hall⟩]
    · intro h
      rw [heq, if_neg]
      rintro ⟨hv, he, hall⟩
      rcases h with h | h | ⟨n, hn, hnv⟩
      · rw [hv] at h
        exact Bool.noConfusion h
      · rw [he] at h
        exact Bool.noConfusion h
      · have := List.all_eq_true.1 hall n hn
        simp only at this
        rw [hnv] at this
        exact Bool.noConfusion this

/-- C22 at `a-b-c.slice`, with nothing mounted: the path is
`a.slice/a-b.slice/a-b-c.slice`. -/
theorem cg_slice_to_path_chain_witness :
    cg_slice_to_path unit_name_ok unit_name_prefix (fun _ => 2) "a-b-c.slice".toList
      = .ok "a.slice/a-b.slice/a-b-c.slice".toList :=
  ((cg_slice_to_path_chain unit_name_ok unit_name_prefix (fun _ => 2) "a-b-c.slice".toList
      ["a".toList, "b".toList, "c".toList] (by decide) (by decide) (by decide)).1
    (by decide) (by decide) (by decide)).trans (by decide)

/-! ## The events of a run -/

theorem gen_body_log (P : List Event → Prop) (hP0 : P [])
    (W : World) (ignore_self : Bool) (act : Action) (hact : ∀ st pid, P (act st pid).2)
    (pid : Int) (st : LoopState) :
    ∃ new, (gen_body W ignore_self act pid st).2.log = st.log ++ new ∧ P new := by
  unfold gen_body
  split
  · exact ⟨[], by simp, hP0⟩
  · split
    · exact ⟨[], by simp, hP0⟩
    · exact ⟨_, rfl, hact st pid⟩

theorem gen_while_log (P : List Event → Prop) (hP0 : P [])
    (hPapp : ∀ a b, P a → P b → P (a ++ b))
    (W : World) (ignore_self : Bool) (act : Action) (hact : ∀ st pid, P (act st pid).2)
    (f : FILE) :
    ∀ (pid : Int) (st : LoopState),
      ∃ new, (gen_while W ignore_self act f pid st).2.log = st.log ++ new ∧ P new := by
  induction f with
  | nil =>
    intro pid st
    refine ⟨[], ?_, hP0⟩
    unfold gen_while
    simp only
    split
    · split <;> simp
    · simp
  | cons x f ih =>
    intro pid st
    unfold gen_while
    simp only
    split
    · obtain ⟨new1, h1, hp1⟩ := gen_body_log P hP0 W ignore_self act hact
        (cg_read_pid (some x) pid).2 st
      split
      · rename_i v st1 heq
        rw [heq] at h1
        exact ⟨new1, h1, hp1⟩
      · rename_i st1 heq
        rw [heq] at h1
        obtain ⟨new2, h2, hp2⟩ := ih (cg_read_pid (some x) pid).2 st1
        refine ⟨new1 ++ new2, ?_, hPapp _ _ hp1 hp2⟩
        simp only at h1
        rw [h2, h1, List.append_assoc]
    · refine ⟨[], ?_, hP0⟩
      split
      · split <;> simp
      · simp

theorem gen_loop_log (P : List Event → Prop) (hP0 : P [])
    (hPapp : ∀ a b, P a → P b → P (a ++ b))
    (W : World) (ignore_self : Bool) (act : Action) (hact : ∀ st pid, P (act st pid).2)
    (controller : Option CStr) (path : CStr) (hopen : ∀ r, P [Event.enumerate_processes controller path r])
    (n : Nat) :
    ∀ (ret : Int) (s : PidSet) (log : Log),
      ∃ new, (gen_loop W ignore_self act controller path n ret s log).2.2 = log ++ new ∧
        P new := by
  induction n with
  | zero =>
    intro ret s log
    exact ⟨[], by simp [gen_loop], hP0⟩
  | succ n ih =>
    intro ret s log
    simp only [gen_loop]
    split
    · refine ⟨_, ?_, hopen (W.enumerate_processes log.length controller path).1⟩
      split <;> rfl
    · obtain ⟨wnew, hw, hpw⟩ := gen_while_log P hP0 hPapp W ignore_self act hact
        (W.enumerate_processes log.length controller path).2 0
        { ret := ret, done := true, s := s, log :=
          log ++ [Event.enumerate_processes controller path
            (W.enumerate_processes log.length controller path).1] }
      have hp1 := hPapp _ _ (hopen (W.enumerate_processes log.length controller path).1) hpw
      split
      · rename_i v st heq
        rw [heq] at hw
        refine ⟨_, ?_, hp1⟩
        simp only at hw ⊢
        rw [hw, List.append_assoc]
      · rename_i st heq
        rw [heq] at hw
        simp only at hw
        split
        · obtain ⟨new2, h2, hp2⟩ := ih st.ret st.s st.log
          refine ⟨_, ?_, hPapp _ _ hp1 hp2⟩
          rw [h2, hw]
          simp only [List.append_assoc]
        · refine ⟨_, ?_, hp1⟩
          simp only
          rw [hw, List.append_assoc]

theorem cg_kill_log (P : List Event → Prop) (hP0 : P [])
    (hPapp : ∀ a b, P a → P b → P (a ++ b))
    (W : World) (controller : Option CStr) (path : CStr) (sig : Int)
    (sigcont ignore_self : Bool)
    (hact : ∀ st pid, P (kill_act W sig sigcont st pid).2)
    (hopen : ∀ r, P [Event.enumerate_processes controller path r])
    (s : Option PidSet) (log : Log) :
    ∃ new, (cg_kill W controller path sig sigcont ignore_self s log).2.2 = log ++ new ∧
      P new := by
  unfold cg_kill
  simp only [cg_kill_loop_eq]
  exact gen_loop_log P hP0 hPapp W ignore_self _ hact controller path hopen _ _ _ _

theorem cg_kill_recursive_while_log (P : List Event → Prop) (hP0 : P [])
    (hPapp : ∀ a b, P a → P b → P (a ++ b))
    (recurse : CStr → PidSet → Log → Option Int × PidSet × Log)
    (hrec : ∀ p s log, ∃ new, (recurse p s log).2.2 = log ++ new ∧ P new)
    (path : CStr) (d : DIR) :
    ∀ (ret : Int) (s : PidSet) (log : Log),
      ∃ new, (cg_kill_recursive_while recurse path d ret s log).2.2.2 = log ++ new ∧
        P new := by
  induction d with
  | nil =>
    intro ret s log
    exact ⟨[], by simp [cg_kill_recursive_while], hP0⟩
  | cons x d ih =>
    intro ret s log
    simp only [cg_kill_recursive_while]
    split
    · obtain ⟨new1, hl1, hp1⟩ := hrec (path ++ '/' :: match (cg_read_subgroup (some x)).2 with
        | some fn => fn
        | none => []) s log
      split
      · rename_i s1 log1 heq
        rw [heq] at hl1
        exact ⟨new1, hl1, hp1⟩
      · rename_i r s1 log1 heq
        rw [heq] at hl1
        simp only at hl1
        obtain ⟨new2, hl2, hp2⟩ := ih (if ret ≥ 0 ∧ r ≠ 0 then r else ret) s1 log1
        refine ⟨new1 ++ new2, ?_, hPapp _ _ hp1 hp2⟩
        rw [hl2, hl1, List.append_assoc]
    · exact ⟨[], by simp, hP0⟩

theorem cg_kill_recursive_log (P : List Event → Prop) (hP0 : P [])
    (hPapp : ∀ a b, P a → P b → P (a ++ b))
    (W : World) (sig : Int) (sigcont : Bool)
    (hact : ∀ st pid, P (kill_act W sig sigcont st pid).2)
    (hopen : ∀ c p r, P [Event.enumerate_processes c p r])
    (hsub : ∀ c p r, P [Event.enumerate_subgroups c p r])
    (hrm : ∀ c p r, P [Event.rmdir c p r])
    (depth : Nat) :
    ∀ (controller : Option CStr) (path : CStr) (ignore_self rem : Bool)
      (s : Option PidSet) (log : Log),
      ∃ new, (cg_kill_recursive W depth controller path sig sigcont ignore_self rem s log).2.2
          = log ++ new ∧ P new := by
  induction depth with
  | zero =>
    intro controller path ignore_self rem s log
    exact ⟨[], by simp [cg_kill_recursive], hP0⟩
  | succ depth ih =>
    intro controller path ignore_self rem s log
    simp only [cg_kill_recursive]
    obtain ⟨new1, hl1, hp1⟩ := cg_kill_log P hP0 hPapp W controller path sig sigcont
      ignore_self hact (hopen controller path) (some (s.getD [])) log
    split
    · rename_i s1 log1 heq
      rw [heq] at hl1
      exact ⟨new1, hl1, hp1⟩
    · rename_i ret s1 log1 heq
      rw [heq] at hl1
      simp only at hl1
      have hp2 := hPapp _ _ hp1
        (hsub controller path (W.enumerate_subgroups log1.length controller path).1)
      split
      · refine ⟨_, ?_, hp2⟩
        split <;> simp only [hl1, List.append_assoc]
      · obtain ⟨new3, hl3, hp3⟩ := cg_kill_recursive_while_log P hP0 hPapp
          (fun p s log =>
            cg_kill_recursive W depth controller p sig sigcont ignore_self rem (some s) log)
          (fun p s log => ih controller p ignore_self rem (some s) log)
          path (W.enumerate_subgroups log1.length controller path).2 ret s1
          (log1 ++ [Event.enumerate_subgroups controller path
            (W.enumerate_subgroups log1.length controller path).1])
        have hp4 := hPapp _ _ hp2 hp3
        split
        · rename_i r3 s3 log3 heq3
          rw [heq3] at hl3
          simp only at hl3
          refine ⟨_, ?_, hp4⟩
          simp only [hl3, hl1, List.append_assoc]
        · rename_i ret3 r3 s3 log3 heq3
          rw [heq3] at hl3
          simp only at hl3
          split
          · refine ⟨_, ?_, hPapp _ _ hp4
              (hrm controller path (W.rmdir log3.length controller path))⟩
            repeat' split
            all_goals simp only [hl3, hl1, List.append_assoc]
          · refine ⟨_, ?_, hp4⟩
            simp only [hl3, hl1, List.append_assoc]

theorem killLog_nil (sig : Int) (sigcont : Bool) : KillLog sig sigcont [] :=
  ⟨fun _ h => absurd h (List.not_mem_nil _), fun _ => Nat.le_refl _⟩

theorem killLog_append (sig : Int) (sigcont : Bool) (a b : List Event)
    (ha : KillLog sig sigcont a) (hb : KillLog sig sigcont b) : KillLog sig sigcont (a ++ b) := by
  constructor
  · intro e he
    rcases List.mem_append.1 he with h | h
    · exact ha.1 e h
    · exact hb.1 e h
  · intro pid
    have h1 := ha.2 pid
    have h2 := hb.2 pid
    simp only [cont_pids, kill_pids, List.filterMap_append, List.map_append,
      List.count_append] at h1 h2 ⊢
    omega

theorem killLog_kill_act (W : World) (sig : Int) (sigcont : Bool) (st : LoopState) (pid : Int) :
    KillLog sig sigcont (kill_act W sig sigcont st pid).2 := by
  simp only [kill_act]
  split
  · rename_i h
    constructor
    · intro e he
      simp only [List.mem_cons, List.mem_singleton, List.not_mem_nil, or_false] at he
      rcases he with rfl | rfl
      · rfl
      · exact h.2.2
    · intro p
      simp [cont_pids, kill_pids, cont_proj, kill_proj]
  · constructor
    · intro e he
      simp only [List.mem_singleton] at he
      subst he
      rfl
    · intro p
      simp [cont_pids, kill_pids, cont_proj, kill_proj]

/-- An event that is no `kill` call. -/
theorem killLog_other (sig : Int) (sigcont : Bool) (e : Event)
    (hk : kill_event_ok sig sigcont e) (hc : cont_proj e = none) :
    KillLog sig sigcont [e] := by
  constructor
  · intro x hx
    simp only [List.mem_singleton] at hx
    subst hx
    exact hk
  · intro p
    simp [cont_pids, hc]

/-- The events of one call of `cg_kill_recursive`: the `kill` calls are those
of the signal of the call. -/
theorem cg_kill_recursive_killLog (W : World) (depth : Nat) (controller : Option CStr)
    (path : CStr) (sig : Int) (sigcont ignore_self rem : Bool) (s : Option PidSet) (log : Log) :
    ∃ new, (cg_kill_recursive W depth controller path sig sigcont ignore_self rem s log).2.2
        = log ++ new ∧ KillLog sig sigcont new :=
  cg_kill_recursive_log (KillLog sig sigcont) (killLog_nil sig sigcont)
    (killLog_append sig sigcont) W sig sigcont (killLog_kill_act W sig sigcont)
    (fun _ _ _ => killLog_other sig sigcont _ trivial rfl)
    (fun _ _ _ => killLog_other sig sigcont _ trivial rfl)
    (fun _ _ _ => killLog_other sig sigcont _ trivial rfl)
    depth controller path ignore_self rem s log

/-- How often a pid was sent the signal of the run: once for every
`kill(pid, sig)`, and once more for every `kill(pid, SIGCONT)` that follows when
the signal of the run is `SIGCONT` itself. -/
theorem count_signals_sent (sig : Int) (sigcont : Bool) (pid : Int) (l : List Event)
    (h : ∀ e ∈ l, kill_event_ok sig sigcont e) :
    (signals_sent l).count (pid, sig)
      = (kill_pids l).count pid + (if sig = SIGCONT then (cont_pids l).count pid else 0) := by
  induction l with
  | nil => simp [signals_sent, kill_pids, cont_pids]
  | cons e l ih =>
    have ih2 := ih (fun x hx => h x (List.mem_cons_of_mem _ hx))
    have he := h e (List.mem_cons_self _ _)
    simp only [signals_sent, kill_pids, cont_pids] at ih2 ⊢
    cases e with
    | kill p sg errno =>
      have hsg : sg = sig := he
      subst hsg
      simp only [List.filterMap_cons, signal_proj, kill_proj, cont_proj, List.map_cons,
        List.count_cons, ih2]
      by_cases hp : p = pid
      · subst hp
        simp
        omega
      · simp [hp]
    | kill_cont p =>
      simp only [List.filterMap_cons, signal_proj, kill_proj, cont_proj,
        List.count_cons, ih2]
      by_cases hs : sig = SIGCONT
      · subst hs
        by_cases hp : p = pid
        · subst hp
          simp
          omega
        · simp [hp]
      · have hs2 : ¬ SIGCONT = sig := fun e => hs e.symm
        simp [hs, hs2]
    | enumerate_processes c p r =>
      simpa only [List.filterMap_cons, signal_proj, kill_proj, cont_proj] using ih2
    | enumerate_subgroups c p r =>
      simpa only [List.filterMap_cons, signal_proj, kill_proj, cont_proj] using ih2
    | rmdir c p r =>
      simpa only [List.filterMap_cons, signal_proj, kill_proj, cont_proj] using ih2
    | attach c p q r =>
      simpa only [List.filterMap_cons, signal_proj, kill_proj, cont_proj] using ih2
    | create c p r =>
      simpa only [List.filterMap_cons, signal_proj, kill_proj, cont_proj] using ih2
    | trim c p d r =>
      simpa only [List.filterMap_cons, signal_proj, kill_proj, cont_proj] using ih2
    | usleep u =>
      simpa only [List.filterMap_cons, signal_proj, kill_proj, cont_proj] using ih2

/-- A pid that was sent a signal was sent the requested one. -/
theorem mem_kill_pids_of_signal (sig : Int) (sigcont : Bool) (l : List Event)
    (h : KillLog sig sigcont l) (p sg : Int) (hm : (p, sg) ∈ signals_sent l) :
    p ∈ kill_pids l := by
  simp only [signals_sent, List.mem_filterMap] at hm
  obtain ⟨e, he, hp⟩ := hm
  cases e with
  | kill p1 sg1 errno =>
    simp only [signal_proj, Option.some.injEq, Prod.mk.injEq] at hp
    obtain ⟨rfl, _⟩ := hp
    simp only [kill_pids, List.mem_map, List.mem_filterMap]
    exact ⟨(p1, -(errno : Int)), ⟨_, he, rfl⟩, rfl⟩
  | kill_cont p1 =>
    simp only [signal_proj, Option.some.injEq, Prod.mk.injEq] at hp
    obtain ⟨rfl, _⟩ := hp
    have hc : p1 ∈ cont_pids l := by
      simp only [cont_pids, List.mem_filterMap]
      exact ⟨_, he, rfl⟩
    have h1 : 0 < (cont_pids l).count p1 := List.count_pos_iff.2 hc
    have h2 := h.2 p1
    exact List.count_pos_iff.1 (by omega)
  | enumerate_processes c q r => simp [signal_proj] at hp
  | enumerate_subgroups c q r => simp [signal_proj] at hp
  | rmdir c q r => simp [signal_proj] at hp
  | attach c q x r => simp [signal_proj] at hp
  | create c q r => simp [signal_proj] at hp
  | trim c q d r => simp [signal_proj] at hp
  | usleep u => simp [signal_proj] at hp

/-! ## C6: the signals sent by `cg_kill_recursive` -/

/-- C6 as stated fails for the signal `SIGCONT` with `sigcont` set: in a cgroup
with the pids 1 and 2, one call of `cg_kill_recursive` calls `kill(1, SIGCONT)`
twice, once for the requested signal and once for the `SIGCONT` that follows a
delivered signal. -/
theorem cg_kill_recursive_sigcont_twice :
    (cg_kill_recursive twoPidWorld 1 (some "cpu".toList) "/a".toList SIGCONT true false false
        none []).2.2
      = [Event.enumerate_processes (some "cpu".toList) "/a".toList 0,
          Event.kill 1 SIGCONT 0, Event.kill_cont 1,
          Event.kill 2 SIGCONT 0,
          Event.enumerate_processes (some "cpu".toList) "/a".toList 0,
          Event.enumerate_subgroups (some "cpu".toList) "/a".toList 0] ∧
    (signals_sent (cg_kill_recursive twoPidWorld 1 (some "cpu".toList) "/a".toList SIGCONT
        true false false none []).2.2).count (1, SIGCONT) = 2 := by
  decide

/-- C6 as amended: in one call of `cg_kill_recursive` (the set is allocated by
the call) `kill(pid, sig)` for the requested signal is called at most once for
any pid, whatever the membership files list; no `kill` call at all is made on
the caller's own pid when `ignore_self` is set; every pid on which `kill` was
called is in the set afterwards; and the `SIGCONT` that follows a delivered
signal is sent at most once to any pid, and only with `sigcont` set. So a pid
is sent the signal `sig` at most once, except that with `sig = SIGCONT` and
`sigcont` set it may be sent it twice. -/
theorem cg_kill_recursive_signals_per_pid (W : World) (depth : Nat) (controller : Option CStr)
    (path : CStr) (sig : Int) (sigcont ignore_self rem : Bool) (log : Log) :
    ∃ new,
      (cg_kill_recursive W depth controller path sig sigcont ignore_self rem none log).2.2
        = log ++ new ∧
      (kill_pids new).Nodup ∧
      (ignore_self = true → ∀ sg, (W.getpid, sg) ∉ signals_sent new) ∧
      (∀ p sg, (p, sg) ∈ signals_sent new →
        p ∈ (cg_kill_recursive W depth controller path sig sigcont ignore_self rem none log).2.1) ∧
      (∀ p, (cont_pids new).count p ≤ 1) ∧
      (sigcont = false → cont_pids new = []) ∧
      (∀ p, (signals_sent new).count (p, sig)
        ≤ (if sig = SIGCONT ∧ sigcont = true then 2 else 1)) := by
  obtain ⟨new, hl, hs⟩ := cg_kill_recursive_sends W depth controller path sig sigcont
    ignore_self rem none log _ rfl
  obtain ⟨new2, hl2, hk⟩ := cg_kill_recursive_killLog W depth controller path sig sigcont
    ignore_self rem none log
  have hnew : new2 = new := List.append_cancel_left (hl2.symm.trans hl)
  subst hnew
  have hcount : ∀ p, (kill_pids new2).count p ≤ 1 := fun p =>
    List.nodup_iff_count_le_one.1 hs.nodup p
  have hcont : ∀ p, (cont_pids new2).count p ≤ 1 := fun p =>
    Nat.le_trans (hk.2 p) (hcount p)
  have hnocont : sigcont = false → cont_pids new2 = [] := by
    intro hsc
    rw [cont_pids, List.filterMap_eq_nil_iff]
    intro e he
    have hok := hk.1 e he
    cases e with
    | kill_cont p =>
      have : sigcont = true := hok
      rw [hsc] at this
      exact Bool.noConfusion this
    | kill p sg errno => rfl
    | enumerate_processes c q r => rfl
    | enumerate_subgroups c q r => rfl
    | rmdir c q r => rfl
    | attach c q x r => rfl
    | create c q r => rfl
    | trim c q d r => rfl
    | usleep u => rfl
  refine ⟨new2, hl, hs.nodup, ?_, ?_, hcont, hnocont, ?_⟩
  · intro hi sg hm
    have hm2 := mem_kill_pids_of_signal sig sigcont new2 hk _ _ hm
    exact (hs.fresh _ hm2).2.2.2 hi rfl
  · intro p sg hm
    have hm2 := mem_kill_pids_of_signal sig sigcont new2 hk _ _ hm
    rw [hs.s_eq]
    exact List.mem_append_left _ (List.mem_reverse.2 hm2)
  · intro p
    rw [count_signals_sent sig sigcont p new2 hk.1]
    have h1 := hcount p
    have h2 := hcont p
    by_cases hsig : sig = SIGCONT
    · cases hsc : sigcont with
      | true =>
        simp only [hsig, and_self, if_true]
        omega
      | false =>
        have := hnocont hsc
        rw [this]
        simp
        omega
    · simp only [hsig, false_and, if_false]
      omega

/-! ## The pids handed to `cg_attach` -/

theorem cg_read_pid_of_pid (ul : Nat) (pid : Int) (h0 : 0 < ul) (h31 : ul < 2 ^ 31) :
    cg_read_pid (some (.num ul)) pid = (1, (ul : Int)) := by
  have hmod : ul % 2 ^ 32 = ul := Nat.mod_eq_of_lt (by omega)
  unfold cg_read_pid pid_t_of_ulong
  simp only [hmod]
  rw [if_neg (by omega), if_pos h31]

theorem readable_of_readable_pids (o : Int × FILE) (h : readable_pids o) : readable o :=
  ⟨h.1, fun x hx => by
    obtain ⟨ul, h0, _, he⟩ := h.2 x hx
    exact ⟨ul, h0, he⟩⟩

theorem gen_body_events (W : World) (ignore_self : Bool) (act : Action) (pid : Int)
    (st : LoopState) :
    (gen_body W ignore_self act pid st).2.log = st.log ∨
      (gen_body W ignore_self act pid st).2.log = st.log ++ (act st pid).2 := by
  unfold gen_body
  split
  · exact Or.inl rfl
  · split
    · exact Or.inl rfl
    · exact Or.inr rfl

/-- On a file of process ids, the loop over the pids calls `cg_attach` on
positive pids only. -/
theorem attach_while_pids (W : World) (ignore_self : Bool) (cto : Option CStr) (pto : CStr)
    (f : FILE) (hf : ∀ x ∈ f, ∃ ul, 0 < ul ∧ ul < 2 ^ 31 ∧ x = Scan.num ul) :
    ∀ (pid : Int) (st : LoopState),
      ∃ new, (gen_while W ignore_self (attach_act W cto pto) f pid st).2.log = st.log ++ new ∧
        ∀ p ∈ attach_pids new, 0 < p := by
  induction f with
  | nil =>
    intro pid st
    refine ⟨[], ?_, by simp [attach_pids]⟩
    unfold gen_while
    simp only
    split
    · split <;> simp
    · simp
  | cons x f ih =>
    intro pid st
    obtain ⟨ul, h0, h31, hx⟩ := hf x (List.mem_cons_self _ _)
    subst hx
    have hrd := cg_read_pid_of_pid ul pid h0 h31
    have ih2 := ih (fun y hy => hf y (List.mem_cons_of_mem _ hy))
    unfold gen_while
    simp only [hrd]
    rw [if_pos (by decide)]
    have hfst := gen_body_fst W ignore_self (attach_act W cto pto) (ul : Int) st
    split
    · rename_i v st1 heq
      rw [heq] at hfst
      exact absurd hfst (by simp)
    · rename_i st1 heq
      obtain ⟨new2, h2, hp2⟩ := ih2 (ul : Int) st1
      rcases gen_body_events W ignore_self (attach_act W cto pto) (ul : Int) st with h | h
      · rw [heq] at h
        simp only at h
        refine ⟨new2, ?_, hp2⟩
        rw [h2, h]
      · rw [heq] at h
        simp only at h
        refine ⟨(attach_act W cto pto st (ul : Int)).2 ++ new2, ?_, ?_⟩
        · rw [h2, h, List.append_assoc]
        · intro p hp
          simp only [attach_pids, List.filterMap_append, List.map_append, List.mem_append] at hp
          rcases hp with hp | hp
          · simp only [attach_act, List.filterMap_cons, attach_proj, List.filterMap_nil,
              List.map_cons, List.map_nil, List.mem_singleton] at hp
            rw [hp]
            exact Int.ofNat_pos.2 h0
          · exact hp2 p hp

/-- With files of process ids on every pass, the loop over the passes calls
`cg_attach` on positive pids only. -/
theorem attach_loop_pids (W : World) (ignore_self : Bool) (cfrom : Option CStr) (pfrom : CStr)
    (cto : Option CStr) (pto : CStr) (n : Nat) :
    ∀ (ret : Int) (s : PidSet) (log : Log),
      passes_readable_pids W cfrom pfrom log.length
        (gen_loop W ignore_self (attach_act W cto pto) cfrom pfrom n ret s log).2.2 →
      ∃ new, (gen_loop W ignore_self (attach_act W cto pto) cfrom pfrom n ret s log).2.2
          = log ++ new ∧ ∀ p ∈ attach_pids new, 0 < p := by
  induction n with
  | zero =>
    intro ret s log _
    exact ⟨[], by simp [gen_loop], by simp [attach_pids]⟩
  | succ n ih =>
    intro ret s log hread
    have htriv : ∀ st pid, (fun _ : List Event => True) (attach_act W cto pto st pid).2 :=
      fun _ _ => trivial
    obtain ⟨wnew, hw, _⟩ := gen_while_log (fun _ => True) trivial (fun _ _ _ _ => trivial)
      W ignore_self (attach_act W cto pto) htriv
      (W.enumerate_processes log.length cfrom pfrom).2 0
      { ret := ret, done := true, s := s, log :=
        log ++ [Event.enumerate_processes cfrom pfrom
          (W.enumerate_processes log.length cfrom pfrom).1] }
    simp only [gen_loop] at hread ⊢
    split at hread
    · refine ⟨[Event.enumerate_processes cfrom pfrom
        (W.enumerate_processes log.length cfrom pfrom).1], ?_, by simp [attach_pids, attach_proj]⟩
      rename_i hneg
      rw [if_pos hneg]
      split <;> rfl
    · rename_i hnn
      rw [if_neg hnn]
      have key : ∀ rest : List Event,
          passes_readable_pids W cfrom pfrom log.length
            (log ++ [Event.enumerate_processes cfrom pfrom
              (W.enumerate_processes log.length cfrom pfrom).1] ++ rest) →
          ∀ p ∈ attach_pids wnew, 0 < p := by
        intro rest hr
        have hrp := hr log.length (Nat.le_refl _) (getElem?_after log _ rest)
        obtain ⟨new1, h1, hp1⟩ := attach_while_pids W ignore_self cto pto
          (W.enumerate_processes log.length cfrom pfrom).2 hrp.2 0
          { ret := ret, done := true, s := s, log :=
            log ++ [Event.enumerate_processes cfrom pfrom
              (W.enumerate_processes log.length cfrom pfrom).1] }
        have : wnew = new1 := List.append_cancel_left (hw.symm.trans h1)
        rw [this]
        exact hp1
      split at hread
      · rename_i v st heq
        rw [heq] at hw
        simp only at hw hread ⊢
        rw [hw] at hread
        refine ⟨[Event.enumerate_processes cfrom pfrom
          (W.enumerate_processes log.length cfrom pfrom).1] ++ wnew, ?_, ?_⟩
        · rw [hw, List.append_assoc]
        · intro p hp
          simp only [attach_pids, List.filterMap_append, List.map_append, List.mem_append] at hp
          rcases hp with hp | hp
          · simp [attach_proj] at hp
          · exact key wnew hread p hp
      · rename_i st heq
        rw [heq] at hw
        simp only at hw
        split at hread
        · rename_i hnd
          rw [if_pos hnd]
          obtain ⟨new2, h2, _⟩ := gen_loop_log (fun _ => True) trivial (fun _ _ _ _ => trivial)
            W ignore_self (attach_act W cto pto) htriv cfrom pfrom (fun _ => trivial) n
            st.ret st.s st.log
          have hread2 : passes_readable_pids W cfrom pfrom st.log.length
              (gen_loop W ignore_self (attach_act W cto pto) cfrom pfrom n st.ret st.s
                st.log).2.2 := by
            intro t ht
            apply hread t
            rw [hw] at ht
            simp only [List.length_append] at ht
            omega
          obtain ⟨new3, h3, hp3⟩ := ih st.ret st.s st.log hread2
          have hwn : ∀ p ∈ attach_pids wnew, 0 < p := by
            apply key (wnew ++ new2)
            rw [h2, hw] at hread
            simpa only [List.append_assoc] using hread
          refine ⟨[Event.enumerate_processes cfrom pfrom
            (W.enumerate_processes log.length cfrom pfrom).1] ++ wnew ++ new3, ?_, ?_⟩
          · rw [h3, hw]
            simp only [List.append_assoc]
          · intro p hp
            simp only [attach_pids, List.filterMap_append, List.map_append,
              List.mem_append] at hp
            rcases hp with (hp | hp) | hp
            · simp [attach_proj] at hp
            · exact hwn p hp
            · exact hp3 p hp
        · rename_i hnd
          rw [if_neg hnd]
          simp only at hread ⊢
          rw [hw] at hread
          refine ⟨[Event.enumerate_processes cfrom pfrom
            (W.enumerate_processes log.length cfrom pfrom).1] ++ wnew, ?_, ?_⟩
          · rw [hw, List.append_assoc]
          · intro p hp
            simp only [attach_pids, List.filterMap_append, List.map_append,
              List.mem_append] at hp
            rcases hp with hp | hp
            · simp [attach_proj] at hp
            · exact key wnew hread p hp

/-! ## C3: the status of `cg_kill` and `cg_migrate` -/

/-- C3: when the membership file can be opened and read on every pass,
`cg_kill` (for a signal that is not negative, as the code asserts) and
`cg_migrate` (with controllers that are not `NULL`, as the code asserts, and
membership files that list process ids, so that every pid handed to `cg_attach`
is positive) return the status of the spec for the results of their actions
(`kill`, `cg_attach`): the first failure other than `ESRCH` if there is one,
otherwise `1` if an action succeeded, otherwise `0`. -/
theorem cg_kill_cg_migrate_status :
    (∀ (W : World) (controller : Option CStr) (path : CStr) (sig : Int)
        (sigcont ignore_self : Bool) (s : Option PidSet) (log : Log),
      0 ≤ sig →
      passes_readable W controller path log.length
        (cg_kill W controller path sig sigcont ignore_self s log).2.2 →
      ∃ new, (cg_kill W controller path sig sigcont ignore_self s log).2.2 = log ++ new ∧
        (cg_kill W controller path sig sigcont ignore_self s log).1
          = some (aggregate (kill_results new))) ∧
    (∀ (W : World) (cfrom pfrom cto pto : CStr) (ignore_self : Bool) (log : Log),
      passes_readable_pids W (some cfrom) pfrom log.length
        (cg_migrate W (some cfrom) pfrom (some cto) pto ignore_self log).2 →
      ∃ new, (cg_migrate W (some cfrom) pfrom (some cto) pto ignore_self log).2 = log ++ new ∧
        (cg_migrate W (some cfrom) pfrom (some cto) pto ignore_self log).1
          = some (aggregate (attach_results new)) ∧
        ∀ p ∈ attach_pids new, 0 < p) := by
  constructor
  · intro W controller path sig sigcont ignore_self s log _ hkill
    obtain ⟨new, st1, hsteps, hout, hcls⟩ :=
      cg_kill_spec W controller path sig sigcont ignore_self s log
    refine ⟨new, ?_, ?_⟩
    · rw [hout]
      exact hsteps.log_eq
    · rcases hcls with h | ⟨_, _, t, ht, hev, hun⟩
      · rw [h, hsteps.ret_eq]
        exact congrArg some (foldl_ret_step_zero _)
      · exact absurd (hkill t ht hev) hun
  · intro W cfrom pfrom cto pto ignore_self log hmigrate
    obtain ⟨new, st1, hsteps, hout, hcls⟩ :=
      cg_migrate_spec W (some cfrom) pfrom (some cto) pto ignore_self log
    have hlog : (cg_migrate W (some cfrom) pfrom (some cto) pto ignore_self log).2
        = log ++ new := by
      rw [hout]
      exact hsteps.log_eq
    refine ⟨new, hlog, ?_, ?_⟩
    · rcases hcls with h | ⟨_, _, t, ht, hev, hun⟩
      · rw [h, hsteps.ret_eq]
        exact congrArg some (foldl_ret_step_zero _)
      · exact absurd (readable_of_readable_pids _ (hmigrate t ht hev)) hun
    · have hm2 : passes_readable_pids W (some cfrom) pfrom log.length
          (gen_loop W ignore_self (attach_act W (some cto) pto) (some cfrom) pfrom
            PID_T_VALUES 0 [] log).2.2 := by
        have : (cg_migrate W (some cfrom) pfrom (some cto) pto ignore_self log).2
            = (gen_loop W ignore_self (attach_act W (some cto) pto) (some cfrom) pfrom
                PID_T_VALUES 0 [] log).2.2 := by
          unfold cg_migrate
          simp only [cg_migrate_loop_eq]
        rw [← this]
        exact hmigrate
      obtain ⟨new2, h2, hp2⟩ := attach_loop_pids W ignore_self (some cfrom) pfrom (some cto) pto
        PID_T_VALUES 0 [] log hm2
      have hlog2 : (cg_migrate W (some cfrom) pfrom (some cto) pto ignore_self log).2
          = log ++ new2 := by
        rw [← h2]
        unfold cg_migrate
        simp only [cg_migrate_loop_eq]
      have : new = new2 := List.append_cancel_left (hlog.symm.trans hlog2)
      rw [this]
      exact hp2

/-- C3 in a world whose membership file always lists the pids 7, 8, 7: the
`kill` of pid 8 fails with `EPERM`, so `cg_kill` returns `-EPERM`; the attach
of pid 7 fails with `ESRCH` and that of pid 8 succeeds, so `cg_migrate`
returns `1`. -/
theorem cg_kill_cg_migrate_status_witness :
    (cg_kill busyWorld (some "cpu".toList) "/a".toList SIGTERM true true none []).1
      = some (-1) ∧
    (cg_migrate busyWorld (some "cpu".toList) "/a".toList (some "cpu".toList) "/b".toList
      true []).1 = some 1 ∧
    (∃ new, (cg_kill busyWorld (some "cpu".toList) "/a".toList SIGTERM true true none []).2.2
        = [] ++ new ∧
      (cg_kill busyWorld (some "cpu".toList) "/a".toList SIGTERM true true none []).1
        = some (aggregate (kill_results new))) ∧
    (∃ new, (cg_migrate busyWorld (some "cpu".toList) "/a".toList (some "cpu".toList)
        "/b".toList true []).2 = [] ++ new ∧
      (cg_migrate busyWorld (some "cpu".toList) "/a".toList (some "cpu".toList)
        "/b".toList true []).1 = some (aggregate (attach_results new)) ∧
      ∀ p ∈ attach_pids new, 0 < p) :=
  ⟨by decide, by decide,
    cg_kill_cg_migrate_status.1 busyWorld (some "cpu".toList) "/a".toList SIGTERM true true
      none [] (by decide) (fun _ _ _ => ⟨Int.le_refl 0, by simp [busyWorld]⟩),
    cg_kill_cg_migrate_status.2 busyWorld "cpu".toList "/a".toList "cpu".toList "/b".toList
      true [] (fun _ _ _ => ⟨Int.le_refl 0, by
        intro x hx
        simp only [busyWorld, List.mem_cons, List.mem_singleton, List.not_mem_nil,
          or_false] at hx
        rcases hx with rfl | rfl | rfl
        · exact ⟨7, by decide, by decide, rfl⟩
        · exact ⟨8, by decide, by decide, rfl⟩
        · exact ⟨7, by decide, by decide, rfl⟩⟩)⟩

end CgroupUtil
